import Mathlib

/-!
# Pack / Unpack: a dictionary text compressor with 9-bit codes

A shallow embedding of `bits.c`, `wordlist.c`, `pack.c` and `unpack.c`.

Conventions of the embedding

* A byte (`char`, `unsigned char`) is a `Nat`; a store into an `unsigned char`
  is written `% 256`.
* A C string is the list of its bytes before the terminating NUL.
* An output `FILE *` is the list of bytes written so far (`fputc` appends);
  an input `FILE *` is the list of bytes not yet read plus the end-of-file
  indicator (`InFile`).
* `int` values that the program holds in a non-negative range (`code`,
  `bitCount`, `len`, `pos`, `capacity`) are `Nat`; shifts are the `Nat` shifts.
  Where such a value could pass the largest `int` (the cursor `pos` of `pack`,
  the `capacity` of `readFile`, the number read by `fscanf`) the run is
  `Run.undefined` from there on.
* The array `copyString` of `bestCode` and the buffer of `readFile` are the lists
  of their bytes; a store outside the array, a read outside the word table and
  the use of a byte that was never stored are `Run.undefined`.
* Loops carry a fuel argument so that every definition is structurally
  recursive and can be evaluated.
-/

namespace PackUnpack

/-! ## Outcomes of a run -/

/-- The fatal exits of the programs (a message on stderr, then `exit( EXIT_FAILURE )`). -/
inductive Fatal where
  | cantOpenWordFile
  | invalidWordFile
  | invalidCharacterCode (next : Nat)
  deriving DecidableEq, Repr

/-- Outcome of running a piece of the program: it finished with a value, it
called `exit( EXIT_FAILURE )`, it reached behaviour that C leaves undefined
(nothing is reported by the program in that case), or the model ran out of fuel. -/
inductive Run (α : Type) where
  | done (a : α)
  | fatal (e : Fatal)
  | undefined
  | fuel
  deriving DecidableEq, Repr

/-! ## bits.c -/

/-- Number of bits per byte. -/
def BITS_PER_BYTE : Nat := 8

/-- Number of bits in each code written to or read from a file. -/
def BITS_PER_CODE : Nat := 9

/-- Buffer space for up to 8 bits that are not finished processing:
`bits` is the `unsigned char` storage, `bitCount` the number of buffered bits. -/
structure PendingBits where
  bits : Nat
  bitCount : Nat
  deriving DecidableEq, Repr

/-- An input stream: the bytes not yet read and the end-of-file indicator. -/
structure InFile where
  data : List Nat
  eof : Bool
  deriving DecidableEq, Repr

/-- The C library `fgetc`: the next byte, or `EOF` (-1) with the end-of-file
indicator set when no byte is left. -/
def fgetc (fp : InFile) : Int × InFile :=
  match fp.data with
  | [] => (-1, { fp with eof := true })
  | b :: rest => ((b : Int), { fp with data := rest })

/-- The C library `feof`. -/
def feof (fp : InFile) : Bool := fp.eof

/-- Conversion of an `int` to `unsigned char`. -/
def toUChar (c : Int) : Nat := (c % 256).toNat

/-- Embedding of `writeCode`: returns the new pending state and the output file. -/
def writeCode (code : Nat) (pending : PendingBits) (fp : List Nat) : PendingBits × List Nat :=
  let tempcode := code <<< pending.bitCount
  let pending1 : PendingBits := { pending with bits := (pending.bits + tempcode) % 256 }
  let tempcode := code >>> (BITS_PER_BYTE - pending.bitCount)
  let bitsRemaining := pending.bitCount + 1
  let fp := fp ++ [pending1.bits]
  let pending2 : PendingBits := { bits := tempcode % 256, bitCount := bitsRemaining }
  if pending2.bitCount = BITS_PER_BYTE then
    ({ bits := 0, bitCount := 0 }, fp ++ [pending2.bits])
  else
    (pending2, fp)

/-- Embedding of `flushBits`. -/
def flushBits (pending : PendingBits) (fp : List Nat) : PendingBits × List Nat :=
  let tempcode := 0
  let pending1 : PendingBits := { pending with bits := (pending.bits + tempcode) % 256 }
  if pending1.bitCount > 0 then
    ({ pending1 with bits := 0 }, fp ++ [pending1.bits])
  else
    (pending1, fp)

/-- Embedding of `readCode`: returns the code (or -1), the new pending state
and the input file. -/
def readCode (pending : PendingBits) (fp : InFile) : Int × PendingBits × InFile :=
  let r := fgetc fp
  let temp := toUChar r.1
  let fp := r.2
  if feof fp then (-1, pending, fp) else
  if pending.bitCount = 0 then
    let r := fgetc fp
    let maybe := toUChar r.1
    let fp := r.2
    if feof fp then (-1, pending, fp) else
    let pending1 : PendingBits := { pending with bits := maybe }
    let maybe := (maybe <<< (BITS_PER_BYTE - 1)) % 256
    let code := 0 + maybe
    let code := code <<< 1
    let code := code + temp
    let pending2 : PendingBits := { pending1 with bitCount := BITS_PER_BYTE - 1 }
    let pending3 : PendingBits := { pending2 with bits := pending2.bits >>> 1 }
    ((code : Int), pending3, fp)
  else
    let maybe := pending.bits
    let pending1 : PendingBits :=
      { pending with bits := (temp >>> (BITS_PER_CODE - pending.bitCount)) % 256 }
    let temp := (temp <<< (pending1.bitCount - 1)) % 256
    let code := 0 + temp
    let code := code <<< 1
    let code := code + maybe
    let pending2 : PendingBits := { pending1 with bitCount := pending1.bitCount - 1 }
    ((code : Int), pending2, fp)

/-- The codes of a list written one after the other with `writeCode`. -/
def writeCodes : List Nat → PendingBits → List Nat → PendingBits × List Nat
  | [], pending, fp => (pending, fp)
  | code :: rest, pending, fp =>
    let r := writeCode code pending fp
    writeCodes rest r.1 r.2

/-- The file produced by writing the codes from `pending = {0, 0}` into an empty
file and then calling `flushBits`. -/
def packCodes (codes : List Nat) : List Nat :=
  let r := writeCodes codes { bits := 0, bitCount := 0 } []
  (flushBits r.1 r.2).2

/-- The results of `k` successive calls of `readCode`. -/
def readCodes : Nat → PendingBits → InFile → List Int
  | 0, _, _ => []
  | k + 1, pending, fp =>
    let r := readCode pending fp
    r.1 :: readCodes k r.2.1 r.2.2

/-- The number denoted by a byte sequence read low byte first: the sum of `b_i * 256 ^ i`. -/
def streamValue : List Nat → Nat
  | [] => 0
  | b :: rest => b + 256 * streamValue rest

/-- The number denoted by a sequence of 9-bit codes, first code lowest:
the sum of `c_m * 2 ^ (9 m)`. -/
def codesValue : List Nat → Nat
  | [] => 0
  | c :: rest => c + 512 * codesValue rest

/-! ## wordlist.c -/

/-- Maximum length of a word in wordlist. -/
def WORD_MAX : Nat := 20

/-- Minimum length of a word in wordlist. -/
def WORD_MIN : Nat := 2

/-- Maximum number of words in the word list. -/
def MAX_LISTLEN : Nat := 512

def TAB : Nat := 9
def NEWLINE : Nat := 10
def CARRIAGE : Nat := 13
def BOTTOM_RANGE : Nat := 32

/-- Number of ASCII values from `BOTTOM_RANGE` up. -/
def CYCLE : Nat := 95

/-- The `Word` type (`char[ WORD_MAX + 1 ]`), as the string it holds. -/
abbrev Word := List Nat

/-- The word list: the words in table order; `len` is the length of the list.
The `capacity` field and the reallocation of the table are storage management and
are not represented. -/
structure WordList where
  words : List Word
  deriving DecidableEq, Repr

/-- The `len` field. -/
def WordList.len (list : WordList) : Nat := list.words.length

/-- Conversion of an `int` to (signed) `char`. -/
def toChar (c : Int) : Int :=
  let u := c % 256
  if u < 128 then u else u - 256

/-- Embedding of `validChar`; `ch` is the value of the `char` argument. -/
def validChar (ch : Int) : Bool :=
  let yesno := false
  let yesno := if ch = TAB ∨ ch = NEWLINE ∨ ch = CARRIAGE then true else yesno
  (List.range CYCLE).foldl
    (fun yesno i => if ch = ((BOTTOM_RANGE + i : Nat) : Int) then true else yesno) yesno

/-- The C library `strcmp` on two strings given as byte lists (a NUL byte or the end
of the list ends the string): zero, negative or positive, here the difference of the
first pair of bytes that differ. -/
def strcmp : List Nat → List Nat → Int
  | [], [] => 0
  | [], b :: _ => 0 - (b : Int)
  | a :: _, [] => (a : Int)
  | a :: as, b :: bs =>
    if a = b then (if a = 0 then 0 else strcmp as bs) else (a : Int) - (b : Int)

/-- Embedding of `compareWords`. -/
def compareWords (first second : Word) : Int :=
  strcmp first second

/-- Embedding of `addValidChars`: the 98 one-character words are appended in the order
tab, newline, carriage return, then the 95 bytes from `BOTTOM_RANGE` up. -/
def addValidChars (list : WordList) : WordList :=
  let list : WordList := { words := list.words ++ [[TAB]] }
  let list : WordList := { words := list.words ++ [[NEWLINE]] }
  let list : WordList := { words := list.words ++ [[CARRIAGE]] }
  (List.range CYCLE).foldl
    (fun (list : WordList) i => { words := list.words ++ [[BOTTOM_RANGE + i]] }) list

/-- The C library `isspace` in the C locale. -/
def isspace (c : Nat) : Bool := c = 32 || (9 ≤ c && c ≤ 13)

/-- The C library `isdigit`. -/
def isdigit (c : Nat) : Bool := 48 ≤ c && c ≤ 57

/-- White space skipped ahead of a `%d` conversion. -/
def skipSpace : List Nat → List Nat
  | [] => []
  | c :: rest => if isspace c then skipSpace rest else c :: rest

/-- The decimal digits at the head of the input, accumulated onto `acc`, and the
input after them. -/
def scanDigits : List Nat → Nat → Nat × List Nat
  | [], acc => (acc, [])
  | c :: rest, acc =>
    if isdigit c then scanDigits rest (acc * 10 + (c - 48)) else (acc, c :: rest)

/-- The C library call `fscanf( fp, "%d", &dest )`, returning the value of `dest` after
the call and the stream: white space is skipped, then an optional sign and a non-empty
run of decimal digits are converted. On an input or matching failure `dest` keeps its
value. A number that does not fit an `int` is undefined behaviour in C. -/
def fscanf_d (fp : InFile) (dest : Int) : Run (Int × InFile) :=
  match skipSpace fp.data with
  | [] => .done (dest, { data := [], eof := true })
  | c :: rest =>
    let body := if c = 45 ∨ c = 43 then rest else c :: rest
    match body with
    | [] => .done (dest, { data := [], eof := true })
    | d :: rest1 =>
      if isdigit d then
        let r := scanDigits (d :: rest1) 0
        let v : Int := if c = 45 then 0 - (r.1 : Int) else (r.1 : Int)
        if -2147483648 ≤ v ∧ v ≤ 2147483647 then
          .done (v, { data := r.2, eof := r.2.isEmpty })
        else .undefined
      else .done (dest, { data := d :: rest1, eof := false })

/-- The inner `for` loop of `readWordList`: `n` more characters are read with `getc`
and appended to `wordString`; `none` is the exit on an invalid character. -/
def readWordChars : Nat → InFile → List Nat → Option (List Nat × InFile)
  | 0, fp, wordString => some (wordString, fp)
  | n + 1, fp, wordString =>
    let r := fgetc fp
    let temp := toChar r.1
    if validChar temp then readWordChars n r.2 (wordString ++ [temp.toNat]) else none

/-- The `while ( !feof(fp) )` loop of `readWordList`. -/
def readWordsLoop : Nat → InFile → WordList → Run WordList
  | 0, _, _ => .fuel
  | fuel + 1, fp, list =>
    if feof fp then .done list else
    match fscanf_d fp (-1) with
    | .done (wordLength, fp) =>
      if wordLength = -1 then .done list
      else if wordLength ≤ (WORD_MAX : Int) ∧ wordLength ≥ (WORD_MIN : Int) then
        let fp := (fgetc fp).2
        match readWordChars wordLength.toNat fp [] with
        | some (wordString, fp) =>
          let list : WordList := { words := list.words ++ [wordString] }
          if list.len > MAX_LISTLEN then .fatal .invalidWordFile
          else readWordsLoop fuel fp list
        | none => .fatal .invalidWordFile
      else .fatal .invalidWordFile
    | .fatal e => .fatal e
    | .undefined => .undefined
    | .fuel => .fuel

/-- The C library `qsort` with `compareWords`: the table sorted into ascending order
(here by insertion; strings that compare equal are the same string, so every sorting
procedure gives the same table). -/
def qsort (words : List Word) : List Word :=
  words.insertionSort (fun a b => compareWords a b ≤ 0)

/-- Embedding of `readWordList`; the argument is the content of the word file, or
`none` when the file cannot be opened. -/
def readWordList (fname : Option (List Nat)) : Run WordList :=
  match fname with
  | none => .fatal .cantOpenWordFile
  | some content =>
    let list := addValidChars { words := [] }
    match readWordsLoop (content.length + 1) { data := content, eof := false } list with
    | .done list => .done { words := qsort list.words }
    | .fatal e => .fatal e
    | .undefined => .undefined
    | .fuel => .fuel

/-- The loop of the C library `bsearch` (binary search between `l` and `u`). -/
def bsearchLoop (key : Word) (base : List Word) : Nat → Nat → Nat → Option Nat
  | 0, _, _ => none
  | fuel + 1, l, u =>
    if l < u then
      let idx := (l + u) / 2
      let comparison := compareWords key (base.getD idx [])
      if comparison < 0 then bsearchLoop key base fuel l idx
      else if comparison > 0 then bsearchLoop key base fuel (idx + 1) u
      else some idx
    else none

/-- The C library `bsearch` with `compareWords`: the index of an element equal to
`key`, or `none` for the null pointer. -/
def bsearch (key : Word) (base : List Word) (nmemb : Nat) : Option Nat :=
  bsearchLoop key base (nmemb + 1) 0 nmemb

/-- The C library call `strncpy( dest, src, n )` for an array `dest` of at least `n`
bytes: the bytes of the string `src` (it ends at a NUL byte or at the end of the list),
at most `n` of them, are stored from index 0 on; when the string is shorter than `n`,
NUL bytes are stored up to index `n - 1`. The bytes of `dest` from index `n` on stay. -/
def strncpy (dest src : List Nat) (n : Nat) : List Nat :=
  let s := (src.takeWhile (fun c => c ≠ 0)).take n
  s ++ List.replicate (n - s.length) 0 ++ dest.drop n

/-- The `for` loop of `bestCode`: `k` iterations remain, the loop variable is `i` and
`copyString` is the content of the local array. Each iteration copies
`WORD_MAX + 1 - i` bytes with `strncpy`, stores a NUL at index `WORD_MAX + 1 - i` and
looks the string in `copyString` up with `bsearch`. The store is outside the array when
the index is not below its size, which is undefined (the `strncpy` before it stays
inside the array whenever the store does). The result is `tempWord` when the loop is
left: the index of the entry found, or `none` for the null pointer. -/
def bestCodeLoop (wordList : WordList) (str : List Nat) :
    Nat → Nat → List Nat → Run (Option Nat)
  | 0, _, _ => .done none
  | k + 1, i, copyString =>
    let copyString := strncpy copyString str (WORD_MAX + 1 - i)
    if WORD_MAX + 1 - i < copyString.length then
      let copyString := copyString.set (WORD_MAX + 1 - i) 0
      match bsearch copyString wordList.words wordList.len with
      | some idx => .done (some idx)
      | none => bestCodeLoop wordList str k (i + 1) copyString
    else .undefined

/-- Embedding of `bestCode`. The array `copyString` has `WORD_MAX + 1` bytes, all NUL
at first, and the loop starts at `i = 0`. When the loop ends without an entry found,
`tempWord` is the null pointer and the index computed from it is undefined. -/
def bestCode (wordList : WordList) (str : List Nat) : Run Nat :=
  let copyString := List.replicate (WORD_MAX + 1) 0
  match bestCodeLoop wordList str (WORD_MAX + 1) 0 copyString with
  | .done (some ind) => .done ind
  | .done none => .undefined
  | .fatal e => .fatal e
  | .undefined => .undefined
  | .fuel => .fuel

/-! ## pack.c and unpack.c -/

/-- The largest value of an `int`. -/
def INT_MAX : Nat := 2147483647

/-- The encoding loop of `pack`: `buffer` is the string in the buffer (the NUL that ends
it is at index `buffer.length`), `pos` the cursor, an `int`. Reading `buffer[ pos ]`
past the NUL is outside the string; a cursor that `pos += strlen( ... )` takes above
`INT_MAX` does not fit the `int` and no longer indexes the buffer: both are undefined. -/
def packLoop (wordList : WordList) (buffer : List Nat) :
    Nat → Nat → PendingBits → List Nat → Run (PendingBits × List Nat)
  | 0, _, _, _ => .fuel
  | fuel + 1, pos, pending, output =>
    if pos < buffer.length then
      match bestCode wordList (buffer.drop pos) with
      | .done code =>
        let r := writeCode code pending output
        match wordList.words[code]? with
        | some w =>
          if pos + w.length ≤ INT_MAX then
            packLoop wordList buffer fuel (pos + w.length) r.1 r.2
          else .undefined
        | none => .undefined
      | .fatal e => .fatal e
      | .undefined => .undefined
      | .fuel => .fuel
    else if pos = buffer.length then .done (pending, output)
    else .undefined

/-- The body of `pack` after the files are read: the compressed file. -/
def pack (wordList : WordList) (buffer : List Nat) : Run (List Nat) :=
  match packLoop wordList buffer (buffer.length + 1) 0 { bits := 0, bitCount := 0 } [] with
  | .done r => .done (flushBits r.1 r.2).2
  | .fatal e => .fatal e
  | .undefined => .undefined
  | .fuel => .fuel

/-- The decoding loop of `unpack`. A code that is not an index of the table reads
outside the table, which is undefined. -/
def unpackLoop (wordList : WordList) : Nat → PendingBits → InFile → List Nat → Run (List Nat)
  | 0, _, _, _ => .fuel
  | fuel + 1, pending, input, output =>
    if feof input then .done output else
    let r := readCode pending input
    if r.1 ≠ -1 then
      if r.1 < 0 then .undefined else
      match wordList.words[r.1.toNat]? with
      | some w => unpackLoop wordList fuel r.2.1 r.2.2 (output ++ w)
      | none => .undefined
    else unpackLoop wordList fuel r.2.1 r.2.2 output

/-- The body of `unpack` after the files are opened: the text written. -/
def unpack (wordList : WordList) (input : List Nat) : Run (List Nat) :=
  unpackLoop wordList (input.length + 2) { bits := 0, bitCount := 0 }
    { data := input, eof := false } []

/-! ## Vocabulary used to state the properties -/

/-- The 98 one-character words in the order `addValidChars` inserts them. -/
def singleChars : List Word :=
  [[TAB], [NEWLINE], [CARRIAGE]] ++ (List.range CYCLE).map (fun i => [BOTTOM_RANGE + i])

/-- A word that `readWordList` accepts from the word file: between `WORD_MIN` and
`WORD_MAX` bytes, each of them in the alphabet. -/
def ValidWord (w : Word) : Prop :=
  WORD_MIN ≤ w.length ∧ w.length ≤ WORD_MAX ∧ ∀ b ∈ w, validChar (b : Int) = true

/-- A text of alphabet bytes only. -/
def ValidText (s : List Nat) : Prop := ∀ b ∈ s, validChar (b : Int) = true

instance instDecidableValidWord (w : Word) : Decidable (ValidWord w) := by
  unfold ValidWord
  infer_instance

instance instDecidableValidText (s : List Nat) : Decidable (ValidText s) := by
  unfold ValidText
  infer_instance

/-- Decimal digits of `n` as ASCII bytes, pushed in front of `acc`. -/
def decimalAux : Nat → Nat → List Nat → List Nat
  | 0, _, acc => acc
  | fuel + 1, n, acc =>
    if n < 10 then (48 + n) :: acc else decimalAux fuel (n / 10) ((48 + n % 10) :: acc)

/-- The decimal numeral of `n` as ASCII bytes. -/
def decimal (n : Nat) : List Nat := decimalAux (n + 1) n []

/-- The decimal numeral of an integer, with a minus sign when negative. -/
def renderInt (z : Int) : List Nat :=
  if z < 0 then 45 :: decimal z.natAbs else decimal z.natAbs

/-- One record of the word file, `<length> <word-bytes>` and a line feed. -/
def renderRecord (r : Int × List Nat) : List Nat :=
  renderInt r.1 ++ 32 :: (r.2 ++ [10])

/-- The word file made of the given records (declared length, word bytes). -/
def renderRecords : List (Int × List Nat) → List Nat
  | [] => []
  | r :: rest => renderRecord r ++ renderRecords rest

/-- The word file that lists the given words, each with its own length. -/
def renderWords (ws : List Word) : List Nat :=
  renderRecords (ws.map (fun w => ((w.length : Int), w)))

/-- What the rest of the program relies on in a word list: the table is in ascending
`compareWords` order, has at most `MAX_LISTLEN` entries, every entry is a string of
1 to `WORD_MAX` alphabet bytes, and every alphabet byte is an entry by itself. -/
structure IsDict (wl : WordList) : Prop where
  sorted : wl.words.Sorted (fun a b => compareWords a b ≤ 0)
  len_le : wl.len ≤ MAX_LISTLEN
  word_len : ∀ w ∈ wl.words, 1 ≤ w.length ∧ w.length ≤ WORD_MAX
  word_valid : ∀ w ∈ wl.words, ValidText w
  singles : ∀ b : Nat, validChar (b : Int) = true → [b] ∈ wl.words

/-- The text a sequence of codes stands for: the table entries, one after the other. -/
def decodeCodes (wl : WordList) : List Nat → List Nat
  | [] => []
  | c :: rest => wl.words.getD c [] ++ decodeCodes wl rest

/-- Invariant of the writer after `K` codes of total value `N`: `K mod 8` bits are
buffered, and the bytes written followed by the buffered bits denote `N`. -/
structure WInv (K : Nat) (p : PendingBits) (out : List Nat) (N : Nat) : Prop where
  cnt : p.bitCount = K % 8
  lt : p.bits < 2 ^ p.bitCount
  len : out.length = K + K / 8
  val : streamValue out + p.bits * 256 ^ out.length = N
  bytes : ∀ b ∈ out, b < 256

/-- Invariant of the reader: the buffered bits followed by the unread bytes
hold exactly the codes `cs` and at most 7 further bits. -/
structure RInv (cs : List Nat) (p : PendingBits) (rest : List Nat) : Prop where
  cnt : p.bitCount ≤ 7
  lt : p.bits < 2 ^ p.bitCount
  bytes : ∀ b ∈ rest, b < 256
  val : p.bits + 2 ^ p.bitCount * streamValue rest = codesValue cs
  lo : 9 * cs.length ≤ p.bitCount + 8 * rest.length
  hi : p.bitCount + 8 * rest.length ≤ 9 * cs.length + 7

/-! ## pack.c: reading the input file -/

/-- Memory obtained from `malloc`: `n` bytes whose content is indeterminate (`none`). -/
def malloc (n : Nat) : List (Option Nat) := List.replicate n none

/-- The call `memcpy( dst, src, n )`: the first `n` bytes of `src` over those of `dst`. -/
def memcpy (dst src : List (Option Nat)) (n : Nat) : List (Option Nat) :=
  src.take n ++ dst.drop n

/-- The growth step at the head of the `readFile` loop: when `len` has reached
`capacity`, the capacity is doubled and the first `len` bytes are copied into newly
allocated memory of `capacity + 1` bytes. Returns the capacity and the buffer; `none`
when the doubled capacity does not fit an `int` (signed overflow, which is
undefined). -/
def growBuffer (capacity : Nat) (buffer : List (Option Nat)) (len : Nat) :
    Option (Nat × List (Option Nat)) :=
  if len ≥ capacity then
    if capacity * 2 ≤ INT_MAX then
      some (capacity * 2, memcpy (malloc (capacity * 2 + 1)) buffer len)
    else none
  else some (capacity, buffer)

/-- The `while ( !feof(fp) )` loop of `readFile` in `pack.c`; `next` is the byte read
last. The buffer is the allocated memory, byte by byte. -/
def readFileLoop : Nat → InFile → List (Option Nat) → Nat → Nat → Nat →
    Run (List (Option Nat))
  | 0, _, _, _, _, _ => .fuel
  | fuel + 1, fp, buffer, capacity, len, next =>
    if feof fp then .done buffer else
    match growBuffer capacity buffer len with
    | none => .undefined
    | some grown =>
      let capacity := grown.1
      let buffer := grown.2
      if validChar (toChar (next : Int)) then
        let buffer := buffer.set len (some next)
        let len := len + 1
        let buffer := buffer.set len (some 0)
        let r := fgetc fp
        readFileLoop fuel r.2 buffer capacity len (toUChar r.1)
      else .fatal (.invalidCharacterCode next)

/-- Embedding of `readFile` of `pack.c`: the buffer it returns. -/
def readFile (fp : InFile) : Run (List (Option Nat)) :=
  let capacity := 5
  let buffer := malloc (capacity + 1)
  let len := 0
  let r := fgetc fp
  readFileLoop (fp.data.length + 1) r.2 buffer capacity len (toUChar r.1)

/-- The string held in a buffer: the bytes before the first NUL. There is none when an
indeterminate byte, or the end of the allocation, comes before a NUL. -/
def cstring : List (Option Nat) → Option (List Nat)
  | [] => none
  | none :: _ => none
  | some b :: rest =>
    if b = 0 then some [] else
    match cstring rest with
    | some s => some (b :: s)
    | none => none

/-- The program `pack` from the content of the input file on: `readFile`, then the
encoding loop on the string in the buffer. -/
def packFile (wordList : WordList) (input : List Nat) : Run (List Nat) :=
  match readFile { data := input, eof := false } with
  | .done buffer =>
    match cstring buffer with
    | some text => pack wordList text
    | none => .undefined
  | .fatal e => .fatal e
  | .undefined => .undefined
  | .fuel => .fuel

/-! ## Traces of the two drivers -/

/-- The iterations of the encoding loop of `pack`: for each one the cursor `pos` at its
start and the code passed to `writeCode`. -/
def packTrace (wordList : WordList) (buffer : List Nat) : Nat → Nat → Run (List (Nat × Nat))
  | 0, _ => .fuel
  | fuel + 1, pos =>
    if pos < buffer.length then
      match bestCode wordList (buffer.drop pos) with
      | .done code =>
        match wordList.words[code]? with
        | some w =>
          if pos + w.length ≤ INT_MAX then
            match packTrace wordList buffer fuel (pos + w.length) with
            | .done rest => .done ((pos, code) :: rest)
            | .fatal e => .fatal e
            | .undefined => .undefined
            | .fuel => .fuel
          else .undefined
        | none => .undefined
      | .fatal e => .fatal e
      | .undefined => .undefined
      | .fuel => .fuel
    else if pos = buffer.length then .done []
    else .undefined

/-- The codes `pack` emits for a text, in order. -/
def packedCodes (wordList : WordList) (buffer : List Nat) : Run (List Nat) :=
  match packTrace wordList buffer (buffer.length + 1) 0 with
  | .done steps => .done (steps.map (fun s => s.2))
  | .fatal e => .fatal e
  | .undefined => .undefined
  | .fuel => .fuel

/-- The values other than -1 that the calls of `readCode` in the loop of `unpack`
return, in order, until the input is at end-of-file (the table is not consulted). -/
def unpackTrace : Nat → PendingBits → InFile → Run (List Int)
  | 0, _, _ => .fuel
  | fuel + 1, pending, input =>
    if feof input then .done [] else
    let r := readCode pending input
    match unpackTrace fuel r.2.1 r.2.2 with
    | .done rest => .done (if r.1 ≠ -1 then r.1 :: rest else rest)
    | .fatal e => .fatal e
    | .undefined => .undefined
    | .fuel => .fuel

/-- The codes the loop of `unpack` obtains from a file. -/
def unpackedCodes (input : List Nat) : Run (List Int) :=
  unpackTrace (input.length + 2) { bits := 0, bitCount := 0 } { data := input, eof := false }

/-- The first `k` groups of 9 bits of the number `v`, lowest first. -/
def streamCodes : Nat → Nat → List Nat
  | 0, _ => []
  | k + 1, v => v % 512 :: streamCodes k (v / 512)

/-- The position of the one-character word of byte `b` in the sorted table of the 98
one-character words. -/
def singleCode (b : Nat) : Nat :=
  if b = TAB then 0 else if b = NEWLINE then 1 else if b = CARRIAGE then 2 else b - 29

/-! ## Bit codec: writer and reader invariants -/

theorem toUChar_ofNat (t : Nat) (h : t < 256) : toUChar (t : Int) = t := by
  unfold toUChar; omega

theorem streamValue_append (out : List Nat) (b : Nat) :
    streamValue (out ++ [b]) = streamValue out + b * 256 ^ out.length := by
  induction out with
  | nil => simp [streamValue]
  | cons a as ih =>
    rw [List.cons_append, streamValue, ih, streamValue, List.length_cons, pow_succ]
    ring

theorem write_arith (n bits c : Nat) (hn : n ≤ 7) (hb : bits < 2 ^ n) (hc : c < 512) :
    (bits + c * 2 ^ n) % 256 + 256 * (c / 2 ^ (8 - n)) = bits + c * 2 ^ n
      ∧ c / 2 ^ (8 - n) < 2 ^ (n + 1) := by
  interval_cases n <;> simp at * <;> omega

theorem pow512_split (K : Nat) : 512 ^ K = 2 ^ (K % 8) * 256 ^ (K + K / 8) := by
  have h1 : (512 : Nat) = 2 ^ 9 := by norm_num
  have h2 : (256 : Nat) = 2 ^ 8 := by norm_num
  rw [h1, h2, ← pow_mul, ← pow_mul, ← pow_add]
  congr 1
  omega

theorem val_step (X S r q b m : Nat) (hh : r + 256 * q = b + m) :
    S + r * X + q * (256 * X) = S + b * X + m * X := by
  calc S + r * X + q * (256 * X) = S + (r + 256 * q) * X := by ring
    _ = S + (b + m) * X := by rw [hh]
    _ = S + b * X + m * X := by ring

theorem writeCode_lt7 (c : Nat) (p : PendingBits) (out : List Nat) (h : p.bitCount < 7) :
    writeCode c p out =
      ({ bits := (c / 2 ^ (8 - p.bitCount)) % 256, bitCount := p.bitCount + 1 },
        out ++ [(p.bits + c * 2 ^ p.bitCount) % 256]) := by
  have hne : ¬ (p.bitCount + 1 = 8) := by omega
  simp only [writeCode, BITS_PER_BYTE, Nat.shiftLeft_eq, Nat.shiftRight_eq_div_pow, hne]
  rfl

theorem writeCode_eq7 (c : Nat) (p : PendingBits) (out : List Nat) (h : p.bitCount = 7) :
    writeCode c p out =
      ({ bits := 0, bitCount := 0 },
        (out ++ [(p.bits + c * 2 ^ p.bitCount) % 256]) ++ [(c / 2 ^ (8 - p.bitCount)) % 256]) := by
  have he : p.bitCount + 1 = 8 := by omega
  simp only [writeCode, BITS_PER_BYTE, Nat.shiftLeft_eq, Nat.shiftRight_eq_div_pow, he]
  rfl

theorem WInv_init : WInv 0 { bits := 0, bitCount := 0 } [] 0 :=
  ⟨rfl, by simp, rfl, by simp [streamValue], by simp⟩

theorem writeCode_WInv (K : Nat) (p : PendingBits) (out : List Nat) (N c : Nat)
    (h : WInv K p out N) (hc : c < 512) :
    WInv (K + 1) (writeCode c p out).1 (writeCode c p out).2 (N + c * 512 ^ K) := by
  obtain ⟨hcnt, hlt, hlen, hval, hbytes⟩ := h
  have hn : p.bitCount ≤ 7 := by omega
  obtain ⟨ha, hq⟩ := write_arith p.bitCount p.bits c hn hlt hc
  have hq256 : c / 2 ^ (8 - p.bitCount) < 256 := by
    have : 2 ^ (p.bitCount + 1) ≤ 2 ^ 8 := Nat.pow_le_pow_right (by norm_num) (by omega)
    omega
  have hsplit := pow512_split K
  rw [← hcnt, ← hlen] at hsplit
  have hm : c * 512 ^ K = (c * 2 ^ p.bitCount) * 256 ^ out.length := by
    rw [hsplit]; ring
  by_cases h7 : p.bitCount = 7
  · rw [writeCode_eq7 c p out h7]
    refine ⟨?_, ?_, ?_, ?_, ?_⟩
    · show 0 = (K + 1) % 8
      omega
    · show 0 < 2 ^ 0
      norm_num
    · show ((out ++ _) ++ _).length = _
      rw [List.length_append, List.length_append, List.length_singleton, List.length_singleton]
      omega
    · show streamValue ((out ++ _) ++ _) + 0 * _ = _
      rw [streamValue_append, streamValue_append, Nat.mod_eq_of_lt hq256, List.length_append,
        List.length_singleton, pow_succ, zero_mul, add_zero, hm, ← hval,
        Nat.mul_comm (256 ^ out.length) 256]
      exact val_step _ _ _ _ _ _ ha
    · intro b hb
      rw [List.mem_append, List.mem_append, List.mem_singleton, List.mem_singleton] at hb
      rcases hb with (hb | hb) | hb
      · exact hbytes b hb
      · rw [hb]; exact Nat.mod_lt _ (by norm_num)
      · rw [hb]; exact Nat.mod_lt _ (by norm_num)
  · rw [writeCode_lt7 c p out (by omega)]
    refine ⟨?_, ?_, ?_, ?_, ?_⟩
    · show p.bitCount + 1 = (K + 1) % 8
      omega
    · show (c / 2 ^ (8 - p.bitCount)) % 256 < 2 ^ (p.bitCount + 1)
      rw [Nat.mod_eq_of_lt hq256]; exact hq
    · show (out ++ _).length = _
      rw [List.length_append, List.length_singleton]
      omega
    · show streamValue (out ++ _) + ((c / 2 ^ (8 - p.bitCount)) % 256) * _ = _
      rw [streamValue_append, Nat.mod_eq_of_lt hq256, List.length_append,
        List.length_singleton, pow_succ, hm, ← hval, Nat.mul_comm (256 ^ out.length) 256]
      exact val_step _ _ _ _ _ _ ha
    · intro b hb
      rw [List.mem_append, List.mem_singleton] at hb
      rcases hb with hb | hb
      · exact hbytes b hb
      · rw [hb]; exact Nat.mod_lt _ (by norm_num)

theorem writeCodes_WInv (codes : List Nat) : ∀ (K : Nat) (p : PendingBits) (out : List Nat)
    (N : Nat), WInv K p out N → (∀ c ∈ codes, c < 512) →
    WInv (K + codes.length) (writeCodes codes p out).1 (writeCodes codes p out).2
      (N + 512 ^ K * codesValue codes) := by
  induction codes with
  | nil =>
    intro K p out N h _
    simpa [writeCodes, codesValue] using h
  | cons c cs ih =>
    intro K p out N h hc
    have h1 := writeCode_WInv K p out N c h (hc c (List.mem_cons_self _ _))
    have h2 := ih (K + 1) _ _ _ h1 (fun x hx => hc x (List.mem_cons_of_mem _ hx))
    have e1 : K + (c :: cs).length = K + 1 + cs.length := by
      rw [List.length_cons]; omega
    have e2 : N + 512 ^ K * codesValue (c :: cs)
        = N + c * 512 ^ K + 512 ^ (K + 1) * codesValue cs := by
      rw [codesValue, pow_succ]; ring
    rw [e1, e2]
    exact h2

theorem writeCodes_init (codes : List Nat) (hc : ∀ c ∈ codes, c < 512) :
    WInv codes.length (writeCodes codes { bits := 0, bitCount := 0 } []).1
      (writeCodes codes { bits := 0, bitCount := 0 } []).2 (codesValue codes) := by
  have h := writeCodes_WInv codes 0 _ _ 0 WInv_init hc
  simpa using h

theorem flushBits_pos (p : PendingBits) (out : List Nat) (h : 0 < p.bitCount) :
    flushBits p out = ({ bits := 0, bitCount := p.bitCount }, out ++ [p.bits % 256]) := by
  simp [flushBits, h]

theorem flushBits_zero (p : PendingBits) (out : List Nat) (h : p.bitCount = 0) :
    flushBits p out = ({ bits := p.bits % 256, bitCount := p.bitCount }, out) := by
  simp [flushBits, h]

/-- What `packCodes` produces: length, value and byte range. -/
theorem packCodes_spec (codes : List Nat) (hc : ∀ c ∈ codes, c < 512) :
    (packCodes codes).length = (9 * codes.length + 7) / 8
      ∧ streamValue (packCodes codes) = codesValue codes
      ∧ ∀ b ∈ packCodes codes, b < 256 := by
  obtain ⟨hcnt, hlt, hlen, hval, hbytes⟩ := writeCodes_init codes hc
  unfold packCodes
  generalize writeCodes codes { bits := 0, bitCount := 0 } [] = r at *
  obtain ⟨p, out⟩ := r
  simp only at hcnt hlt hlen hval hbytes ⊢
  by_cases h0 : p.bitCount = 0
  · rw [flushBits_zero p out h0]
    rw [h0] at hlt
    have hb : p.bits = 0 := by simpa using hlt
    rw [hb] at hval
    refine ⟨?_, ?_, hbytes⟩
    · show out.length = _
      omega
    · show streamValue out = _
      simpa using hval
  · have hpos : 0 < p.bitCount := Nat.pos_of_ne_zero h0
    have h256 : p.bits < 256 := by
      have : 2 ^ p.bitCount ≤ 2 ^ 8 := Nat.pow_le_pow_right (by norm_num) (by omega)
      omega
    rw [flushBits_pos p out hpos, Nat.mod_eq_of_lt h256]
    refine ⟨?_, ?_, ?_⟩
    · show (out ++ [p.bits]).length = _
      rw [List.length_append, List.length_singleton]
      omega
    · show streamValue (out ++ [p.bits]) = _
      rw [streamValue_append]; exact hval
    · intro b hb
      rw [List.mem_append, List.mem_singleton] at hb
      rcases hb with hb | hb
      · exact hbytes b hb
      · rw [hb]; exact h256

theorem streamValue_testBit (bs : List Nat) : (∀ b ∈ bs, b < 256) → ∀ j : Nat,
    (streamValue bs).testBit j = (bs.getD (j / 8) 0).testBit (j % 8) := by
  induction bs with
  | nil => intro _ j; simp [streamValue]
  | cons b rest ih =>
    intro hb j
    have hb0 : b < 2 ^ 8 := hb b (List.mem_cons_self _ _)
    have hr := ih (fun x hx => hb x (List.mem_cons_of_mem _ hx))
    have e : streamValue (b :: rest) = 2 ^ 8 * streamValue rest + b := by
      rw [streamValue]; ring
    rw [e, Nat.testBit_mul_pow_two_add _ hb0]
    by_cases hj : j < 8
    · have h1 : j / 8 = 0 := by omega
      have h2 : j % 8 = j := by omega
      simp [hj, h1, h2]
    · have h1 : j / 8 = (j - 8) / 8 + 1 := by omega
      have h2 : j % 8 = (j - 8) % 8 := by omega
      rw [if_neg hj, hr, h1, h2, List.getD_cons_succ]

theorem codesValue_testBit (cs : List Nat) : (∀ c ∈ cs, c < 512) → ∀ j : Nat,
    (codesValue cs).testBit j = (cs.getD (j / 9) 0).testBit (j % 9) := by
  induction cs with
  | nil => intro _ j; simp [codesValue]
  | cons c rest ih =>
    intro hc j
    have hc0 : c < 2 ^ 9 := hc c (List.mem_cons_self _ _)
    have hr := ih (fun x hx => hc x (List.mem_cons_of_mem _ hx))
    have e : codesValue (c :: rest) = 2 ^ 9 * codesValue rest + c := by
      rw [codesValue]; ring
    rw [e, Nat.testBit_mul_pow_two_add _ hc0]
    by_cases hj : j < 9
    · have h1 : j / 9 = 0 := by omega
      have h2 : j % 9 = j := by omega
      simp [hj, h1, h2]
    · have h1 : j / 9 = (j - 9) / 9 + 1 := by omega
      have h2 : j % 9 = (j - 9) % 9 := by omega
      rw [if_neg hj, hr, h1, h2, List.getD_cons_succ]

theorem readCode_zero (p : PendingBits) (t m : Nat) (r2 : List Nat) (h0 : p.bitCount = 0)
    (ht : t < 256) (hm : m < 256) :
    readCode p { data := t :: m :: r2, eof := false } =
      (Int.ofNat (((m * 2 ^ 7) % 256) * 2 + t), ({ bits := m / 2, bitCount := 7 } : PendingBits),
        ({ data := r2, eof := false } : InFile)) := by
  simp [readCode, fgetc, feof, h0, toUChar_ofNat t ht, toUChar_ofNat m hm, BITS_PER_BYTE,
    Nat.shiftLeft_eq, Nat.shiftRight_eq_div_pow]

theorem readCode_pos (p : PendingBits) (t : Nat) (r1 : List Nat) (h0 : p.bitCount ≠ 0)
    (ht : t < 256) :
    readCode p { data := t :: r1, eof := false } =
      (Int.ofNat (((t * 2 ^ (p.bitCount - 1)) % 256) * 2 + p.bits),
        ({ bits := (t / 2 ^ (9 - p.bitCount)) % 256, bitCount := p.bitCount - 1 } : PendingBits),
        ({ data := r1, eof := false } : InFile)) := by
  simp [readCode, fgetc, feof, h0, toUChar_ofNat t ht, BITS_PER_BYTE, BITS_PER_CODE,
    Nat.shiftLeft_eq, Nat.shiftRight_eq_div_pow]

theorem readCode_nil (p : PendingBits) (e : Bool) :
    readCode p { data := [], eof := e } = (-1, p, { data := [], eof := true }) := by
  simp [readCode, fgetc, feof]

theorem read_arith (n bits t S c N : Nat) (hn1 : 1 ≤ n) (hn : n ≤ 7) (hb : bits < 2 ^ n)
    (ht : t < 256) (hc : c < 512) (hv : bits + 2 ^ n * (t + 256 * S) = c + 512 * N) :
    ((t * 2 ^ (n - 1)) % 256) * 2 + bits = c
      ∧ (t / 2 ^ (9 - n)) % 256 + 2 ^ (n - 1) * S = N
      ∧ (t / 2 ^ (9 - n)) % 256 < 2 ^ (n - 1) := by
  interval_cases n <;> simp at * <;> omega

theorem readCode_RInv (c : Nat) (cs : List Nat) (p : PendingBits) (rest : List Nat)
    (h : RInv (c :: cs) p rest) (hc : c < 512) :
    ∃ p1 rest1, readCode p { data := rest, eof := false }
        = (Int.ofNat c, p1, { data := rest1, eof := false }) ∧ RInv cs p1 rest1 := by
  obtain ⟨hcnt, hlt, hbytes, hval, hlo, hhi⟩ := h
  rw [List.length_cons] at hlo hhi
  rw [codesValue] at hval
  by_cases h0 : p.bitCount = 0
  · match rest, hbytes, hval, hlo, hhi with
    | [], _, _, hlo, _ => simp at hlo; omega
    | [_], _, _, hlo, _ => simp at hlo; omega
    | t :: m :: r2, hbytes, hval, hlo, hhi =>
      have ht : t < 256 := hbytes t (by simp)
      have hm : m < 256 := hbytes m (by simp)
      rw [h0] at hlt hval hlo hhi
      simp only [streamValue, List.length_cons, pow_zero, one_mul] at hval hlo hhi hlt
      have hcode : ((m * 2 ^ 7) % 256) * 2 + t = c := by omega
      have hread := readCode_zero p t m r2 h0 ht hm
      rw [hcode] at hread
      refine ⟨_, _, hread, ?_⟩
      refine ⟨?_, ?_, ?_, ?_, ?_, ?_⟩
      · show 7 ≤ 7
        omega
      · show m / 2 < 2 ^ 7
        omega
      · intro b hb
        exact hbytes b (by simp [hb])
      · show m / 2 + 2 ^ 7 * streamValue r2 = codesValue cs
        omega
      · show 9 * cs.length ≤ 7 + 8 * r2.length
        omega
      · show 7 + 8 * r2.length ≤ 9 * cs.length + 7
        omega
  · match rest, hbytes, hval, hlo, hhi with
    | [], _, _, hlo, _ => simp at hlo; omega
    | t :: r1, hbytes, hval, hlo, hhi =>
      have ht : t < 256 := hbytes t (by simp)
      simp only [streamValue, List.length_cons] at hval hlo hhi
      obtain ⟨a1, a2, a3⟩ := read_arith p.bitCount p.bits t (streamValue r1) c (codesValue cs)
        (by omega) hcnt hlt ht hc hval
      have hread := readCode_pos p t r1 h0 ht
      rw [a1] at hread
      refine ⟨_, _, hread, ?_⟩
      refine ⟨?_, ?_, ?_, ?_, ?_, ?_⟩
      · show p.bitCount - 1 ≤ 7
        omega
      · exact a3
      · intro b hb
        exact hbytes b (by simp [hb])
      · exact a2
      · show 9 * cs.length ≤ p.bitCount - 1 + 8 * r1.length
        omega
      · show p.bitCount - 1 + 8 * r1.length ≤ 9 * cs.length + 7
        omega

theorem readCodes_RInv (cs : List Nat) : ∀ (p : PendingBits) (rest : List Nat),
    RInv cs p rest → (∀ c ∈ cs, c < 512) →
    readCodes (cs.length + 1) p { data := rest, eof := false }
      = cs.map Int.ofNat ++ [-1] := by
  induction cs with
  | nil =>
    intro p rest h _
    have hlen : rest = [] := by
      have := h.hi
      have := h.cnt
      cases rest with
      | nil => rfl
      | cons a as => simp at *; omega
    subst hlen
    simp [readCodes, readCode_nil]
  | cons c cs ih =>
    intro p rest h hc
    obtain ⟨p1, rest1, e, h1⟩ := readCode_RInv c cs p rest h (hc c (List.mem_cons_self _ _))
    have h2 := ih p1 rest1 h1 (fun x hx => hc x (List.mem_cons_of_mem _ hx))
    rw [List.length_cons, readCodes, e]
    simp only [List.map_cons, List.cons_append]
    rw [h2]

theorem packCodes_RInv (codes : List Nat) (hc : ∀ c ∈ codes, c < 512) :
    RInv codes { bits := 0, bitCount := 0 } (packCodes codes) := by
  obtain ⟨hl, hv, hb⟩ := packCodes_spec codes hc
  refine ⟨?_, ?_, hb, ?_, ?_, ?_⟩
  · show 0 ≤ 7
    omega
  · show 0 < 2 ^ 0
    norm_num
  · show 0 + 2 ^ 0 * streamValue (packCodes codes) = codesValue codes
    rw [hv]; simp
  · show 9 * codes.length ≤ 0 + 8 * (packCodes codes).length
    rw [hl]; omega
  · show 0 + 8 * (packCodes codes).length ≤ 9 * codes.length + 7
    rw [hl]; omega

/-! ## Word list: ordering, search and construction -/

theorem strcmp_swap (a : List Nat) : ∀ b : List Nat, strcmp b a = - strcmp a b := by
  induction a with
  | nil =>
    intro b
    cases b with
    | nil => simp [strcmp]
    | cons y ys => simp [strcmp]
  | cons x xs ih =>
    intro b
    cases b with
    | nil => simp [strcmp]
    | cons y ys =>
      simp only [strcmp]
      by_cases h : x = y
      · subst h
        by_cases h0 : x = 0
        · simp [h0]
        · simp [h0, ih ys]
      · have h' : ¬ y = x := fun e => h e.symm
        simp only [h, h', if_false]
        omega

theorem strcmp_self (a : List Nat) : strcmp a a = 0 := by
  induction a with
  | nil => simp [strcmp]
  | cons x xs ih => simp [strcmp, ih]

theorem strcmp_trans (a : List Nat) : ∀ b c : List Nat,
    strcmp a b ≤ 0 → strcmp b c ≤ 0 → strcmp a c ≤ 0 := by
  induction a with
  | nil =>
    intro b c hab hbc
    cases c with
    | nil => simp [strcmp]
    | cons z zs => simp [strcmp]
  | cons x xs ih =>
    intro b c hab hbc
    cases b with
    | nil =>
      simp only [strcmp] at hab
      have hx : x = 0 := by omega
      subst hx
      cases c with
      | nil => simp [strcmp]
      | cons z zs =>
        simp only [strcmp]
        split <;> simp
    | cons y ys =>
      cases c with
      | nil =>
        simp only [strcmp] at hbc
        have hy : y = 0 := by omega
        subst hy
        simp only [strcmp] at hab ⊢
        by_cases hx : x = 0
        · simp [hx]
        · simp only [hx, if_false] at hab
          omega
      | cons z zs =>
        simp only [strcmp] at hab hbc ⊢
        by_cases hxy : x = y
        · subst hxy
          by_cases hxz : x = z
          · subst hxz
            by_cases h0 : x = 0
            · simp [h0]
            · simp only [h0, if_true, if_false] at hab hbc ⊢
              exact ih ys zs hab hbc
          · simpa [hxz] using hbc
        · simp only [hxy, if_false] at hab
          by_cases hyz : y = z
          · subst hyz
            simp only [hxy, if_false]
            exact hab
          · simp only [hyz, if_false] at hbc
            have hxz : ¬ x = z := by omega
            simp only [hxz, if_false]
            omega

theorem strcmp_eq_zero (a : List Nat) : ∀ b : List Nat, (∀ x ∈ a, x ≠ 0) → (∀ y ∈ b, y ≠ 0) →
    strcmp a b = 0 → a = b := by
  induction a with
  | nil =>
    intro b _ hb h
    cases b with
    | nil => rfl
    | cons y ys =>
      simp only [strcmp] at h
      have := hb y (List.mem_cons_self _ _)
      omega
  | cons x xs ih =>
    intro b ha hb h
    have hx := ha x (List.mem_cons_self _ _)
    cases b with
    | nil =>
      simp only [strcmp] at h
      omega
    | cons y ys =>
      simp only [strcmp] at h
      by_cases hxy : x = y
      · subst hxy
        simp only [hx, if_true, if_false] at h
        rw [ih ys (fun z hz => ha z (List.mem_cons_of_mem _ hz))
          (fun z hz => hb z (List.mem_cons_of_mem _ hz)) h]
      · simp only [hxy, if_false] at h
        omega

theorem qsort_sorted (words : List Word) :
    (qsort words).Sorted (fun a b => compareWords a b ≤ 0) := by
  haveI : IsTotal Word (fun a b => compareWords a b ≤ 0) :=
    ⟨fun a b => by
      show strcmp a b ≤ 0 ∨ strcmp b a ≤ 0
      rw [strcmp_swap a b]
      omega⟩
  haveI : IsTrans Word (fun a b => compareWords a b ≤ 0) :=
    ⟨fun a b c hab hbc => strcmp_trans a b c hab hbc⟩
  exact List.sorted_insertionSort _ words

theorem qsort_perm (words : List Word) : (qsort words).Perm words :=
  List.perm_insertionSort _ words

theorem sorted_getD_le (base : List Word) (hs : base.Sorted (fun a b => compareWords a b ≤ 0))
    (i j : Nat) (hij : i ≤ j) (hj : j < base.length) :
    compareWords (base.getD i []) (base.getD j []) ≤ 0 := by
  rcases Nat.eq_or_lt_of_le hij with h | h
  · subst h
    exact le_of_eq (strcmp_self _)
  · have hi : i < base.length := by omega
    rw [List.getD_eq_getElem _ _ hi, List.getD_eq_getElem _ _ hj]
    exact (List.pairwise_iff_getElem.mp hs) i j hi hj h

theorem bsearchLoop_some (key : Word) (base : List Word) : ∀ (fuel l u i : Nat),
    bsearchLoop key base fuel l u = some i →
    l ≤ i ∧ i < u ∧ compareWords key (base.getD i []) = 0 := by
  intro fuel
  induction fuel with
  | zero => intro l u i h; simp [bsearchLoop] at h
  | succ fuel ih =>
    intro l u i h
    simp only [bsearchLoop] at h
    by_cases hlu : l < u
    · simp only [hlu, if_true] at h
      by_cases h1 : compareWords key (base.getD ((l + u) / 2) []) < 0
      · simp only [h1, if_true] at h
        have := ih _ _ _ h
        omega
      · simp only [h1, if_false] at h
        by_cases h2 : compareWords key (base.getD ((l + u) / 2) []) > 0
        · simp only [h2, if_true] at h
          have := ih _ _ _ h
          omega
        · simp only [h2, if_false, Option.some.injEq] at h
          subst h
          refine ⟨by omega, by omega, by omega⟩
    · simp [hlu] at h

theorem bsearchLoop_complete (key : Word) (base : List Word)
    (hs : base.Sorted (fun a b => compareWords a b ≤ 0)) : ∀ (fuel l u : Nat),
    u ≤ base.length → u - l < fuel →
    (∃ j, l ≤ j ∧ j < u ∧ compareWords key (base.getD j []) = 0) →
    ∃ i, bsearchLoop key base fuel l u = some i := by
  intro fuel
  induction fuel with
  | zero => intro l u _ h; omega
  | succ fuel ih =>
    intro l u hu hf hex
    obtain ⟨j, hlj, hju, hj⟩ := hex
    have hlu : l < u := by omega
    simp only [bsearchLoop, hlu, if_true]
    have hidx : (l + u) / 2 < base.length := by omega
    by_cases h1 : compareWords key (base.getD ((l + u) / 2) []) < 0
    · simp only [h1, if_true]
      apply ih _ _ (by omega) (by omega)
      refine ⟨j, hlj, ?_, hj⟩
      by_contra hcon
      have hle := sorted_getD_le base hs ((l + u) / 2) j (by omega) (by omega)
      have h3 : strcmp (base.getD ((l + u) / 2) []) key ≤ 0 := by
        have h4 := strcmp_trans _ _ _ hle (le_of_eq (by
          have := strcmp_swap key (base.getD j [])
          unfold compareWords at hj
          omega : strcmp (base.getD j []) key = 0))
        exact h4
      have h5 := strcmp_swap key (base.getD ((l + u) / 2) [])
      unfold compareWords at h1
      omega
    · simp only [h1, if_false]
      by_cases h2 : compareWords key (base.getD ((l + u) / 2) []) > 0
      · simp only [h2, if_true]
        apply ih _ _ hu (by omega)
        refine ⟨j, ?_, hju, hj⟩
        by_contra hcon
        have hle := sorted_getD_le base hs j ((l + u) / 2) (by omega) (by omega)
        have h3 : strcmp key (base.getD ((l + u) / 2) []) ≤ 0 :=
          strcmp_trans _ _ _ (le_of_eq hj) hle
        unfold compareWords at h2
        omega
      · simp only [h2, if_false]
        exact ⟨_, rfl⟩

theorem bsearch_some (key : Word) (base : List Word) (i : Nat)
    (h : bsearch key base base.length = some i) :
    i < base.length ∧ compareWords key (base.getD i []) = 0 := by
  have := bsearchLoop_some key base _ _ _ _ h
  exact ⟨this.2.1, this.2.2⟩

theorem bsearch_complete (key : Word) (base : List Word)
    (hs : base.Sorted (fun a b => compareWords a b ≤ 0)) (hk : key ∈ base) :
    ∃ i, bsearch key base base.length = some i := by
  obtain ⟨j, hj, e⟩ := List.getElem_of_mem hk
  apply bsearchLoop_complete key base hs _ _ _ (le_refl _) (by omega)
  refine ⟨j, Nat.zero_le _, hj, ?_⟩
  rw [List.getD_eq_getElem _ _ hj, e]
  exact strcmp_self _

theorem validFold (ch : Int) (n : Nat) (y0 : Bool) :
    (List.range n).foldl
      (fun yesno i => if ch = ((BOTTOM_RANGE + i : Nat) : Int) then true else yesno) y0
      = (y0 || decide (32 ≤ ch ∧ ch < 32 + (n : Int))) := by
  induction n with
  | zero =>
    have : ¬ (32 ≤ ch ∧ ch < 32 + ((0 : Nat) : Int)) := by omega
    simp [this]
  | succ n ih =>
    rw [List.range_succ, List.foldl_append, ih]
    simp only [List.foldl_cons, List.foldl_nil, BOTTOM_RANGE]
    by_cases h : ch = ((32 + n : Nat) : Int)
    · have h2 : 32 ≤ ch ∧ ch < 32 + ((n + 1 : Nat) : Int) := by omega
      rw [if_pos h, decide_eq_true h2, Bool.or_true]
    · rw [if_neg h]
      by_cases h1 : 32 ≤ ch ∧ ch < 32 + (n : Int)
      · have h2 : 32 ≤ ch ∧ ch < 32 + ((n + 1 : Nat) : Int) := by omega
        rw [decide_eq_true h1, decide_eq_true h2]
      · have h2 : ¬ (32 ≤ ch ∧ ch < 32 + ((n + 1 : Nat) : Int)) := by omega
        rw [decide_eq_false h1, decide_eq_false h2]

theorem validChar_iff (ch : Int) :
    validChar ch = true ↔ (ch = 9 ∨ ch = 10 ∨ ch = 13 ∨ (32 ≤ ch ∧ ch ≤ 126)) := by
  unfold validChar
  rw [validFold]
  simp only [TAB, NEWLINE, CARRIAGE, CYCLE, Bool.or_eq_true, decide_eq_true_eq]
  constructor
  · rintro (h | h)
    · split at h
      · rename_i h1
        simp at h1
        omega
      · simp at h
    · omega
  · intro h
    by_cases h1 : ch = 9 ∨ ch = 10 ∨ ch = 13
    · left
      rw [if_pos (by simpa using h1)]
    · right
      omega

theorem addFold (n : Nat) (list : WordList) :
    (List.range n).foldl
      (fun (list : WordList) i => ({ words := list.words ++ [[BOTTOM_RANGE + i]] } : WordList))
      list
      = { words := list.words ++ (List.range n).map (fun i => [BOTTOM_RANGE + i]) } := by
  induction n with
  | zero => simp
  | succ n ih =>
    rw [List.range_succ, List.foldl_append, ih]
    simp

theorem addValidChars_eq (list : WordList) :
    addValidChars list = { words := list.words ++ singleChars } := by
  unfold addValidChars
  rw [addFold]
  simp [singleChars]

theorem singleChars_length : singleChars.length = 98 := by
  simp [singleChars, CYCLE]

theorem mem_singleChars (w : Word) :
    w ∈ singleChars ↔ ∃ b : Nat, w = [b] ∧ validChar (b : Int) = true := by
  simp only [singleChars, List.mem_append, List.mem_cons, List.mem_map, List.mem_range,
    List.mem_singleton, TAB, NEWLINE, CARRIAGE, CYCLE, BOTTOM_RANGE, List.not_mem_nil, or_false]
  constructor
  · rintro ((h | h | h) | ⟨i, hi, h⟩)
    · exact ⟨9, h, by decide⟩
    · exact ⟨10, h, by decide⟩
    · exact ⟨13, h, by decide⟩
    · refine ⟨32 + i, h.symm, ?_⟩
      rw [validChar_iff]
      omega
  · rintro ⟨b, rfl, hb⟩
    rw [validChar_iff] at hb
    by_cases h9 : b = 9
    · left; left; rw [h9]
    by_cases h10 : b = 10
    · left; right; left; rw [h10]
    by_cases h13 : b = 13
    · left; right; right; rw [h13]
    right
    refine ⟨b - 32, by omega, ?_⟩
    congr 1
    omega

theorem toChar_valid (c : Int) (h : validChar (toChar c) = true) :
    validChar (((toChar c).toNat : Nat) : Int) = true := by
  have h1 := (validChar_iff _).mp h
  have h2 : (((toChar c).toNat : Nat) : Int) = toChar c := by omega
  rw [h2]; exact h

theorem readWordChars_some : ∀ (n : Nat) (fp : InFile) (acc ws : List Nat) (fp1 : InFile),
    readWordChars n fp acc = some (ws, fp1) →
    ∃ new, ws = acc ++ new ∧ new.length = n ∧ ∀ b ∈ new, validChar (b : Int) = true := by
  intro n
  induction n with
  | zero =>
    intro fp acc ws fp1 h
    simp only [readWordChars, Option.some.injEq, Prod.mk.injEq] at h
    exact ⟨[], by simp [h.1], rfl, by simp⟩
  | succ n ih =>
    intro fp acc ws fp1 h
    simp only [readWordChars] at h
    by_cases hv : validChar (toChar (fgetc fp).1) = true
    · rw [if_pos hv] at h
      obtain ⟨new, e, hl, hb⟩ := ih _ _ _ _ h
      refine ⟨(toChar (fgetc fp).1).toNat :: new, ?_, ?_, ?_⟩
      · rw [e]; simp
      · simp [hl]
      · intro b hb1
        rcases List.mem_cons.mp hb1 with hb1 | hb1
        · rw [hb1]; exact toChar_valid _ hv
        · exact hb b hb1
    · rw [if_neg hv] at h
      simp at h

theorem readWordsLoop_done : ∀ (fuel : Nat) (fp : InFile) (list list1 : WordList),
    readWordsLoop fuel fp list = .done list1 →
    ∃ ext, list1.words = list.words ++ ext ∧ (∀ w ∈ ext, ValidWord w)
      ∧ (list.len ≤ MAX_LISTLEN → list1.len ≤ MAX_LISTLEN) := by
  intro fuel
  induction fuel with
  | zero => intro fp list list1 h; simp [readWordsLoop] at h
  | succ fuel ih =>
    intro fp list list1 h
    simp only [readWordsLoop] at h
    split at h
    · simp only [Run.done.injEq] at h
      subst h
      exact ⟨[], by simp, by simp, fun x => x⟩
    · split at h
      · rename_i wordLength fp1 hscan
        split at h
        · simp only [Run.done.injEq] at h
          subst h
          exact ⟨[], by simp, by simp, fun x => x⟩
        · split at h
          · rename_i hne hrange
            split at h
            · rename_i wordString fp2 hchars
              split at h
              · simp at h
              · rename_i hlen
                obtain ⟨new, e, hl, hb⟩ := readWordChars_some _ _ _ _ _ hchars
                simp only [List.nil_append] at e
                subst e
                obtain ⟨ext, e1, hv, hcap⟩ := ih _ _ _ h
                refine ⟨wordString :: ext, ?_, ?_, ?_⟩
                · rw [e1]; simp
                · intro w hw
                  rcases List.mem_cons.mp hw with hw | hw
                  · rw [hw]
                    refine ⟨?_, ?_, hb⟩
                    · simp only [WORD_MIN, WORD_MAX] at hrange ⊢
                      omega
                    · simp only [WORD_MIN, WORD_MAX] at hrange ⊢
                      omega
                  · exact hv w hw
                · intro _
                  exact hcap (Nat.le_of_not_gt hlen)
            · simp at h
          · simp at h
      · simp at h
      · simp at h
      · simp at h

theorem readWordList_done (fname : Option (List Nat)) (wl : WordList)
    (h : readWordList fname = .done wl) :
    ∃ ext, (∀ w ∈ ext, ValidWord w) ∧ wl.words = qsort (singleChars ++ ext)
      ∧ 98 + ext.length ≤ MAX_LISTLEN := by
  unfold readWordList at h
  split at h
  · simp at h
  · rename_i content
    simp only at h
    split at h
    · rename_i list hloop
      simp only [Run.done.injEq] at h
      rw [addValidChars_eq] at hloop
      obtain ⟨ext, e, hv, hcap⟩ := readWordsLoop_done _ _ _ _ hloop
      simp only [List.nil_append] at e
      refine ⟨ext, hv, ?_, ?_⟩
      · rw [← h, e]
      · have h1 := hcap (by simp [WordList.len, singleChars_length, MAX_LISTLEN])
        rw [WordList.len, e, List.length_append, singleChars_length] at h1
        exact h1
    · simp at h
    · simp at h
    · simp at h

theorem validChar_ne_zero (b : Nat) (h : validChar (b : Int) = true) : b ≠ 0 := by
  have := (validChar_iff _).mp h
  omega

theorem readWordList_isDict (fname : Option (List Nat)) (wl : WordList)
    (h : readWordList fname = .done wl) : IsDict wl := by
  obtain ⟨ext, hv, e, hcap⟩ := readWordList_done fname wl h
  have hperm : wl.words.Perm (singleChars ++ ext) := by rw [e]; exact qsort_perm _
  have hmem : ∀ w, w ∈ wl.words ↔ (w ∈ singleChars ∨ w ∈ ext) := by
    intro w
    rw [hperm.mem_iff, List.mem_append]
  refine ⟨?_, ?_, ?_, ?_, ?_⟩
  · rw [e]; exact qsort_sorted _
  · rw [WordList.len, hperm.length_eq, List.length_append, singleChars_length]
    exact hcap
  · intro w hw
    rcases (hmem w).mp hw with h1 | h1
    · obtain ⟨b, rfl, _⟩ := (mem_singleChars w).mp h1
      simp [WORD_MAX]
    · have := hv w h1
      simp only [ValidWord, WORD_MIN, WORD_MAX] at this ⊢
      omega
  · intro w hw
    rcases (hmem w).mp hw with h1 | h1
    · obtain ⟨b, rfl, hb⟩ := (mem_singleChars w).mp h1
      intro x hx
      rw [List.mem_singleton] at hx
      rw [hx]; exact hb
    · exact (hv w h1).2.2
  · intro b hb
    exact (hmem [b]).mpr (Or.inl ((mem_singleChars [b]).mpr ⟨b, rfl, hb⟩))

theorem validText_ne_zero (s : List Nat) (h : ValidText s) : ∀ x ∈ s, x ≠ 0 :=
  fun x hx => validChar_ne_zero x (h x hx)

theorem strncpy_length (dest src : List Nat) (n : Nat) (h : n ≤ dest.length) :
    (strncpy dest src n).length = dest.length := by
  simp only [strncpy, List.length_append, List.length_replicate, List.length_take,
    List.length_drop]
  omega

/-- The first iteration of the loop of `bestCode` on an array of `WORD_MAX + 1` bytes:
the NUL is stored at index `WORD_MAX + 1`, outside the array. -/
theorem bestCodeLoop_first (wl : WordList) (str : List Nat) (k : Nat) (copyString : List Nat)
    (h : copyString.length = WORD_MAX + 1) :
    bestCodeLoop wl str (k + 1) 0 copyString = .undefined := by
  have hl := strncpy_length copyString str (WORD_MAX + 1) (by omega)
  simp only [bestCodeLoop, Nat.sub_zero, hl, h, lt_irrefl, if_false]

/-- Every call of `bestCode` is undefined. -/
theorem bestCode_undefined (wl : WordList) (str : List Nat) :
    bestCode wl str = .undefined := by
  have h := bestCodeLoop_first wl str WORD_MAX (List.replicate (WORD_MAX + 1) 0)
    (List.length_replicate _ _)
  simp only [bestCode, h]

theorem strcmp_nul (s : List Nat) : ∀ (t w : List Nat), (∀ x ∈ s, x ≠ 0) →
    strcmp (s ++ 0 :: t) w = strcmp s w := by
  induction s with
  | nil =>
    intro t w _
    cases w with
    | nil => simp [strcmp]
    | cons b bs =>
      by_cases hb : b = 0
      · subst hb
        simp [strcmp]
      · have hb2 : ¬ (0 = b) := fun e => hb e.symm
        simp [strcmp, hb2]
  | cons a as ih =>
    intro t w hs
    have ha := hs a (List.mem_cons_self _ _)
    cases w with
    | nil => simp [strcmp]
    | cons b bs =>
      by_cases hab : a = b
      · subst hab
        simp only [List.cons_append, strcmp, if_true, ha, if_false]
        exact ih t bs (fun x hx => hs x (List.mem_cons_of_mem _ hx))
      · simp only [List.cons_append, strcmp, hab, if_false]

theorem bsearchLoop_congr (k1 k2 : Word) (base : List Word)
    (h : ∀ w, compareWords k1 w = compareWords k2 w) : ∀ (fuel l u : Nat),
    bsearchLoop k1 base fuel l u = bsearchLoop k2 base fuel l u := by
  intro fuel
  induction fuel with
  | zero => intro l u; rfl
  | succ fuel ih =>
    intro l u
    simp only [bsearchLoop, h, ih]

theorem takeWhile_ne_zero (s : List Nat) (hs : ∀ x ∈ s, x ≠ 0) :
    s.takeWhile (fun c => c ≠ 0) = s := by
  rw [List.takeWhile_eq_self_iff]
  intro x hx
  simpa using hs x hx

/-- The array `copyString` after `strncpy` and the NUL store at index `n`: it holds the
first `n` bytes of the string (all of it when it is shorter), then a NUL. -/
theorem copyString_shape (copyString str : List Nat) (n : Nat) (hs : ∀ x ∈ str, x ≠ 0)
    (hn : n < copyString.length) :
    ∃ t, (strncpy copyString str n).set n 0 = str.take n ++ 0 :: t := by
  have hlen : (str.take n).length ≤ n := by
    rw [List.length_take]; omega
  obtain ⟨c, rest, hd⟩ : ∃ c rest, copyString.drop n = c :: rest := by
    cases hdr : copyString.drop n with
    | nil =>
      have := congrArg List.length hdr
      simp at this
      omega
    | cons c rest => exact ⟨c, rest, rfl⟩
  have hset : (strncpy copyString str n).set n 0
      = str.take n ++ (List.replicate (n - (str.take n).length) 0 ++ 0 :: rest) := by
    simp only [strncpy, takeWhile_ne_zero str hs, hd, List.append_assoc]
    rw [List.set_append_right _ _ (by omega),
      List.set_append_right _ _ (by simp)]
    simp
  rw [hset]
  cases hm : n - (str.take n).length with
  | zero => exact ⟨rest, by simp⟩
  | succ m => exact ⟨List.replicate m 0 ++ 0 :: rest, by simp [List.replicate_succ]⟩

theorem bsearch_copyString (wl : WordList) (copyString str : List Nat) (n : Nat)
    (hs : ∀ x ∈ str, x ≠ 0) (hn : n < copyString.length) :
    bsearch ((strncpy copyString str n).set n 0) wl.words wl.len
      = bsearch (str.take n) wl.words wl.len := by
  obtain ⟨t, ht⟩ := copyString_shape copyString str n hs hn
  rw [ht]
  exact bsearchLoop_congr _ _ _
    (fun w => strcmp_nul _ t w (fun x hx => hs x (List.mem_of_mem_take hx))) _ _ _

/-- The loop of `bestCode` from an iteration `i ≥ 1` on, whatever the array holds: it
ends at the longest prefix of `str`, of at most `WORD_MAX + 1 - i` bytes, that is an
entry of the table. -/
theorem bestCodeLoop_spec (wl : WordList) (hd : IsDict wl) (str : List Nat)
    (hs : ValidText str) : ∀ (k i : Nat) (copyString : List Nat), i + k = 21 → 1 ≤ i →
    copyString.length = 21 →
    (∃ n, 1 ≤ n ∧ n ≤ 21 - i ∧ str.take n ∈ wl.words) →
    ∃ idx m, bestCodeLoop wl str k i copyString = .done (some idx) ∧ idx < wl.len ∧ 1 ≤ m
      ∧ m ≤ 21 - i ∧ wl.words.getD idx [] = str.take m
      ∧ ∀ n, m < n → n ≤ 21 - i → str.take n ∉ wl.words := by
  intro k
  induction k with
  | zero =>
    intro i copyString hi _ _ hex
    obtain ⟨n, h1, h2, _⟩ := hex
    omega
  | succ k ih =>
    intro i copyString hi hi1 hlen hex
    have hl := strncpy_length copyString str (20 + 1 - i) (by omega)
    have hlt : 20 + 1 - i < copyString.length := by omega
    have hkey := bsearch_copyString wl copyString str (20 + 1 - i) (validText_ne_zero _ hs) hlt
    simp only [bestCodeLoop, WORD_MAX, hl, hlt, if_true, hkey]
    cases hb : bsearch (str.take (20 + 1 - i)) wl.words wl.len with
    | some idx =>
      obtain ⟨hlt, hcmp⟩ := bsearch_some _ _ _ hb
      refine ⟨idx, 21 - i, rfl, hlt, by omega, le_refl _, ?_, ?_⟩
      · have hw : wl.words.getD idx [] ∈ wl.words := by
          rw [List.getD_eq_getElem _ _ hlt]
          exact List.getElem_mem _
        have hz1 : ∀ x ∈ wl.words.getD idx [], x ≠ 0 :=
          validText_ne_zero _ (hd.word_valid _ hw)
        have hz2 : ∀ x ∈ str.take (20 + 1 - i), x ≠ 0 :=
          fun x hx => validText_ne_zero _ hs x (List.mem_of_mem_take hx)
        exact (strcmp_eq_zero _ _ hz2 hz1 hcmp).symm
      · intro n h1 h2
        omega
    | none =>
      have hnot : str.take (21 - i) ∉ wl.words := by
        intro hmem
        obtain ⟨j, hj⟩ := bsearch_complete _ _ hd.sorted hmem
        have hb1 : bsearch (str.take (20 + 1 - i)) wl.words wl.words.length = none := hb
        rw [hj] at hb1
        simp at hb1
      obtain ⟨n, hn1, hn2, hn3⟩ := hex
      have hne : n ≠ 21 - i := by
        intro e
        rw [e] at hn3
        exact hnot hn3
      obtain ⟨idx, m, e, hlt, hm1, hm2, hget, hmax⟩ :=
        ih (i + 1) ((strncpy copyString str (20 + 1 - i)).set (20 + 1 - i) 0) (by omega)
          (by omega) (by rw [List.length_set, hl, hlen]) ⟨n, hn1, by omega, hn3⟩
      refine ⟨idx, m, e, hlt, hm1, by omega, hget, ?_⟩
      intro n1 h1 h2
      by_cases h3 : n1 = 21 - i
      · rw [h3]; exact hnot
      · exact hmax n1 h1 (by omega)

/-- From an iteration `i ≥ 1` on, what the loop of `bestCode` returns does not depend on
what the array holds. -/
theorem bestCodeLoop_indep (wl : WordList) (str : List Nat) (hs : ∀ x ∈ str, x ≠ 0) :
    ∀ (k i : Nat) (c1 c2 : List Nat), 1 ≤ i → c1.length = 21 → c2.length = 21 →
    bestCodeLoop wl str k i c1 = bestCodeLoop wl str k i c2 := by
  intro k
  induction k with
  | zero => intro i c1 c2 _ _ _; rfl
  | succ k ih =>
    intro i c1 c2 hi h1 h2
    have hl1 := strncpy_length c1 str (20 + 1 - i) (by omega)
    have hl2 := strncpy_length c2 str (20 + 1 - i) (by omega)
    have hlt1 : 20 + 1 - i < c1.length := by omega
    have hlt2 : 20 + 1 - i < c2.length := by omega
    have hk1 := bsearch_copyString wl c1 str (20 + 1 - i) hs hlt1
    have hk2 := bsearch_copyString wl c2 str (20 + 1 - i) hs hlt2
    simp only [bestCodeLoop, WORD_MAX, hl1, hl2, hlt1, hlt2, if_true, hk1, hk2]
    cases bsearch (str.take (20 + 1 - i)) wl.words wl.len with
    | some idx => rfl
    | none =>
      exact ih (i + 1) _ _ (by omega) (by rw [List.length_set, hl1, h1])
        (by rw [List.length_set, hl2, h2])

/-- What the loop of `bestCode` finds when it is entered at its second iteration
(`i = 1`), whatever the array of `WORD_MAX + 1` bytes holds, on a non-empty text of
alphabet bytes: the index of the longest entry that is a prefix of the text. -/
theorem bestCodeLoop_second (wl : WordList) (hd : IsDict wl) (str : List Nat)
    (hs : ValidText str) (hne : str ≠ []) (copyString : List Nat)
    (hc : copyString.length = WORD_MAX + 1) :
    ∃ idx w, bestCodeLoop wl str WORD_MAX 1 copyString = .done (some idx) ∧ idx < wl.len
      ∧ wl.words[idx]? = some w ∧ w <+: str ∧ 1 ≤ w.length ∧ w.length ≤ WORD_MAX
      ∧ ∀ v ∈ wl.words, v <+: str → v.length ≤ w.length := by
  obtain ⟨b, rest, rfl⟩ := List.exists_cons_of_ne_nil hne
  have h1 : (b :: rest).take 1 ∈ wl.words := by
    simp only [List.take_succ_cons, List.take_zero]
    exact hd.singles b (hs b (List.mem_cons_self _ _))
  obtain ⟨idx, m, e, hlt, hm1, hm2, hget, hmax⟩ :=
    bestCodeLoop_spec wl hd (b :: rest) hs 20 1 copyString (by omega) (le_refl _) hc
      ⟨1, le_refl _, by omega, h1⟩
  have hmemw : wl.words.getD idx [] ∈ wl.words := by
    rw [List.getD_eq_getElem _ _ hlt]
    exact List.getElem_mem _
  have hwl := hd.word_len _ hmemw
  refine ⟨idx, (b :: rest).take m, e, hlt, ?_, List.take_prefix _ _, ?_, ?_, ?_⟩
  · rw [← hget, List.getD_eq_getElem _ _ hlt]
    exact List.getElem?_eq_getElem hlt
  · rw [← hget]; exact hwl.1
  · rw [← hget]; exact hwl.2
  · intro v hv hpre
    by_contra hcon
    have hvlen := hd.word_len v hv
    have hvle : v.length ≤ (b :: rest).length := hpre.length_le
    have hv2 : (b :: rest).take v.length = v := by
      obtain ⟨t, ht⟩ := hpre
      rw [← ht, List.take_left]
    have hlen : ((b :: rest).take m).length = min m (b :: rest).length := List.length_take _ _
    have hmv : m < v.length := by
      rw [hlen] at hcon
      omega
    have := hmax v.length hmv (by simp only [WORD_MAX] at hvlen; omega)
    rw [hv2] at this
    exact this hv

theorem decimalAux_scan : ∀ (fuel n : Nat) (acc tail : List Nat), n < fuel →
    scanDigits (decimalAux fuel n acc ++ tail) 0 = scanDigits (acc ++ tail) n := by
  intro fuel
  induction fuel with
  | zero => intro n _ _ h; omega
  | succ fuel ih =>
    intro n acc tail h
    by_cases h10 : n < 10
    · have hd : isdigit (48 + n) = true := by simp [isdigit]; omega
      simp only [decimalAux, h10, if_true, List.cons_append, scanDigits, hd]
      congr 1
      omega
    · have hd : isdigit (48 + n % 10) = true := by simp [isdigit]; omega
      simp only [decimalAux, h10, if_false]
      rw [ih (n / 10) _ tail (by omega)]
      simp only [List.cons_append, scanDigits, hd, if_true]
      congr 1
      omega

theorem decimalAux_head : ∀ (fuel n : Nat) (acc : List Nat), n < fuel →
    ∃ d ds, decimalAux fuel n acc = d :: ds ∧ isdigit d = true := by
  intro fuel
  induction fuel with
  | zero => intro n _ h; omega
  | succ fuel ih =>
    intro n acc h
    by_cases h10 : n < 10
    · refine ⟨48 + n, acc, by simp [decimalAux, h10], ?_⟩
      simp [isdigit]; omega
    · simp only [decimalAux, h10, if_false]
      exact ih (n / 10) _ (by omega)

theorem decimal_head (n : Nat) : ∃ d ds, decimal n = d :: ds ∧ isdigit d = true :=
  decimalAux_head (n + 1) n [] (by omega)

theorem decimal_scan (n : Nat) (t : List Nat) :
    scanDigits (decimal n ++ 32 :: t) 0 = (n, 32 :: t) := by
  rw [decimal, decimalAux_scan (n + 1) n [] _ (by omega)]
  simp [scanDigits, isdigit]

theorem skipSpace_append (pre x : List Nat) (hpre : ∀ c ∈ pre, isspace c = true) :
    skipSpace (pre ++ x) = skipSpace x := by
  induction pre with
  | nil => rfl
  | cons c cs ih =>
    have hc := hpre c (List.mem_cons_self _ _)
    simp only [List.cons_append, skipSpace, hc, if_true]
    exact ih (fun y hy => hpre y (List.mem_cons_of_mem _ hy))

theorem isdigit_facts (d : Nat) (h : isdigit d = true) :
    isspace d = false ∧ d ≠ 45 ∧ d ≠ 43 := by
  simp only [isdigit, Bool.and_eq_true, decide_eq_true_eq] at h
  refine ⟨?_, by omega, by omega⟩
  simp only [isspace, Bool.or_eq_false_iff, decide_eq_false_iff_not, Bool.and_eq_false_iff]
  omega

theorem fscanf_d_digits (d : Nat) (ds : List Nat) (e : Bool) (dest : Int) (n : Nat)
    (t : List Nat) (hdig : isdigit d = true) (hscan : scanDigits (d :: ds) 0 = (n, 32 :: t))
    (hhi : (n : Int) ≤ 2147483647) :
    fscanf_d { data := d :: ds, eof := e } dest
      = .done ((n : Int), { data := 32 :: t, eof := false }) := by
  obtain ⟨hsp, h45, h43⟩ := isdigit_facts d hdig
  have hor : ¬ (d = 45 ∨ d = 43) := by omega
  have hrange : -2147483648 ≤ (n : Int) ∧ (n : Int) ≤ 2147483647 := by omega
  simp only [fscanf_d, skipSpace, hsp, h45, h43, or_self, if_false, hdig, if_true, hscan,
    hrange, and_self, List.isEmpty_cons, Bool.false_eq_true]

theorem fscanf_d_minus (d : Nat) (ds : List Nat) (e : Bool) (dest : Int) (n : Nat)
    (t : List Nat) (hdig : isdigit d = true) (hscan : scanDigits (d :: ds) 0 = (n, 32 :: t))
    (hlo : -2147483648 ≤ 0 - (n : Int)) :
    fscanf_d { data := 45 :: d :: ds, eof := e } dest
      = .done (0 - (n : Int), { data := 32 :: t, eof := false }) := by
  have hsp : isspace 45 = false := by decide
  have hrange : -2147483648 ≤ 0 - (n : Int) ∧ 0 - (n : Int) ≤ 2147483647 := by omega
  simp only [fscanf_d, skipSpace, hsp, true_or, if_true, hdig, hscan, hrange,
    and_self, List.isEmpty_cons, Bool.false_eq_true, if_false]

theorem fscanf_d_skip (pre x : List Nat) (e : Bool) (dest : Int)
    (hpre : ∀ c ∈ pre, isspace c = true) :
    fscanf_d { data := pre ++ x, eof := e } dest = fscanf_d { data := x, eof := e } dest := by
  simp only [fscanf_d, skipSpace_append pre x hpre]

/-- Reading back a rendered integer that fits an `int`. -/
theorem fscanf_d_renderInt (pre t : List Nat) (e : Bool) (dest z : Int)
    (hpre : ∀ c ∈ pre, isspace c = true)
    (hlo : -2147483648 ≤ z) (hhi : z ≤ 2147483647) :
    fscanf_d { data := pre ++ (renderInt z ++ 32 :: t), eof := e } dest
      = .done (z, { data := 32 :: t, eof := false }) := by
  obtain ⟨d, ds, hdec, hdig⟩ := decimal_head z.natAbs
  have hscan := decimal_scan z.natAbs t
  rw [hdec, List.cons_append] at hscan
  rw [fscanf_d_skip pre _ e dest hpre]
  by_cases hneg : z < 0
  · have hv : (0 : Int) - ((z.natAbs : Nat) : Int) = z := by omega
    rw [renderInt, if_pos hneg, hdec, List.cons_append, List.cons_append,
      fscanf_d_minus d _ e dest _ t hdig hscan (by omega), hv]
  · have hv : ((z.natAbs : Nat) : Int) = z := by omega
    rw [renderInt, if_neg hneg, hdec, List.cons_append,
      fscanf_d_digits d _ e dest _ t hdig hscan (by omega), hv]

theorem toChar_of_valid (b : Nat) (h : validChar (b : Int) = true) : toChar (b : Int) = b := by
  have := (validChar_iff _).mp h
  unfold toChar
  simp only
  split <;> omega

theorem readWordChars_valid (w : List Nat) (hw : ∀ b ∈ w, validChar (b : Int) = true) :
    ∀ (rest acc : List Nat) (e : Bool),
    readWordChars w.length { data := w ++ rest, eof := e } acc
      = some (acc ++ w, { data := rest, eof := e }) := by
  induction w with
  | nil => intro rest acc e; simp [readWordChars]
  | cons b bs ih =>
    intro rest acc e
    have hb := hw b (List.mem_cons_self _ _)
    have hv : validChar (toChar (b : Int)) = true := by rw [toChar_of_valid b hb]; exact hb
    have ht : (toChar (b : Int)).toNat = b := by rw [toChar_of_valid b hb]; rfl
    simp only [List.length_cons, readWordChars, fgetc, List.cons_append, hv, if_true, ht]
    rw [ih (fun y hy => hw y (List.mem_cons_of_mem _ hy))]
    simp

theorem renderRecord_shape (z : Int) (w rest : List Nat) :
    renderRecord (z, w) ++ rest = renderInt z ++ 32 :: (w ++ ([10] ++ rest)) := by
  simp [renderRecord]

/-- One turn of the reading loop on a well-formed record of a valid word. -/
theorem readWordsLoop_good (w : Word) (hw : ValidWord w) (pre rest : List Nat)
    (hpre : ∀ c ∈ pre, isspace c = true) (fuel : Nat) (list : WordList) :
    readWordsLoop (fuel + 1)
        { data := pre ++ (renderRecord ((w.length : Int), w) ++ rest), eof := false } list
      = if list.len + 1 > MAX_LISTLEN then .fatal .invalidWordFile
        else readWordsLoop fuel { data := [10] ++ rest, eof := false }
          { words := list.words ++ [w] } := by
  obtain ⟨h2, h20, hv⟩ := hw
  simp only [WORD_MIN, WORD_MAX] at h2 h20
  have hne : ¬ ((w.length : Int) = -1) := by omega
  have hrange : (w.length : Int) ≤ ((20 : Nat) : Int) ∧ (w.length : Int) ≥ ((2 : Nat) : Int) := by
    omega
  have hchars := readWordChars_valid w hv ([10] ++ rest) [] false
  rw [renderRecord_shape, readWordsLoop]
  simp only [feof, Bool.false_eq_true, if_false]
  rw [fscanf_d_renderInt pre _ false (-1) (w.length : Int) hpre (by omega) (by omega)]
  simp only [hne, if_false, WORD_MAX, WORD_MIN, hrange, and_self, if_true, fgetc,
    Int.toNat_ofNat, hchars, List.nil_append, WordList.len, List.length_append,
    List.length_singleton]

theorem readWordsLoop_blank (pre : List Nat) (hpre : ∀ c ∈ pre, isspace c = true)
    (fuel : Nat) (list : WordList) :
    readWordsLoop (fuel + 1) { data := pre, eof := false } list = .done list := by
  have h := skipSpace_append pre [] hpre
  rw [List.append_nil] at h
  simp [readWordsLoop, feof, fscanf_d, h, skipSpace]

/-- The reading loop over the records of a list of valid words, with input left over. -/
theorem readWordsLoop_words (ws : List Word) : ∀ (fuel : Nat) (list : WordList)
    (pre tail : List Nat), (∀ w ∈ ws, ValidWord w) → (∀ c ∈ pre, isspace c = true) →
    ws.length ≤ fuel → list.len ≤ MAX_LISTLEN →
    (list.len + ws.length > MAX_LISTLEN →
      readWordsLoop fuel { data := pre ++ (renderWords ws ++ tail), eof := false } list
        = .fatal .invalidWordFile)
    ∧ (list.len + ws.length ≤ MAX_LISTLEN → ∃ pre2, (∀ c ∈ pre2, isspace c = true) ∧
      readWordsLoop fuel { data := pre ++ (renderWords ws ++ tail), eof := false } list
        = readWordsLoop (fuel - ws.length) { data := pre2 ++ tail, eof := false }
            { words := list.words ++ ws }) := by
  induction ws with
  | nil =>
    intro fuel list pre tail _ hpre _ hcap
    refine ⟨fun h => ?_, fun _ => ⟨pre, hpre, ?_⟩⟩
    · simp at h
      omega
    · simp [renderWords, renderRecords]
  | cons w ws ih =>
    intro fuel list pre tail hv hpre hf hcap
    obtain ⟨f1, rfl⟩ : ∃ f1, fuel = f1 + 1 := ⟨fuel - 1, by simp at hf; omega⟩
    have hw := hv w (List.mem_cons_self _ _)
    have hstep := readWordsLoop_good w hw pre (renderWords ws ++ tail) hpre f1 list
    have hshape : renderWords (w :: ws) ++ tail
        = renderRecord ((w.length : Int), w) ++ (renderWords ws ++ tail) := by
      simp [renderWords, renderRecords]
    have hsp : ∀ c ∈ [10], isspace c = true := by decide
    have hlen1 : ({ words := list.words ++ [w] } : WordList).len = list.len + 1 := by
      simp [WordList.len]
    rw [hshape, hstep, List.length_cons]
    refine ⟨fun h => ?_, fun h => ?_⟩
    · by_cases h1 : list.len + 1 > MAX_LISTLEN
      · rw [if_pos h1]
      · rw [if_neg h1]
        obtain ⟨ih1, _⟩ := ih f1 { words := list.words ++ [w] } [10] tail
          (fun x hx => hv x (List.mem_cons_of_mem _ hx)) hsp (by simp at hf; omega)
          (by rw [hlen1]; omega)
        rw [hlen1] at ih1
        exact ih1 (by omega)
    · have h1 : ¬ (list.len + 1 > MAX_LISTLEN) := by omega
      rw [if_neg h1]
      obtain ⟨_, ih2⟩ := ih f1 { words := list.words ++ [w] } [10] tail
        (fun x hx => hv x (List.mem_cons_of_mem _ hx)) hsp (by simp at hf; omega)
        (by rw [hlen1]; omega)
      rw [hlen1] at ih2
      obtain ⟨pre2, hp2, e⟩ := ih2 (by omega)
      refine ⟨pre2, hp2, ?_⟩
      rw [e]
      simp

theorem renderRecords_length (rs : List (Int × List Nat)) :
    rs.length ≤ (renderRecords rs).length := by
  induction rs with
  | nil => simp
  | cons r rs ih =>
    simp only [renderRecords, renderRecord, List.length_append, List.length_cons]
    omega

/-- The table `readWordList` builds from the file listing valid words. -/
theorem readWordList_words (ws : List Word) (hv : ∀ w ∈ ws, ValidWord w) :
    (98 + ws.length > MAX_LISTLEN →
      readWordList (some (renderWords ws)) = .fatal .invalidWordFile)
    ∧ (98 + ws.length ≤ MAX_LISTLEN →
      readWordList (some (renderWords ws)) = .done { words := qsort (singleChars ++ ws) }) := by
  have hfuel : ws.length ≤ (renderWords ws).length := by
    have := renderRecords_length (ws.map (fun w => ((w.length : Int), w)))
    simpa [renderWords] using this
  have hlen : (addValidChars { words := [] }).len = 98 := by
    rw [addValidChars_eq]
    simp [WordList.len, singleChars_length]
  obtain ⟨h1, h2⟩ := readWordsLoop_words ws ((renderWords ws).length + 1)
    (addValidChars { words := [] }) [] [] hv (by simp) (by omega)
    (by rw [hlen]; simp [MAX_LISTLEN])
  rw [hlen] at h1 h2
  simp only [List.nil_append, List.append_nil, addValidChars_eq] at h1 h2
  refine ⟨fun h => ?_, fun h => ?_⟩
  · simp only [readWordList, addValidChars_eq, List.nil_append, h1 h]
  · obtain ⟨pre2, hp2, e⟩ := h2 h
    obtain ⟨f2, hf2⟩ : ∃ f2, (renderWords ws).length + 1 - ws.length = f2 + 1 :=
      ⟨(renderWords ws).length - ws.length, by omega⟩
    rw [hf2, readWordsLoop_blank pre2 hp2] at e
    simp only [readWordList, addValidChars_eq, List.nil_append, e]

theorem validChar_toChar (b : Nat) (hb : b < 256) :
    validChar (toChar (b : Int)) = validChar (b : Int) := by
  have h1 := validChar_iff (toChar (b : Int))
  have h2 := validChar_iff (b : Int)
  have h3 : toChar (b : Int) = if (b : Int) < 128 then (b : Int) else (b : Int) - 256 := by
    unfold toChar
    have : (b : Int) % 256 = b := by omega
    simp only [this]
  rw [Bool.eq_iff_iff, h1, h2, h3]
  split <;> omega

theorem readWordChars_invalid : ∀ (n : Nat) (data acc : List Nat) (e : Bool) (k b : Nat),
    k < n → data[k]? = some b → b < 256 → validChar (b : Int) = false →
    readWordChars n { data := data, eof := e } acc = none := by
  intro n
  induction n with
  | zero => intro _ _ _ k _ h; omega
  | succ n ih =>
    intro data acc e k b hk hget hb hinv
    cases data with
    | nil => simp at hget
    | cons c cs =>
      cases k with
      | zero =>
        simp only [List.getElem?_cons_zero, Option.some.injEq] at hget
        subst hget
        have : validChar (toChar (c : Int)) = false := by rw [validChar_toChar c hb]; exact hinv
        simp [readWordChars, fgetc, this]
      | succ k =>
        simp only [List.getElem?_cons_succ] at hget
        simp only [readWordChars, fgetc]
        split
        · exact ih cs _ e k b (by omega) hget hb hinv
        · rfl

/-- One turn of the reading loop on a record whose declared length is neither -1 nor
in the accepted range. -/
theorem readWordsLoop_badLength (z : Int) (w pre rest : List Nat)
    (hpre : ∀ c ∈ pre, isspace c = true) (fuel : Nat) (list : WordList)
    (hlo : -2147483648 ≤ z) (hhi : z ≤ 2147483647) (hne : z ≠ -1) (hout : z < 2 ∨ 20 < z) :
    readWordsLoop (fuel + 1)
        { data := pre ++ (renderRecord (z, w) ++ rest), eof := false } list
      = .fatal .invalidWordFile := by
  have hrange : ¬ (z ≤ ((20 : Nat) : Int) ∧ z ≥ ((2 : Nat) : Int)) := by omega
  rw [renderRecord_shape, readWordsLoop]
  simp only [feof, Bool.false_eq_true, if_false]
  rw [fscanf_d_renderInt pre _ false (-1) z hpre hlo hhi]
  simp only [hne, if_false, WORD_MAX, WORD_MIN, hrange]

/-- One turn of the reading loop on a record with a byte outside the alphabet among
the declared number of word bytes. -/
theorem readWordsLoop_badByte (z : Int) (w pre rest : List Nat)
    (hpre : ∀ c ∈ pre, isspace c = true) (fuel : Nat) (list : WordList)
    (h2 : 2 ≤ z) (h20 : z ≤ 20) (k b : Nat) (hk : k < z.toNat) (hget : w[k]? = some b)
    (hb : b < 256) (hinv : validChar (b : Int) = false) :
    readWordsLoop (fuel + 1)
        { data := pre ++ (renderRecord (z, w) ++ rest), eof := false } list
      = .fatal .invalidWordFile := by
  have hne : ¬ (z = -1) := by omega
  have hrange : z ≤ ((20 : Nat) : Int) ∧ z ≥ ((2 : Nat) : Int) := by omega
  have hget2 : (w ++ ([10] ++ rest))[k]? = some b := by
    have hkw : k < w.length := by
      by_contra hcon
      rw [List.getElem?_eq_none (by omega)] at hget
      simp at hget
    rw [List.getElem?_append_left hkw]
    exact hget
  have hchars := readWordChars_invalid z.toNat (w ++ ([10] ++ rest)) [] false k b hk hget2 hb hinv
  rw [renderRecord_shape, readWordsLoop]
  simp only [feof, Bool.false_eq_true, if_false]
  rw [fscanf_d_renderInt pre _ false (-1) z hpre (by omega) (by omega)]
  simp only [hne, if_false, WORD_MAX, WORD_MIN, hrange, and_self, if_true, fgetc, hchars]

theorem renderRecords_append (xs ys : List (Int × List Nat)) :
    renderRecords (xs ++ ys) = renderRecords xs ++ renderRecords ys := by
  induction xs with
  | nil => rfl
  | cons x xs ih => simp [renderRecords, ih]

/-- The word file with well-formed records of valid words followed by a record on
which one turn of the loop is fatal. -/
theorem readWordList_bad (good : List Word) (bad : Int × List Nat)
    (more : List (Int × List Nat)) (hgood : ∀ g ∈ good, ValidWord g)
    (hbad : ∀ (pre rest : List Nat) (fuel : Nat) (list : WordList),
      (∀ c ∈ pre, isspace c = true) →
      readWordsLoop (fuel + 1)
        { data := pre ++ (renderRecord bad ++ rest), eof := false } list
        = .fatal .invalidWordFile) :
    readWordList (some (renderRecords
        (good.map (fun g => ((g.length : Int), g)) ++ bad :: more)))
      = .fatal .invalidWordFile := by
  have hshape : renderRecords (good.map (fun g => ((g.length : Int), g)) ++ bad :: more)
      = renderWords good ++ (renderRecord bad ++ renderRecords more) := by
    rw [renderRecords_append, renderWords, renderRecords]
  have hfuel := renderRecords_length (good.map (fun g => ((g.length : Int), g)) ++ bad :: more)
  simp only [List.length_append, List.length_map, List.length_cons] at hfuel
  generalize hc : renderRecords (good.map (fun g => ((g.length : Int), g)) ++ bad :: more)
    = content at hshape hfuel
  have hlen : (addValidChars { words := [] }).len = 98 := by
    rw [addValidChars_eq]
    simp [WordList.len, singleChars_length]
  obtain ⟨h1, h2⟩ := readWordsLoop_words good (content.length + 1)
    (addValidChars { words := [] }) [] (renderRecord bad ++ renderRecords more) hgood
    (by simp) (by omega) (by rw [hlen]; simp [MAX_LISTLEN])
  rw [List.nil_append, ← hshape] at h1 h2
  by_cases hover : (addValidChars { words := [] }).len + good.length > MAX_LISTLEN
  · simp only [readWordList, h1 hover]
  · obtain ⟨pre2, hp2, e⟩ := h2 (by omega)
    obtain ⟨f2, hf2⟩ : ∃ f2, content.length + 1 - good.length = f2 + 1 :=
      ⟨content.length - good.length, by omega⟩
    rw [hf2, hbad pre2 _ f2 _ hp2] at e
    simp only [readWordList, e]

theorem strcmp_prefix (u : List Nat) : ∀ v : List Nat, u <+: v → u ≠ v → (∀ x ∈ v, x ≠ 0) →
    strcmp u v < 0 := by
  induction u with
  | nil =>
    intro v _ hne hz
    cases v with
    | nil => exact absurd rfl hne
    | cons b bs =>
      have := hz b (List.mem_cons_self _ _)
      simp only [strcmp]
      omega
  | cons a as ih =>
    intro v hpre hne hz
    cases v with
    | nil => simp at hpre
    | cons b bs =>
      obtain ⟨hab, hpre2⟩ := List.cons_prefix_cons.mp hpre
      subst hab
      have ha := hz a (List.mem_cons_self _ _)
      simp only [strcmp, if_true, ha, if_false]
      exact ih bs hpre2 (fun e => hne (by rw [e]))
        (fun x hx => hz x (List.mem_cons_of_mem _ hx))

set_option maxRecDepth 100000 in
theorem singleChars_nodup : singleChars.Nodup := by decide

theorem table_nodup (ws : List Word) (hv : ∀ w ∈ ws, ValidWord w) (hn : ws.Nodup) :
    (singleChars ++ ws).Nodup := by
  refine List.Nodup.append singleChars_nodup hn ?_
  intro w h1 h2
  obtain ⟨b, rfl, _⟩ := (mem_singleChars w).mp h1
  have := (hv _ h2).1
  simp [WORD_MIN] at this

theorem sorted_strict (l : List Word) (hs : l.Sorted (fun a b => compareWords a b ≤ 0))
    (hn : l.Nodup) (hz : ∀ w ∈ l, ∀ x ∈ w, x ≠ 0) :
    l.Sorted (fun a b => compareWords a b < 0) := by
  have h := List.Pairwise.and hs hn
  refine List.Pairwise.imp_of_mem ?_ h
  intro a b ha hb hab
  obtain ⟨hle, hne⟩ := hab
  have h0 : strcmp a b ≠ 0 := fun e => hne (strcmp_eq_zero a b (hz a ha) (hz b hb) e)
  show strcmp a b < 0
  have : strcmp a b ≤ 0 := hle
  omega

theorem sorted_prefix_before (l : List Word)
    (hs : l.Sorted (fun a b => compareWords a b ≤ 0)) (hz : ∀ w ∈ l, ∀ x ∈ w, x ≠ 0)
    (i j : Nat) (hi : i < l.length) (hj : j < l.length)
    (hpre : l.getD i [] <+: l.getD j []) (hne : l.getD i [] ≠ l.getD j []) : i < j := by
  by_contra hcon
  have hle := sorted_getD_le l hs j i (by omega) hi
  have hmem : l.getD j [] ∈ l := by
    rw [List.getD_eq_getElem _ _ hj]; exact List.getElem_mem _
  have hlt := strcmp_prefix _ _ hpre hne (hz _ hmem)
  have hsw := strcmp_swap (l.getD i []) (l.getD j [])
  unfold compareWords at hle
  omega

theorem readWordList_words_cap (ws : List Word) (wl : WordList)
    (hv : ∀ w ∈ ws, ValidWord w) (hd : readWordList (some (renderWords ws)) = .done wl) :
    98 + ws.length ≤ MAX_LISTLEN := by
  by_contra hcon
  have hf := (readWordList_words ws hv).1 (Nat.lt_of_not_le hcon)
  have h3 : Run.fatal Fatal.invalidWordFile = Run.done wl := hf.symm.trans hd
  exact Run.noConfusion h3

theorem readWordList_words_eq (ws : List Word) (wl : WordList)
    (hv : ∀ w ∈ ws, ValidWord w) (hd : readWordList (some (renderWords ws)) = .done wl) :
    wl.words = qsort (singleChars ++ ws) := by
  have he := (readWordList_words ws hv).2 (readWordList_words_cap ws wl hv hd)
  have h4 := Run.done.inj (he.symm.trans hd)
  rw [← h4]

theorem qsort_nodup (l : List Word) (h : l.Nodup) : (qsort l).Nodup :=
  (List.Perm.nodup_iff (qsort_perm l)).mpr h

theorem skipSpace_length (l : List Nat) : (skipSpace l).length ≤ l.length := by
  induction l with
  | nil => simp [skipSpace]
  | cons c cs ih =>
    simp only [skipSpace]
    split
    · simp only [List.length_cons]; omega
    · exact le_refl _

theorem scanDigits_length (l : List Nat) : ∀ acc : Nat,
    (scanDigits l acc).2.length ≤ l.length := by
  induction l with
  | nil => intro acc; simp [scanDigits]
  | cons c cs ih =>
    intro acc
    simp only [scanDigits]
    split
    · have := ih (acc * 10 + (c - 48))
      simp only [List.length_cons]; omega
    · exact le_refl _

/-- A successful `%d` conversion consumes at least one byte. -/
theorem fscanf_d_consumes (fp fp1 : InFile) (v : Int)
    (h : fscanf_d fp (-1) = .done (v, fp1)) (hv : v ≠ -1) :
    fp1.data.length < fp.data.length := by
  have hsk := skipSpace_length fp.data
  unfold fscanf_d at h
  split at h
  · simp only [Run.done.injEq, Prod.mk.injEq] at h
    exact absurd h.1.symm hv
  · rename_i c rest hskip
    rw [hskip] at hsk
    simp only [List.length_cons] at hsk
    simp only at h
    split at h
    · simp only [Run.done.injEq, Prod.mk.injEq] at h
      exact absurd h.1.symm hv
    · rename_i d rest1 hbody
      have hb : (d :: rest1).length ≤ (c :: rest).length := by
        by_cases hc : c = 45 ∨ c = 43
        · rw [if_pos hc] at hbody
          rw [← hbody]
          simp
        · rw [if_neg hc] at hbody
          rw [← hbody]
      simp only [List.length_cons] at hb
      split at h
      · rename_i hdig
        have hs : (scanDigits (d :: rest1) 0).2.length ≤ rest1.length := by
          simp only [scanDigits, hdig, if_true]
          exact scanDigits_length rest1 _
        split at h <;> split at h <;>
          first
          | (simp at h; done)
          | (simp only [Run.done.injEq, Prod.mk.injEq] at h
             obtain ⟨_, h2⟩ := h
             rw [← h2]
             simp only
             omega)
      · simp only [Run.done.injEq, Prod.mk.injEq] at h
        exact absurd h.1.symm hv

theorem fscanf_d_ne_fuel (fp : InFile) (dest : Int) : fscanf_d fp dest ≠ .fuel := by
  intro hscan
  unfold fscanf_d at hscan
  split at hscan
  · simp at hscan
  · simp only at hscan
    split at hscan
    · simp at hscan
    · split at hscan
      · split at hscan <;> split at hscan <;> simp at hscan
      · simp at hscan

theorem fgetc_length (fp : InFile) : (fgetc fp).2.data.length ≤ fp.data.length := by
  unfold fgetc
  split
  · rename_i h; simp [h]
  · rename_i b rest h; simp [h]

theorem readWordChars_length : ∀ (n : Nat) (fp : InFile) (acc ws : List Nat) (fp1 : InFile),
    readWordChars n fp acc = some (ws, fp1) → fp1.data.length ≤ fp.data.length := by
  intro n
  induction n with
  | zero =>
    intro fp acc ws fp1 h
    simp only [readWordChars, Option.some.injEq, Prod.mk.injEq] at h
    rw [h.2]
  | succ n ih =>
    intro fp acc ws fp1 h
    simp only [readWordChars] at h
    split at h
    · have h1 := ih _ _ _ _ h
      have h2 := fgetc_length fp
      omega
    · simp at h

/-- The fuel `readWordList` gives its loop is never used up. -/
theorem readWordsLoop_fuel : ∀ (fuel : Nat) (fp : InFile) (list : WordList),
    fp.data.length < fuel → readWordsLoop fuel fp list ≠ .fuel := by
  intro fuel
  induction fuel with
  | zero => intro fp list h; omega
  | succ fuel ih =>
    intro fp list hlen
    simp only [readWordsLoop]
    split
    · simp
    · split
      · rename_i wordLength fp1 hscan
        split
        · simp
        · rename_i hne
          have hcons := fscanf_d_consumes fp fp1 wordLength hscan hne
          split
          · split
            · rename_i wordString fp2 hchars
              have h1 := readWordChars_length _ _ _ _ _ hchars
              have h2 := fgetc_length fp1
              split
              · simp
              · exact ih _ _ (by omega)
            · simp
          · simp
      · simp
      · simp
      · rename_i hscan
        exact absurd hscan (fscanf_d_ne_fuel _ _)

theorem readWordList_fuel (fname : Option (List Nat)) : readWordList fname ≠ .fuel := by
  unfold readWordList
  split
  · simp
  · rename_i content
    simp only
    split
    · simp
    · simp
    · simp
    · rename_i h
      exact absurd h (readWordsLoop_fuel _ _ _ (by simp))

/-! ## Drivers -/

/-- An iteration of the encoding loop with the cursor inside the text is undefined:
it calls `bestCode`. -/
theorem packLoop_undefined (wl : WordList) (buffer : List Nat) (fuel pos : Nat)
    (pending : PendingBits) (output : List Nat) (h : pos < buffer.length) :
    packLoop wl buffer (fuel + 1) pos pending output = .undefined := by
  simp only [packLoop, h, if_true, bestCode_undefined]

/-- On a non-empty text `pack` is undefined. -/
theorem pack_undefined (wl : WordList) (buffer : List Nat) (hne : buffer ≠ []) :
    pack wl buffer = .undefined := by
  have h : 0 < buffer.length := List.length_pos.mpr hne
  simp only [pack, packLoop_undefined wl buffer buffer.length 0 _ _ h]

theorem unpackLoop_spec (wl : WordList) (cs : List Nat) : ∀ (fuel : Nat) (p : PendingBits)
    (rest output : List Nat), RInv cs p rest → (∀ c ∈ cs, c < 512) → (∀ c ∈ cs, c < wl.len) →
    cs.length + 2 ≤ fuel →
    unpackLoop wl fuel p { data := rest, eof := false } output
      = .done (output ++ decodeCodes wl cs) := by
  induction cs with
  | nil =>
    intro fuel p rest output h _ _ hf
    have hlen : rest = [] := by
      have := h.hi
      have := h.cnt
      cases rest with
      | nil => rfl
      | cons a as => simp at *; omega
    subst hlen
    obtain ⟨f1, rfl⟩ : ∃ f1, fuel = f1 + 2 := ⟨fuel - 2, by simp at hf; omega⟩
    simp [unpackLoop, readCode_nil, feof, decodeCodes]
  | cons c cs ih =>
    intro fuel p rest output h h512 hlen hf
    obtain ⟨p1, rest1, e, h1⟩ := readCode_RInv c cs p rest h (h512 c (List.mem_cons_self _ _))
    obtain ⟨f1, rfl⟩ : ∃ f1, fuel = f1 + 1 := ⟨fuel - 1, by simp at hf; omega⟩
    have hc : c < wl.words.length := hlen c (List.mem_cons_self _ _)
    have h2 := ih f1 p1 rest1 (output ++ wl.words.getD c []) h1
      (fun x hx => h512 x (List.mem_cons_of_mem _ hx))
      (fun x hx => hlen x (List.mem_cons_of_mem _ hx)) (by simp at hf; omega)
    have hne : ¬ (Int.ofNat c = -1) := by
      intro hh
      have : (0 : Int) ≤ Int.ofNat c := Int.ofNat_nonneg c
      omega
    have hnn : ¬ (Int.ofNat c < 0) := by
      have : (0 : Int) ≤ Int.ofNat c := Int.ofNat_nonneg c
      omega
    have htn : (Int.ofNat c).toNat = c := rfl
    simp only [unpackLoop, feof, e, ne_eq, hne, not_false_eq_true, if_true, hnn, if_false,
      htn, List.getElem?_eq_getElem hc, Bool.false_eq_true]
    rw [decodeCodes, ← List.append_assoc, ← h2, List.getD_eq_getElem _ _ hc]

theorem ofNat_ne_neg_one (c : Nat) : Int.ofNat c ≠ -1 := by
  intro hh
  have : (0 : Int) ≤ Int.ofNat c := Int.ofNat_nonneg c
  omega

theorem readCode_one (p : PendingBits) (t : Nat) (h0 : p.bitCount = 0) :
    readCode p { data := [t], eof := false } = (-1, p, { data := [], eof := true }) := by
  simp [readCode, fgetc, feof, h0]

/-- One call of `readCode` with at least 9 bits left: the value returned is the lowest 9
bits of the stream (buffered bits first), the state left describes the rest. -/
theorem readCode_step (p : PendingBits) (data : List Nat) (hn : p.bitCount ≤ 7)
    (hb : p.bits < 2 ^ p.bitCount) (hd : ∀ b ∈ data, b < 256)
    (h9 : 9 ≤ p.bitCount + 8 * data.length) :
    ∃ p1 data1, readCode p { data := data, eof := false }
        = (Int.ofNat ((p.bits + 2 ^ p.bitCount * streamValue data) % 512), p1,
            { data := data1, eof := false })
      ∧ p1.bitCount ≤ 7 ∧ p1.bits < 2 ^ p1.bitCount ∧ (∀ b ∈ data1, b < 256)
      ∧ p1.bits + 2 ^ p1.bitCount * streamValue data1
          = (p.bits + 2 ^ p.bitCount * streamValue data) / 512
      ∧ p1.bitCount + 8 * data1.length + 9 = p.bitCount + 8 * data.length
      ∧ (p.bitCount = 0 → ∃ t m, data = t :: m :: data1
          ∧ p1 = { bits := m / 2, bitCount := 7 })
      ∧ (p.bitCount ≠ 0 → ∃ t, data = t :: data1
          ∧ p1 = { bits := t / 2 ^ (9 - p.bitCount), bitCount := p.bitCount - 1 }) := by
  by_cases h0 : p.bitCount = 0
  · match data, hd, h9 with
    | [], _, h9 => simp at h9; omega
    | [_], _, h9 => simp at h9; omega
    | t :: m :: r2, hd, h9 =>
      have ht : t < 256 := hd t (by simp)
      have hm : m < 256 := hd m (by simp)
      have hb0 : p.bits = 0 := by
        rw [h0] at hb
        simpa using hb
      have hread := readCode_zero p t m r2 h0 ht hm
      have hV : p.bits + 2 ^ p.bitCount * streamValue (t :: m :: r2)
          = t + 256 * m + 65536 * streamValue r2 := by
        rw [h0, hb0]
        simp only [streamValue, pow_zero, one_mul, zero_add]
        ring
      have hcode : ((m * 2 ^ 7) % 256) * 2 + t
          = (t + 256 * m + 65536 * streamValue r2) % 512 := by omega
      rw [hcode, ← hV] at hread
      refine ⟨_, _, hread, ?_, ?_, ?_, ?_, ?_, ?_, ?_⟩
      · show 7 ≤ 7
        omega
      · show m / 2 < 2 ^ 7
        omega
      · intro b hbm
        exact hd b (by simp [hbm])
      · show m / 2 + 2 ^ 7 * streamValue r2 = _
        rw [hV]
        omega
      · show 7 + 8 * r2.length + 9 = p.bitCount + 8 * (t :: m :: r2).length
        rw [h0]
        simp only [List.length_cons]
        omega
      · intro _
        exact ⟨t, m, rfl, rfl⟩
      · intro hne
        exact absurd h0 hne
  · match data, hd, h9 with
    | [], _, h9 => simp at h9; omega
    | t :: r1, hd, h9 =>
      have ht : t < 256 := hd t (by simp)
      have hmod : (p.bits + 2 ^ p.bitCount * (t + 256 * streamValue r1)) % 512 < 512 :=
        Nat.mod_lt _ (by norm_num)
      have hv := (Nat.mod_add_div (p.bits + 2 ^ p.bitCount * (t + 256 * streamValue r1)) 512).symm
      obtain ⟨a1, a2, a3⟩ := read_arith p.bitCount p.bits t (streamValue r1) _ _
        (by omega) hn hb ht hmod hv
      have hq : (t / 2 ^ (9 - p.bitCount)) % 256 = t / 2 ^ (9 - p.bitCount) :=
        Nat.mod_eq_of_lt (lt_of_le_of_lt (Nat.div_le_self _ _) ht)
      have hread := readCode_pos p t r1 h0 ht
      rw [a1, hq] at hread
      rw [hq] at a2 a3
      refine ⟨_, _, hread, ?_, a3, ?_, a2, ?_, ?_, ?_⟩
      · show p.bitCount - 1 ≤ 7
        omega
      · intro b hbm
        exact hd b (by simp [hbm])
      · show p.bitCount - 1 + 8 * r1.length + 9 = p.bitCount + 8 * (t :: r1).length
        simp only [List.length_cons]
        omega
      · intro he
        exact absurd he h0
      · intro _
        exact ⟨t, rfl, rfl⟩

/-- A call of `readCode` with fewer than 9 bits left returns -1, keeps the buffered
bits and leaves the input at end-of-file. -/
theorem readCode_short (p : PendingBits) (data : List Nat) (hn : p.bitCount ≤ 7)
    (h9 : p.bitCount + 8 * data.length < 9) :
    readCode p { data := data, eof := false } = (-1, p, { data := [], eof := true }) := by
  match data, h9 with
  | [], _ => exact readCode_nil p false
  | [t], h9 =>
    have h0 : p.bitCount = 0 := by simp at h9; omega
    exact readCode_one p t h0
  | _ :: _ :: _, h9 => simp at h9; omega

theorem streamCodes_length (k v : Nat) : (streamCodes k v).length = k := by
  induction k generalizing v with
  | zero => rfl
  | succ k ih => simp [streamCodes, ih]

theorem streamCodes_getD (k : Nat) : ∀ (v m : Nat), m < k →
    (streamCodes k v).getD m 0 = (v / 512 ^ m) % 512 := by
  induction k with
  | zero => intro v m h; omega
  | succ k ih =>
    intro v m h
    cases m with
    | zero => simp [streamCodes]
    | succ m =>
      rw [streamCodes, List.getD_cons_succ, ih (v / 512) m (by omega), Nat.div_div_eq_div_mul,
        pow_succ, Nat.mul_comm]

theorem streamCodes_lt (k : Nat) : ∀ (v : Nat), ∀ c ∈ streamCodes k v, c < 512 := by
  induction k with
  | zero => intro v c h; simp [streamCodes] at h
  | succ k ih =>
    intro v c h
    rw [streamCodes, List.mem_cons] at h
    rcases h with h | h
    · rw [h]; exact Nat.mod_lt _ (by norm_num)
    · exact ih _ c h

/-- The codes the loop of `unpack` obtains from any state of the reader. -/
theorem unpackTrace_spec : ∀ (fuel : Nat) (p : PendingBits) (data : List Nat),
    p.bitCount ≤ 7 → p.bits < 2 ^ p.bitCount → (∀ b ∈ data, b < 256) →
    data.length + 2 ≤ fuel →
    unpackTrace fuel p { data := data, eof := false }
      = .done ((streamCodes ((p.bitCount + 8 * data.length) / 9)
          (p.bits + 2 ^ p.bitCount * streamValue data)).map Int.ofNat) := by
  intro fuel
  induction fuel with
  | zero => intro p data _ _ _ h; omega
  | succ fuel ih =>
    intro p data hn hb hd hf
    by_cases h9 : 9 ≤ p.bitCount + 8 * data.length
    · obtain ⟨p1, data1, e, hn1, hb1, hd1, hv1, hlen1, _, _⟩ :=
        readCode_step p data hn hb hd h9
      have hk : (p.bitCount + 8 * data.length) / 9
          = (p1.bitCount + 8 * data1.length) / 9 + 1 := by omega
      have hne : ¬ (Int.ofNat ((p.bits + 2 ^ p.bitCount * streamValue data) % 512) = -1) :=
        ofNat_ne_neg_one _
      have h2 := ih p1 data1 hn1 hb1 hd1 (by omega)
      simp only [unpackTrace, feof, Bool.false_eq_true, if_false, e, h2, ne_eq, hne,
        not_false_eq_true, if_true]
      rw [hk, streamCodes, hv1]
      rfl
    · have hlt : p.bitCount + 8 * data.length < 9 := by omega
      have e := readCode_short p data hn hlt
      have hk : (p.bitCount + 8 * data.length) / 9 = 0 := by omega
      obtain ⟨f1, rfl⟩ : ∃ f1, fuel = f1 + 1 := ⟨fuel - 1, by omega⟩
      simp only [unpackTrace, feof, Bool.false_eq_true, if_false, e, if_true, hk, streamCodes]
      simp

theorem testBit_stream (p : PendingBits) (data : List Nat) (hb : p.bits < 2 ^ p.bitCount)
    (hd : ∀ b ∈ data, b < 256) (k : Nat) (hk : k < 9) :
    ((p.bits + 2 ^ p.bitCount * streamValue data) % 512).testBit k
      = if k < p.bitCount then p.bits.testBit k
        else (data.getD ((k - p.bitCount) / 8) 0).testBit ((k - p.bitCount) % 8) := by
  have h512 : (512 : Nat) = 2 ^ 9 := by norm_num
  rw [h512, Nat.testBit_mod_two_pow, Nat.add_comm, Nat.testBit_mul_pow_two_add _ hb]
  simp only [hk, decide_True, Bool.true_and]
  split
  · rfl
  · exact streamValue_testBit data hd _

theorem testBit_group (v m k : Nat) (hk : k < 9) :
    ((v / 512 ^ m) % 512).testBit k = v.testBit (9 * m + k) := by
  have h512 : (512 : Nat) = 2 ^ 9 := by norm_num
  rw [h512, Nat.testBit_mod_two_pow, ← pow_mul, ← Nat.shiftRight_eq_div_pow,
    Nat.testBit_shiftRight]
  simp [hk]

/-- The loop of `unpack` against its trace of codes: with every code an index of the
table the entries are written; with a code that is not, the run is undefined. -/
theorem unpackLoop_trace (wl : WordList) : ∀ (fuel : Nat) (p : PendingBits) (input : InFile)
    (output : List Nat) (codes : List Int), unpackTrace fuel p input = .done codes →
    ((∀ c ∈ codes, 0 ≤ c ∧ c.toNat < wl.len) →
        unpackLoop wl fuel p input output
          = .done (output ++ decodeCodes wl (codes.map Int.toNat)))
      ∧ ((∃ c ∈ codes, c < 0 ∨ wl.len ≤ c.toNat) →
        unpackLoop wl fuel p input output = .undefined) := by
  intro fuel
  induction fuel with
  | zero => intro p input output codes h; simp [unpackTrace] at h
  | succ fuel ih =>
    intro p input output codes h
    simp only [unpackTrace] at h
    by_cases hf : feof input = true
    · simp only [hf, if_true, Run.done.injEq] at h
      subst h
      refine ⟨fun _ => ?_, fun hex => ?_⟩
      · simp [unpackLoop, hf, decodeCodes]
      · obtain ⟨c, hc, _⟩ := hex
        simp at hc
    · simp only [hf, Bool.false_eq_true, if_false] at h
      cases ht : unpackTrace fuel (readCode p input).2.1 (readCode p input).2.2 with
      | done rest =>
        rw [ht] at h
        simp only [Run.done.injEq] at h
        by_cases hr : (readCode p input).1 = -1
        · simp only [hr, ne_eq, not_true_eq_false, if_false] at h
          subst h
          obtain ⟨ih1, ih2⟩ := ih _ _ output rest ht
          refine ⟨fun hall => ?_, fun hex => ?_⟩
          · simp only [unpackLoop, hf, Bool.false_eq_true, if_false, hr, ne_eq,
              not_true_eq_false]
            exact ih1 hall
          · simp only [unpackLoop, hf, Bool.false_eq_true, if_false, hr, ne_eq,
              not_true_eq_false]
            exact ih2 hex
        · simp only [ne_eq, hr, not_false_eq_true, if_true] at h
          subst h
          refine ⟨fun hall => ?_, fun hex => ?_⟩
          · obtain ⟨h0, hlt⟩ := hall _ (List.mem_cons_self _ _)
            have hnn : ¬ ((readCode p input).1 < 0) := by omega
            obtain ⟨ih1, _⟩ := ih (readCode p input).2.1 (readCode p input).2.2
              (output ++ wl.words.getD (readCode p input).1.toNat []) rest ht
            have hrest := ih1 (fun c hc => hall c (List.mem_cons_of_mem _ hc))
            simp only [unpackLoop, hf, Bool.false_eq_true, if_false, ne_eq, hr,
              not_false_eq_true, if_true, hnn, List.getElem?_eq_getElem hlt]
            rw [List.getD_eq_getElem _ _ hlt] at hrest
            rw [hrest, List.map_cons, decodeCodes, List.getD_eq_getElem _ _ hlt,
              List.append_assoc]
          · by_cases hneg : (readCode p input).1 < 0
            · simp only [unpackLoop, hf, Bool.false_eq_true, if_false, ne_eq, hr,
                not_false_eq_true, if_true, hneg]
            · by_cases hlt : (readCode p input).1.toNat < wl.words.length
              · obtain ⟨_, ih2⟩ := ih (readCode p input).2.1 (readCode p input).2.2
                  (output ++ wl.words[(readCode p input).1.toNat]) rest ht
                have hex2 : ∃ c ∈ rest, c < 0 ∨ wl.len ≤ c.toNat := by
                  obtain ⟨c, hc, hbad⟩ := hex
                  rcases List.mem_cons.mp hc with e | hc2
                  · subst e
                    rcases hbad with hb | hb
                    · exact absurd hb hneg
                    · exact absurd hlt (Nat.not_lt.mpr hb)
                  · exact ⟨c, hc2, hbad⟩
                simp only [unpackLoop, hf, Bool.false_eq_true, if_false, ne_eq, hr,
                  not_false_eq_true, if_true, hneg, List.getElem?_eq_getElem hlt]
                exact ih2 hex2
              · simp only [unpackLoop, hf, Bool.false_eq_true, if_false, ne_eq, hr,
                  not_false_eq_true, if_true, hneg,
                  List.getElem?_eq_none (Nat.le_of_not_lt hlt)]
      | fatal e => rw [ht] at h; simp at h
      | undefined => rw [ht] at h; simp at h
      | fuel => rw [ht] at h; simp at h

theorem map_toNat_ofNat (codes : List Nat) : (codes.map Int.ofNat).map Int.toNat = codes := by
  induction codes with
  | nil => rfl
  | cons c cs ih =>
    rw [List.map_cons, List.map_cons, ih]
    rfl

/-- What `unpack` does with the codes it reads from a file of bytes. -/
theorem unpack_spec (wl : WordList) (data : List Nat) (hd : ∀ b ∈ data, b < 256) :
    unpackedCodes data
        = .done ((streamCodes (8 * data.length / 9) (streamValue data)).map Int.ofNat)
      ∧ ((∀ c ∈ streamCodes (8 * data.length / 9) (streamValue data), c < wl.len) →
          unpack wl data
            = .done (decodeCodes wl (streamCodes (8 * data.length / 9) (streamValue data))))
      ∧ ((∃ c ∈ streamCodes (8 * data.length / 9) (streamValue data), wl.len ≤ c) →
          unpack wl data = .undefined) := by
  have h := unpackTrace_spec (data.length + 2) { bits := 0, bitCount := 0 } data
    (by show 0 ≤ 7; omega) (by show 0 < 2 ^ 0; norm_num) hd (le_refl _)
  have e1 : ({ bits := 0, bitCount := 0 } : PendingBits).bitCount + 8 * data.length
      = 8 * data.length := by
    show 0 + 8 * data.length = 8 * data.length
    omega
  have e2 : ({ bits := 0, bitCount := 0 } : PendingBits).bits
      + 2 ^ ({ bits := 0, bitCount := 0 } : PendingBits).bitCount * streamValue data
      = streamValue data := by
    show 0 + 2 ^ 0 * streamValue data = streamValue data
    simp
  rw [e1, e2] at h
  obtain ⟨t1, t2⟩ := unpackLoop_trace wl _ _ _ [] _ h
  refine ⟨h, fun hall => ?_, fun hex => ?_⟩
  · have := t1 (by
      intro c hc
      obtain ⟨n, hn, rfl⟩ := List.mem_map.mp hc
      exact ⟨Int.ofNat_nonneg n, hall n hn⟩)
    rw [map_toNat_ofNat, List.nil_append] at this
    exact this
  · obtain ⟨c, hc, hle⟩ := hex
    exact t2 ⟨Int.ofNat c, List.mem_map.mpr ⟨c, hc, rfl⟩, Or.inr hle⟩

theorem take_set_ge {α : Type} (l : List α) (i n : Nat) (a : α) (h : n ≤ i) :
    (l.set i a).take n = l.take n := by
  apply List.ext_getElem?
  intro j
  rw [List.getElem?_take, List.getElem?_take]
  split
  · rw [List.getElem?_set_ne (by omega)]
  · rfl

/-- The two stores of one turn of the `readFile` loop. -/
theorem store_byte (l : List (Option Nat)) (D : List Nat) (b : Nat)
    (hlen : D.length + 1 < l.length) (htake : l.take D.length = D.map some) :
    ((l.set D.length (some b)).set (D.length + 1) (some 0)).length = l.length
      ∧ ((l.set D.length (some b)).set (D.length + 1) (some 0)).take (D.length + 1)
          = (D ++ [b]).map some
      ∧ ((l.set D.length (some b)).set (D.length + 1) (some 0))[D.length + 1]?
          = some (some 0) := by
  refine ⟨by simp, ?_, ?_⟩
  · rw [List.take_succ, take_set_ge _ _ _ _ (by omega), take_set_ge _ _ _ _ (le_refl _), htake,
      List.getElem?_set_ne (by omega), List.getElem?_set_self (by omega)]
    simp
  · rw [List.getElem?_set_self (by simp; omega)]

/-- The buffer after the growth step of the `readFile` loop. -/
theorem grow_buffer (buffer : List (Option Nat)) (capacity len : Nat) (D : List Nat)
    (grown : Nat × List (Option Nat))
    (hl : buffer.length = capacity + 1) (hle : len ≤ capacity) (h5 : 5 ≤ capacity)
    (hD : len = D.length) (htake : buffer.take len = D.map some)
    (hg : growBuffer capacity buffer len = some grown) :
    grown.2.length = grown.1 + 1 ∧ len < grown.1 ∧ 5 ≤ grown.1
      ∧ grown.2.take len = D.map some := by
  unfold growBuffer at hg
  by_cases hge : len ≥ capacity
  · rw [if_pos hge] at hg
    by_cases hov : capacity * 2 ≤ INT_MAX
    · rw [if_pos hov] at hg
      have hg2 := (Option.some.inj hg).symm
      subst hg2
      have hlt : (buffer.take len).length = len := by
        rw [List.length_take]; omega
      refine ⟨?_, by show len < capacity * 2; omega, by show 5 ≤ capacity * 2; omega, ?_⟩
      · simp only [memcpy, malloc, List.length_append, hlt, List.length_drop,
          List.length_replicate]
        omega
      · show (memcpy (malloc (capacity * 2 + 1)) buffer len).take len = D.map some
        rw [memcpy, List.take_left' hlt, htake]
    · rw [if_neg hov] at hg
      exact Option.noConfusion hg
  · rw [if_neg hge] at hg
    have hg2 := (Option.some.inj hg).symm
    subst hg2
    exact ⟨hl, by show len < capacity; omega, h5, htake⟩

/-- The growth step overflows only when `len` has reached 2 ^ 30. -/
theorem grow_buffer_none (buffer : List (Option Nat)) (capacity len : Nat)
    (hle : len ≤ capacity) (hg : growBuffer capacity buffer len = none) : 2 ^ 30 ≤ len := by
  unfold growBuffer at hg
  by_cases hge : len ≥ capacity
  · rw [if_pos hge] at hg
    by_cases hov : capacity * 2 ≤ INT_MAX
    · rw [if_pos hov] at hg
      exact Option.noConfusion hg
    · simp only [INT_MAX] at hov
      omega
  · rw [if_neg hge] at hg
    exact Option.noConfusion hg

theorem grow_buffer_some (buffer : List (Option Nat)) (capacity len : Nat)
    (hlen : len < 2 ^ 30) : ∃ grown, growBuffer capacity buffer len = some grown := by
  unfold growBuffer
  by_cases hge : len ≥ capacity
  · have hov : capacity * 2 ≤ INT_MAX := by
      simp only [INT_MAX]
      omega
    rw [if_pos hge, if_pos hov]
    exact ⟨_, rfl⟩
  · rw [if_neg hge]
    exact ⟨_, rfl⟩

theorem readFileLoop_eof (fuel : Nat) (data : List Nat) (buffer : List (Option Nat))
    (capacity len next : Nat) :
    readFileLoop (fuel + 1) { data := data, eof := true } buffer capacity len next
      = .done buffer := by
  simp [readFileLoop, feof]

/-- The `readFile` loop on a text of alphabet bytes: all of it is stored, then a NUL;
or the capacity overflows, which takes more than 2 ^ 30 bytes. -/
theorem readFileLoop_valid : ∀ (rest : List Nat) (b fuel : Nat) (buffer : List (Option Nat))
    (capacity len : Nat) (D : List Nat), ValidText (b :: rest) →
    buffer.length = capacity + 1 → len ≤ capacity → 5 ≤ capacity → len = D.length →
    buffer.take len = D.map some → rest.length + 2 ≤ fuel →
    (∃ buffer1, readFileLoop fuel { data := rest, eof := false } buffer capacity len b
        = .done buffer1
      ∧ buffer1.take (D ++ b :: rest).length = (D ++ b :: rest).map some
      ∧ buffer1[(D ++ b :: rest).length]? = some (some 0))
    ∨ (readFileLoop fuel { data := rest, eof := false } buffer capacity len b = .undefined
      ∧ 2 ^ 30 < (D ++ b :: rest).length) := by
  intro rest
  induction rest with
  | nil =>
    intro b fuel buffer capacity len D hv hl hle h5 hD htake hf
    obtain ⟨f1, rfl⟩ : ∃ f1, fuel = f1 + 2 := ⟨fuel - 2, by simp at hf; omega⟩
    have hb := hv b (List.mem_cons_self _ _)
    have hvc : validChar (toChar (b : Int)) = true := by rw [toChar_of_valid b hb]; exact hb
    cases hg : growBuffer capacity buffer len with
    | none =>
      right
      have := grow_buffer_none buffer capacity len hle hg
      refine ⟨?_, by simp; omega⟩
      rw [readFileLoop]
      simp only [feof, Bool.false_eq_true, if_false, hg]
    | some grown =>
      left
      obtain ⟨g1, g2, _, g3⟩ := grow_buffer buffer capacity len D grown hl hle h5 hD htake hg
      rw [readFileLoop]
      simp only [feof, Bool.false_eq_true, if_false, hg, hvc, if_true, fgetc]
      rw [readFileLoop_eof]
      subst hD
      obtain ⟨s1, s2, s3⟩ := store_byte grown.2 D b (by omega) g3
      refine ⟨_, rfl, ?_, ?_⟩
      · simpa using s2
      · simpa using s3
  | cons c rest ih =>
    intro b fuel buffer capacity len D hv hl hle h5 hD htake hf
    obtain ⟨f1, rfl⟩ : ∃ f1, fuel = f1 + 1 := ⟨fuel - 1, by simp at hf; omega⟩
    have hb := hv b (List.mem_cons_self _ _)
    have hc := hv c (List.mem_cons_of_mem _ (List.mem_cons_self _ _))
    have hc256 : c < 256 := by
      have := (validChar_iff _).mp hc
      omega
    have hvc : validChar (toChar (b : Int)) = true := by rw [toChar_of_valid b hb]; exact hb
    cases hg : growBuffer capacity buffer len with
    | none =>
      right
      have := grow_buffer_none buffer capacity len hle hg
      refine ⟨?_, by simp; omega⟩
      rw [readFileLoop]
      simp only [feof, Bool.false_eq_true, if_false, hg]
    | some grown =>
      obtain ⟨g1, g2, h5g, g3⟩ :=
        grow_buffer buffer capacity len D grown hl hle h5 hD htake hg
      have hstep : readFileLoop (f1 + 1) { data := c :: rest, eof := false } buffer capacity
          len b = readFileLoop f1 { data := rest, eof := false }
            ((grown.2.set len (some b)).set (len + 1) (some 0)) grown.1 (len + 1) c := by
        rw [readFileLoop]
        simp only [feof, Bool.false_eq_true, if_false, hg, hvc, if_true, fgetc,
          toUChar_ofNat c hc256]
      rw [hstep]
      subst hD
      obtain ⟨s1, s2, s3⟩ := store_byte grown.2 D b (by omega) g3
      have hrec := ih c f1 ((grown.2.set D.length (some b)).set (D.length + 1) (some 0))
        grown.1 (D.length + 1) (D ++ [b])
        (fun x hx => hv x (List.mem_cons_of_mem _ hx)) (by rw [s1, g1]) (by omega) h5g
        (by simp) (by simpa using s2) (by simp at hf; omega)
      rcases hrec with ⟨buffer1, e, t1, t2⟩ | ⟨e, t⟩
      · left
        refine ⟨buffer1, e, ?_, ?_⟩
        · simpa using t1
        · simpa using t2
      · right
        refine ⟨e, ?_⟩
        simpa using t

/-- The `readFile` loop on bytes of which one is outside the alphabet. -/
theorem readFileLoop_invalid : ∀ (rest : List Nat) (b fuel : Nat) (buffer : List (Option Nat))
    (capacity len : Nat), (∀ x ∈ b :: rest, x < 256) →
    (∃ x ∈ b :: rest, validChar (x : Int) = false) → rest.length + 1 ≤ fuel →
    len + rest.length + 1 ≤ 2 ^ 30 →
    ∃ x, x ∈ b :: rest ∧ validChar (x : Int) = false
      ∧ readFileLoop fuel { data := rest, eof := false } buffer capacity len b
          = .fatal (.invalidCharacterCode x) := by
  intro rest
  induction rest with
  | nil =>
    intro b fuel buffer capacity len h256 hex hf hsz
    obtain ⟨f1, rfl⟩ : ∃ f1, fuel = f1 + 1 := ⟨fuel - 1, by simp at hf; omega⟩
    obtain ⟨x, hx, hinv⟩ := hex
    rw [List.mem_singleton] at hx
    subst hx
    have hvc : validChar (toChar (x : Int)) = false := by
      rw [validChar_toChar x (h256 x (List.mem_cons_self _ _))]; exact hinv
    obtain ⟨grown, hg⟩ := grow_buffer_some buffer capacity len (by simp at hsz; omega)
    refine ⟨x, List.mem_cons_self _ _, hinv, ?_⟩
    rw [readFileLoop]
    simp only [feof, Bool.false_eq_true, if_false, hg, hvc]
  | cons c rest ih =>
    intro b fuel buffer capacity len h256 hex hf hsz
    obtain ⟨f1, rfl⟩ : ∃ f1, fuel = f1 + 1 := ⟨fuel - 1, by simp at hf; omega⟩
    have hb256 := h256 b (List.mem_cons_self _ _)
    have hc256 := h256 c (List.mem_cons_of_mem _ (List.mem_cons_self _ _))
    obtain ⟨grown, hg⟩ := grow_buffer_some buffer capacity len (by simp at hsz; omega)
    by_cases hb : validChar (b : Int) = true
    · have hvc : validChar (toChar (b : Int)) = true := by
        rw [validChar_toChar b hb256]; exact hb
      have hex2 : ∃ x ∈ c :: rest, validChar (x : Int) = false := by
        obtain ⟨x, hx, hinv⟩ := hex
        rcases List.mem_cons.mp hx with e | hx2
        · subst e
          rw [hb] at hinv
          exact absurd hinv (by decide)
        · exact ⟨x, hx2, hinv⟩
      obtain ⟨x, hx, hinv, e⟩ := ih c f1
        ((grown.2.set len (some b)).set (len + 1) (some 0))
        grown.1 (len + 1)
        (fun y hy => h256 y (List.mem_cons_of_mem _ hy)) hex2 (by simp at hf; omega)
        (by simp at hsz; omega)
      refine ⟨x, List.mem_cons_of_mem _ hx, hinv, ?_⟩
      rw [readFileLoop]
      simp only [feof, Bool.false_eq_true, if_false, hg, hvc, if_true, fgetc,
        toUChar_ofNat c hc256]
      exact e
    · have hb2 : validChar (b : Int) = false := by
        cases h : validChar (b : Int)
        · rfl
        · exact absurd h hb
      have hvc : validChar (toChar (b : Int)) = false := by
        rw [validChar_toChar b hb256]; exact hb2
      refine ⟨b, List.mem_cons_self _ _, hb2, ?_⟩
      rw [readFileLoop]
      simp only [feof, Bool.false_eq_true, if_false, hg, hvc]

theorem cstring_of_take (D : List Nat) : ∀ (buffer : List (Option Nat)),
    (∀ x ∈ D, x ≠ 0) → buffer.take D.length = D.map some →
    buffer[D.length]? = some (some 0) → cstring buffer = some D := by
  induction D with
  | nil =>
    intro buffer _ _ h0
    cases buffer with
    | nil => simp at h0
    | cons a as =>
      simp only [List.length_nil, List.getElem?_cons_zero, Option.some.injEq] at h0
      subst h0
      simp [cstring]
  | cons d D ih =>
    intro buffer hz htake h0
    cases buffer with
    | nil => simp at htake
    | cons a as =>
      simp only [List.length_cons, List.take_succ_cons, List.map_cons, List.cons.injEq] at htake
      simp only [List.length_cons, List.getElem?_cons_succ] at h0
      obtain ⟨ha, htake2⟩ := htake
      subst ha
      have hd := hz d (List.mem_cons_self _ _)
      simp only [cstring, hd, if_false,
        ih as (fun x hx => hz x (List.mem_cons_of_mem _ hx)) htake2 h0]

/-- What `readFile` does with a non-empty text of alphabet bytes: it returns a buffer
holding the text and a NUL, or the capacity overflows (more than 2 ^ 30 bytes). -/
theorem readFile_valid (input : List Nat) (hv : ValidText input) (hne : input ≠ []) :
    (∃ buffer, readFile { data := input, eof := false } = .done buffer
        ∧ buffer.take input.length = input.map some
        ∧ buffer[input.length]? = some (some 0)
        ∧ cstring buffer = some input)
    ∨ (readFile { data := input, eof := false } = .undefined ∧ 2 ^ 30 < input.length) := by
  have h256 : ∀ b ∈ input, b < 256 := by
    intro b hb
    have := (validChar_iff _).mp (hv b hb)
    omega
  obtain ⟨b, rest, rfl⟩ := List.exists_cons_of_ne_nil hne
  have hb256 := h256 b (List.mem_cons_self _ _)
  have hstart : readFile { data := b :: rest, eof := false }
      = readFileLoop (rest.length + 2) { data := rest, eof := false } (malloc 6) 5 0 b := by
    simp only [readFile, fgetc, toUChar_ofNat b hb256, List.length_cons]
  rw [hstart]
  rcases readFileLoop_valid rest b (rest.length + 2) (malloc 6) 5 0 []
      hv (by simp [malloc]) (by omega) (le_refl _) rfl (by simp) (le_refl _) with
    ⟨buffer, e, t1, t2⟩ | ⟨e, t⟩
  · simp only [List.nil_append] at t1 t2
    exact Or.inl ⟨buffer, e, t1, t2, cstring_of_take _ _ (validText_ne_zero _ hv) t1 t2⟩
  · simp only [List.nil_append] at t
    exact Or.inr ⟨e, t⟩

/-- What `readFile` returns for a file of at most 2 ^ 30 bytes: a fatal exit exactly
when a byte is outside the alphabet; for a non-empty text of alphabet bytes a buffer
holding the text and a NUL; for the empty file the buffer as allocated, with nothing
stored in it. -/
theorem readFile_spec (input : List Nat) (h256 : ∀ b ∈ input, b < 256)
    (hsz : input.length ≤ 2 ^ 30) :
    ((∃ e, readFile { data := input, eof := false } = .fatal e)
        ↔ ∃ b ∈ input, validChar (b : Int) = false)
      ∧ (ValidText input → input ≠ [] →
          ∃ buffer, readFile { data := input, eof := false } = .done buffer
            ∧ buffer.take input.length = input.map some
            ∧ buffer[input.length]? = some (some 0)
            ∧ cstring buffer = some input)
      ∧ (input = [] → readFile { data := input, eof := false } = .done (malloc 6)) := by
  have hvalid : ValidText input → input ≠ [] →
      ∃ buffer, readFile { data := input, eof := false } = .done buffer
        ∧ buffer.take input.length = input.map some
        ∧ buffer[input.length]? = some (some 0)
        ∧ cstring buffer = some input := by
    intro hv hne
    rcases readFile_valid input hv hne with h | ⟨_, t⟩
    · exact h
    · omega
  have hempty : readFile { data := [], eof := false } = .done (malloc 6) := by
    simp [readFile, fgetc, readFileLoop, feof]
  refine ⟨⟨fun hf => ?_, fun hex => ?_⟩, hvalid, fun he => by rw [he]; exact hempty⟩
  · by_contra hcon
    have hv : ValidText input := by
      intro b hb
      cases h : validChar (b : Int)
      · exact absurd ⟨b, hb, h⟩ hcon
      · rfl
    obtain ⟨e, he⟩ := hf
    by_cases hne : input = []
    · subst hne
      rw [hempty] at he
      exact Run.noConfusion he
    · obtain ⟨buffer, hb, _⟩ := hvalid hv hne
      rw [hb] at he
      exact Run.noConfusion he
  · obtain ⟨x, hx, hinv⟩ := hex
    have hne : input ≠ [] := List.ne_nil_of_mem hx
    obtain ⟨b, rest, rfl⟩ := List.exists_cons_of_ne_nil hne
    have hb256 := h256 b (List.mem_cons_self _ _)
    obtain ⟨y, _, _, e⟩ := readFileLoop_invalid rest b (rest.length + 2) (malloc 6) 5 0
      h256 ⟨x, hx, hinv⟩ (by omega) (by simp at hsz; omega)
    refine ⟨Fatal.invalidCharacterCode y, ?_⟩
    simp only [readFile, fgetc, toUChar_ofNat b hb256, List.length_cons]
    exact e

/-- On a non-empty text of alphabet bytes, of at most 2 ^ 30 bytes, the whole program
`pack` is the encoding loop on that text. -/
theorem packFile_eq_pack (wl : WordList) (text : List Nat) (ht : ValidText text)
    (hne : text ≠ []) (hsz : text.length ≤ 2 ^ 30) : packFile wl text = pack wl text := by
  have h256 : ∀ b ∈ text, b < 256 := by
    intro b hb
    have := (validChar_iff _).mp (ht b hb)
    omega
  obtain ⟨buffer, e, _, _, hc⟩ := (readFile_spec text h256 hsz).2.1 ht hne
  simp only [packFile, e, hc]

/-- The encoding loop writes, with `writeCode`, the codes of its trace. -/
theorem packLoop_trace (wl : WordList) (buffer : List Nat) : ∀ (fuel pos : Nat)
    (pending : PendingBits) (output : List Nat),
    packLoop wl buffer fuel pos pending output
      = match packTrace wl buffer fuel pos with
        | .done steps => .done (writeCodes (steps.map (fun s => s.2)) pending output)
        | .fatal e => .fatal e
        | .undefined => .undefined
        | .fuel => .fuel := by
  intro fuel
  induction fuel with
  | zero => intro pos pending output; simp [packLoop, packTrace]
  | succ fuel ih =>
    intro pos pending output
    rw [packLoop, packTrace]
    by_cases hlt : pos < buffer.length
    · simp only [hlt, if_true]
      cases hb : bestCode wl (buffer.drop pos) with
      | done code =>
        simp only
        cases hw : wl.words[code]? with
        | none => simp only
        | some w =>
          simp only
          by_cases hi : pos + w.length ≤ INT_MAX
          · simp only [hi, if_true]
            rw [ih]
            cases ht : packTrace wl buffer fuel (pos + w.length) with
            | done rest => simp only [List.map_cons, writeCodes]
            | fatal e => simp only
            | undefined => simp only
            | fuel => simp only
          · simp only [hi, if_false]
      | fatal e => simp only
      | undefined => simp only
      | fuel => simp only
    · simp only [hlt, if_false]
      by_cases he : pos = buffer.length
      · simp only [he, if_true, List.map_nil, writeCodes]
      · simp only [he, if_false]

/-- An iteration of the encoding loop with the cursor inside the text has no trace:
it is undefined. -/
theorem packTrace_undefined (wl : WordList) (buffer : List Nat) (fuel pos : Nat)
    (h : pos < buffer.length) : packTrace wl buffer (fuel + 1) pos = .undefined := by
  simp only [packTrace, h, if_true, bestCode_undefined]

theorem packedCodes_undefined (wl : WordList) (buffer : List Nat) (hne : buffer ≠ []) :
    packedCodes wl buffer = .undefined := by
  have h : 0 < buffer.length := List.length_pos.mpr hne
  simp only [packedCodes, packTrace_undefined wl buffer buffer.length 0 h]

/-- The program `pack` on a file of alphabet bytes is undefined: on the empty file the
buffer holds no string, on every other one the encoding loop calls `bestCode` (or the
capacity of the buffer has overflowed before). -/
theorem packFile_undefined (wl : WordList) (input : List Nat) (hv : ValidText input) :
    packFile wl input = .undefined := by
  by_cases hne : input = []
  · subst hne
    have he : readFile { data := [], eof := false } = .done (malloc 6) := by
      simp [readFile, fgetc, readFileLoop, feof]
    have hc : cstring (malloc 6) = none := by decide
    simp only [packFile, he, hc]
  · rcases readFile_valid input hv hne with ⟨buffer, e, _, _, hc⟩ | ⟨e, _⟩
    · simp only [packFile, e, hc, pack_undefined wl input hne]
    · simp only [packFile, e]

/-- Decoding the file made of codes that are indices of the table. -/
theorem unpack_packCodes (wl : WordList) (codes : List Nat) (hlen : ∀ c ∈ codes, c < wl.len)
    (h512 : ∀ c ∈ codes, c < 512) :
    unpack wl (packCodes codes) = .done (decodeCodes wl codes) := by
  have hl := (packCodes_spec codes h512).1
  have := unpackLoop_spec wl codes ((packCodes codes).length + 2)
    { bits := 0, bitCount := 0 } (packCodes codes) [] (packCodes_RInv codes h512) h512 hlen
    (by rw [hl]; omega)
  rw [unpack, this]
  simp

set_option maxRecDepth 100000 in
theorem emptyFile_table : readWordList (some []) = .done { words := singleChars } := by
  decide

set_option maxRecDepth 100000 in
theorem singleChars_code : ∀ b : Nat, b < 127 → validChar (b : Int) = true →
    singleChars[singleCode b]? = some [b] := by
  decide

theorem getElem?_inj_of_nodup (l : List Word) (hn : l.Nodup) (i j : Nat) (w : Word)
    (hi : l[i]? = some w) (hj : l[j]? = some w) : i = j := by
  obtain ⟨h1, e1⟩ := List.getElem?_eq_some_iff.mp hi
  obtain ⟨h2, e2⟩ := List.getElem?_eq_some_iff.mp hj
  exact (List.Nodup.getElem_inj_iff hn).mp (e1.trans e2.symm)

/-- The loop of `bestCode`, entered at its second iteration, in a table of one-byte
words without repetition: the index of the word of the first byte. -/
theorem bestCodeLoop_single (wl : WordList) (hd : IsDict wl)
    (h1 : ∀ w ∈ wl.words, w.length = 1) (hn : wl.words.Nodup) (b : Nat) (rest : List Nat)
    (hv : ValidText (b :: rest)) (k : Nat) (hk : wl.words[k]? = some [b])
    (copyString : List Nat) (hc : copyString.length = WORD_MAX + 1) :
    bestCodeLoop wl (b :: rest) WORD_MAX 1 copyString = .done (some k) := by
  obtain ⟨idx, w, e, _, hget, hpre, _, _, _⟩ :=
    bestCodeLoop_second wl hd (b :: rest) hv (List.cons_ne_nil _ _) copyString hc
  have hw1 := h1 w (List.getElem?_mem hget)
  have hwb : w = [b] := by
    match w, hw1, hpre with
    | [x], _, hpre =>
      obtain ⟨hx, _⟩ := List.cons_prefix_cons.mp hpre
      rw [hx]
  rw [hwb] at hget
  rw [e, getElem?_inj_of_nodup wl.words hn idx k [b] hget hk]

theorem decodeCodes_single (text : List Nat) (ht : ValidText text) :
    decodeCodes { words := singleChars } (text.map singleCode) = text := by
  induction text with
  | nil => rfl
  | cons b rest ih =>
    have hb := ht b (List.mem_cons_self _ _)
    have hb127 : b < 127 := by
      have := (validChar_iff _).mp hb
      omega
    have hk := singleChars_code b hb127 hb
    have hg : ({ words := singleChars } : WordList).words.getD (singleCode b) [] = [b] := by
      show singleChars.getD (singleCode b) [] = [b]
      rw [List.getD_eq_getElem?_getD, hk]; rfl
    rw [List.map_cons, decodeCodes, hg, ih (fun x hx => ht x (List.mem_cons_of_mem _ hx))]
    rfl

theorem writeCode_pending (c : Nat) (p : PendingBits) (fp : List Nat) :
    (writeCode c p fp).1 = (writeCode c p []).1 := by
  by_cases h : p.bitCount + 1 = 8
  · simp [writeCode, BITS_PER_BYTE, h]
  · simp [writeCode, BITS_PER_BYTE, h]

theorem writeCodes_pending (codes : List Nat) : ∀ (p : PendingBits) (fp : List Nat),
    (writeCodes codes p fp).1 = (writeCodes codes p []).1 := by
  induction codes with
  | nil => intro p fp; rfl
  | cons c cs ih =>
    intro p fp
    rw [writeCodes, writeCodes, ih, ih (writeCode c p []).1 (writeCode c p []).2,
      writeCode_pending]

/-! ## The claims -/

/-- C1, on the code: the round trip does not take place. For every table and every
input file of alphabet bytes the program `pack` is undefined, so there is no compressed
file that `unpack` turns back into the input: on a non-empty input every iteration of
the encoding loop calls `bestCode`, whose loop stores a NUL one past the end of
`copyString` in its first iteration; on the empty input `readFile` returns a buffer
that holds no string. The decoding half is in order: `unpack` turns the file written
for codes that are indices of the table into the entries of these codes, one after
the other. -/
theorem C1_round_trip_undefined (wl : WordList) (input : List Nat) (hv : ValidText input) :
    packFile wl input = .undefined
      ∧ (input ≠ [] → pack wl input = .undefined)
      ∧ (¬ ∃ packed, packFile wl input = .done packed ∧ unpack wl packed = .done input)
      ∧ ∀ codes, (∀ c ∈ codes, c < wl.len) → (∀ c ∈ codes, c < 512) →
          unpack wl (packCodes codes) = .done (decodeCodes wl codes) := by
  have h := packFile_undefined wl input hv
  refine ⟨h, fun hne => pack_undefined wl input hne, ?_,
    fun codes hlen h512 => unpack_packCodes wl codes hlen h512⟩
  rintro ⟨packed, hp, _⟩
  rw [h] at hp
  exact Run.noConfusion hp

set_option maxRecDepth 100000 in
theorem C1_round_trip_undefined_witness :
    readWordList (some [51, 32, 116, 104, 101, 10])
        = .done { words := qsort (singleChars ++ [[116, 104, 101]]) }
    ∧ ValidText [116, 104, 101, 32, 97]
    ∧ readFile { data := [116, 104, 101, 32, 97], eof := false }
        = .done [some 116, some 104, some 101, some 32, some 97, some 0]
    ∧ bestCode { words := qsort (singleChars ++ [[116, 104, 101]]) } [116, 104, 101, 32, 97]
        = .undefined
    ∧ (packFile { words := qsort (singleChars ++ [[116, 104, 101]]) } [116, 104, 101, 32, 97]
        = .undefined
      ∧ ([116, 104, 101, 32, 97] ≠ [] →
          pack { words := qsort (singleChars ++ [[116, 104, 101]]) } [116, 104, 101, 32, 97]
            = .undefined)
      ∧ (¬ ∃ packed,
          packFile { words := qsort (singleChars ++ [[116, 104, 101]]) }
              [116, 104, 101, 32, 97] = .done packed
            ∧ unpack { words := qsort (singleChars ++ [[116, 104, 101]]) } packed
              = .done [116, 104, 101, 32, 97])
      ∧ ∀ codes,
          (∀ c ∈ codes,
            c < ({ words := qsort (singleChars ++ [[116, 104, 101]]) } : WordList).len) →
          (∀ c ∈ codes, c < 512) →
          unpack { words := qsort (singleChars ++ [[116, 104, 101]]) } (packCodes codes)
            = .done (decodeCodes { words := qsort (singleChars ++ [[116, 104, 101]]) } codes)) :=
  ⟨by decide, by decide, by decide, by decide,
    C1_round_trip_undefined { words := qsort (singleChars ++ [[116, 104, 101]]) }
      [116, 104, 101, 32, 97] (by decide)⟩

/-- C2. Bit-codec round trip with no spurious code: for every list of K codes, each in
0..511, the bytes produced by K calls of `writeCode` from `pending = {0, 0}` followed by
`flushBits`, read back by K + 1 calls of `readCode` from `pending = {0, 0}`, give exactly
those K codes in order and then -1; the padding bits of the last byte are never returned
as a code. -/
theorem C2_codec_round_trip (codes : List Nat) (hc : ∀ c ∈ codes, c ≤ 511) :
    readCodes (codes.length + 1) { bits := 0, bitCount := 0 }
        { data := packCodes codes, eof := false }
      = codes.map Int.ofNat ++ [-1] := by
  have hc1 : ∀ c ∈ codes, c < 512 := fun c h => Nat.lt_succ_of_le (hc c h)
  exact readCodes_RInv codes _ _ (packCodes_RInv codes hc1) hc1

theorem C2_codec_round_trip_witness :
    (∀ c ∈ [511, 0, 300], c ≤ 511) ∧
    readCodes 4 { bits := 0, bitCount := 0 } { data := packCodes [511, 0, 300], eof := false }
      = [511, 0, 300, -1] :=
  ⟨by decide, C2_codec_round_trip [511, 0, 300] (by decide)⟩

/-- C3. Output size: for every list of K codes in 0..511, the K calls of `writeCode` from
`pending = {0, 0}` write K + floor(K / 8) bytes, `flushBits` then writes one more byte
exactly when K mod 8 is not 0, and the total is ceil(9 K / 8) bytes. -/
theorem C3_output_size (codes : List Nat) (hc : ∀ c ∈ codes, c ≤ 511) :
    (writeCodes codes { bits := 0, bitCount := 0 } []).2.length
        = codes.length + codes.length / 8
      ∧ (packCodes codes).length
        = (writeCodes codes { bits := 0, bitCount := 0 } []).2.length
          + (if codes.length % 8 ≠ 0 then 1 else 0)
      ∧ (packCodes codes).length = (9 * codes.length + 7) / 8
      ∧ 8 * (packCodes codes).length < 9 * codes.length + 8
      ∧ 9 * codes.length ≤ 8 * (packCodes codes).length := by
  have hc1 : ∀ c ∈ codes, c < 512 := fun c h => Nat.lt_succ_of_le (hc c h)
  have hw := (writeCodes_init codes hc1).len
  have hp := (packCodes_spec codes hc1).1
  refine ⟨hw, ?_, hp, ?_, ?_⟩
  · rw [hp, hw]
    split <;> omega
  · rw [hp]; omega
  · rw [hp]; omega

theorem C3_output_size_witness :
    (∀ c ∈ [68, 69], c ≤ 511) ∧
    ((writeCodes [68, 69] { bits := 0, bitCount := 0 } []).2.length = 2 + 2 / 8
      ∧ (packCodes [68, 69]).length
        = (writeCodes [68, 69] { bits := 0, bitCount := 0 } []).2.length
          + (if 2 % 8 ≠ 0 then 1 else 0)
      ∧ (packCodes [68, 69]).length = (9 * 2 + 7) / 8
      ∧ 8 * (packCodes [68, 69]).length < 9 * 2 + 8
      ∧ 9 * 2 ≤ 8 * (packCodes [68, 69]).length) :=
  ⟨by decide, C3_output_size [68, 69] (by decide)⟩

/-- C4. Stream format: for every list of codes in 0..511 the bytes written by the
`writeCode` calls and `flushBits` from `pending = {0, 0}` are bytes (below 256) whose
low-byte-first value, the sum of b_i * 256 ^ i, equals the sum of c_m * 2 ^ (9 m);
bit k of code m is bit (9 m + k) mod 8 of byte floor((9 m + k) / 8); and every bit of
the stream at a position from 9 K on is zero. -/
theorem C4_stream_layout (codes : List Nat) (hc : ∀ c ∈ codes, c ≤ 511) :
    streamValue (packCodes codes) = codesValue codes
      ∧ (∀ b ∈ packCodes codes, b < 256)
      ∧ (∀ m k : Nat, m < codes.length → k < 9 →
          (codes.getD m 0).testBit k
            = ((packCodes codes).getD ((9 * m + k) / 8) 0).testBit ((9 * m + k) % 8))
      ∧ (∀ j : Nat, 9 * codes.length ≤ j →
          ((packCodes codes).getD (j / 8) 0).testBit (j % 8) = false) := by
  have hc1 : ∀ c ∈ codes, c < 512 := fun c h => Nat.lt_succ_of_le (hc c h)
  obtain ⟨_, hv, hb⟩ := packCodes_spec codes hc1
  refine ⟨hv, hb, ?_, ?_⟩
  · intro m k _ hk
    rw [← streamValue_testBit _ hb, hv, codesValue_testBit _ hc1]
    have h1 : (9 * m + k) / 9 = m := by omega
    have h2 : (9 * m + k) % 9 = k := by omega
    rw [h1, h2]
  · intro j hj
    rw [← streamValue_testBit _ hb, hv, codesValue_testBit _ hc1]
    have h1 : codes.length ≤ j / 9 := by omega
    rw [List.getD_eq_default _ _ h1]
    simp

theorem C4_stream_layout_witness :
    (∀ c ∈ [68, 69], c ≤ 511) ∧
    (streamValue (packCodes [68, 69]) = codesValue [68, 69]
      ∧ (∀ b ∈ packCodes [68, 69], b < 256)
      ∧ (∀ m k : Nat, m < [68, 69].length → k < 9 →
          ([68, 69].getD m 0).testBit k
            = ((packCodes [68, 69]).getD ((9 * m + k) / 8) 0).testBit ((9 * m + k) % 8))
      ∧ (∀ j : Nat, 9 * [68, 69].length ≤ j →
          ((packCodes [68, 69]).getD (j / 8) 0).testBit (j % 8) = false)) :=
  ⟨by decide, C4_stream_layout [68, 69] (by decide)⟩

/-- C5, on the code: every call of `bestCode` is undefined. The array `copyString` has
`WORD_MAX + 1` = 21 bytes and in the first iteration of the loop (`i = 0`) the NUL is
stored at index `WORD_MAX + 1 - i` = 21, one past its end, so no index is returned.
The search after that store is the one the claim describes: entered at its second
iteration, with the array as `strncpy` has left it, the loop on a non-empty string of
alphabet bytes ends at an index i with i < len <= 512 such that `words[i]` is a prefix
of the string and no entry that is a prefix of the string is longer. -/
theorem C5_bestCode_out_of_bounds (fname : Option (List Nat)) (wl : WordList)
    (str : List Nat) (hd : readWordList fname = .done wl) (hs : ValidText str)
    (hne : str ≠ []) :
    (strncpy (List.replicate (WORD_MAX + 1) 0) str (WORD_MAX + 1 - 0)).length = WORD_MAX + 1 - 0
      ∧ bestCodeLoop wl str (WORD_MAX + 1) 0 (List.replicate (WORD_MAX + 1) 0) = .undefined
      ∧ bestCode wl str = .undefined
      ∧ ∃ i w, bestCodeLoop wl str WORD_MAX 1
              (strncpy (List.replicate (WORD_MAX + 1) 0) str (WORD_MAX + 1 - 0))
            = .done (some i)
        ∧ i < wl.len ∧ wl.len ≤ 512
        ∧ wl.words[i]? = some w ∧ w <+: str
        ∧ ∀ v ∈ wl.words, v <+: str → v.length ≤ w.length := by
  have hdict := readWordList_isDict fname wl hd
  have hl : (strncpy (List.replicate (WORD_MAX + 1) 0) str (WORD_MAX + 1 - 0)).length
      = WORD_MAX + 1 := by
    rw [strncpy_length _ _ _ (by simp), List.length_replicate]
  obtain ⟨idx, w, e, hidx, hget, hpre, _, _, hmax⟩ :=
    bestCodeLoop_second wl hdict str hs hne _ hl
  exact ⟨hl, bestCodeLoop_first wl str WORD_MAX _ (List.length_replicate _ _),
    bestCode_undefined wl str, idx, w, e, hidx, hdict.len_le, hget, hpre, hmax⟩

set_option maxRecDepth 100000 in
theorem C5_bestCode_out_of_bounds_witness :
    readWordList (some [51, 32, 116, 104, 101, 10, 50, 32, 116, 104, 10])
        = .done { words := qsort (singleChars ++ [[116, 104, 101], [116, 104]]) }
    ∧ ValidText [116, 104, 101, 110]
    ∧ [116, 104, 101, 110] ≠ []
    ∧ bestCode { words := qsort (singleChars ++ [[116, 104, 101], [116, 104]]) }
        [116, 104, 101, 110] = .undefined
    ∧ bestCodeLoop { words := qsort (singleChars ++ [[116, 104, 101], [116, 104]]) }
        [116, 104, 101, 110] WORD_MAX 1
        (strncpy (List.replicate (WORD_MAX + 1) 0) [116, 104, 101, 110] (WORD_MAX + 1 - 0))
        = .done (some 89)
    ∧ ((strncpy (List.replicate (WORD_MAX + 1) 0) [116, 104, 101, 110]
          (WORD_MAX + 1 - 0)).length = WORD_MAX + 1 - 0
      ∧ bestCodeLoop { words := qsort (singleChars ++ [[116, 104, 101], [116, 104]]) }
          [116, 104, 101, 110] (WORD_MAX + 1) 0 (List.replicate (WORD_MAX + 1) 0) = .undefined
      ∧ bestCode { words := qsort (singleChars ++ [[116, 104, 101], [116, 104]]) }
          [116, 104, 101, 110] = .undefined
      ∧ ∃ i w, bestCodeLoop { words := qsort (singleChars ++ [[116, 104, 101], [116, 104]]) }
              [116, 104, 101, 110] WORD_MAX 1
              (strncpy (List.replicate (WORD_MAX + 1) 0) [116, 104, 101, 110]
                (WORD_MAX + 1 - 0))
            = .done (some i)
        ∧ i < ({ words := qsort (singleChars ++ [[116, 104, 101], [116, 104]]) } : WordList).len
        ∧ ({ words := qsort (singleChars ++ [[116, 104, 101], [116, 104]]) } : WordList).len ≤ 512
        ∧ ({ words := qsort (singleChars ++ [[116, 104, 101], [116, 104]]) } : WordList).words[i]?
            = some w
        ∧ w <+: [116, 104, 101, 110]
        ∧ ∀ v ∈ ({ words := qsort (singleChars ++ [[116, 104, 101], [116, 104]]) }
            : WordList).words, v <+: [116, 104, 101, 110] → v.length ≤ w.length) :=
  ⟨by decide, by decide, by decide, by decide, by decide,
    C5_bestCode_out_of_bounds (some [51, 32, 116, 104, 101, 10, 50, 32, 116, 104, 10]) _ _
      (by decide) (by decide) (by decide)⟩

set_option maxRecDepth 100000 in
/-- C6, as stated, fails: the word file `2 ab`, `2 ab` (the same valid word on two
lines) is accepted, and the table holds the word `ab` at index 69 and again at
index 70. -/
theorem C6_duplicate_entries :
    ∃ wl, readWordList (some [50, 32, 97, 98, 10, 50, 32, 97, 98, 10]) = .done wl
      ∧ wl.words[69]? = some [97, 98] ∧ wl.words[70]? = some [97, 98]
      ∧ ¬ wl.words.Nodup :=
  ⟨{ words := qsort (singleChars ++ [[97, 98], [97, 98]]) }, by decide, by decide, by decide,
    by decide⟩

/-- C6, amended. For every list of valid words that are pairwise distinct, the table
`readWordList` builds from the word file listing them is strictly ascending, has no
two equal entries, and distinct codes below `len` denote distinct words. -/
theorem C6_unique_when_distinct (ws : List Word) (wl : WordList)
    (hv : ∀ w ∈ ws, ValidWord w) (hn : ws.Nodup)
    (hd : readWordList (some (renderWords ws)) = .done wl) :
    wl.words.Sorted (fun a b => compareWords a b < 0)
      ∧ wl.words.Nodup
      ∧ ∀ i j : Nat, i < wl.len → j < wl.len →
          wl.words.getD i [] = wl.words.getD j [] → i = j := by
  have hdict := readWordList_isDict _ wl hd
  have hw := readWordList_words_eq ws wl hv hd
  have hnodup : wl.words.Nodup := by
    rw [hw]
    exact qsort_nodup _ (table_nodup ws hv hn)
  have hz : ∀ w ∈ wl.words, ∀ x ∈ w, x ≠ 0 :=
    fun w hw => validText_ne_zero w (hdict.word_valid w hw)
  refine ⟨sorted_strict _ hdict.sorted hnodup hz, hnodup, ?_⟩
  intro i j hi hj hij
  rw [List.getD_eq_getElem _ _ hi, List.getD_eq_getElem _ _ hj] at hij
  exact (List.Nodup.getElem_inj_iff hnodup).mp hij

set_option maxRecDepth 100000 in
theorem C6_unique_when_distinct_witness :
    (∀ w ∈ [[116, 104, 101], [97, 98]], ValidWord w)
    ∧ [[116, 104, 101], [97, 98]].Nodup
    ∧ readWordList (some (renderWords [[116, 104, 101], [97, 98]]))
        = .done { words := qsort (singleChars ++ [[116, 104, 101], [97, 98]]) }
    ∧ (({ words := qsort (singleChars ++ [[116, 104, 101], [97, 98]]) } : WordList).words.Sorted
          (fun a b => compareWords a b < 0)
      ∧ ({ words := qsort (singleChars ++ [[116, 104, 101], [97, 98]]) } : WordList).words.Nodup
      ∧ ∀ i j : Nat,
          i < ({ words := qsort (singleChars ++ [[116, 104, 101], [97, 98]]) } : WordList).len →
          j < ({ words := qsort (singleChars ++ [[116, 104, 101], [97, 98]]) } : WordList).len →
          ({ words := qsort (singleChars ++ [[116, 104, 101], [97, 98]]) } : WordList).words.getD
              i []
            = ({ words := qsort (singleChars ++ [[116, 104, 101], [97, 98]]) }
                : WordList).words.getD j [] → i = j) :=
  ⟨by decide, by decide, by decide,
    C6_unique_when_distinct [[116, 104, 101], [97, 98]] _ (by decide) (by decide) (by decide)⟩

/-- C7. Dictionary is sorted: for every list of valid words whose word file
`readWordList` accepts, the table returned is a rearrangement of the 98
single-character words plus the supplied words, in ascending `strcmp` order, and an
entry that is a proper prefix of another entry stands before it. -/
theorem C7_sorted_rearrangement (ws : List Word) (wl : WordList)
    (hv : ∀ w ∈ ws, ValidWord w)
    (hd : readWordList (some (renderWords ws)) = .done wl) :
    wl.words.Perm (singleChars ++ ws)
      ∧ wl.words.Sorted (fun a b => compareWords a b ≤ 0)
      ∧ (∀ i j : Nat, i ≤ j → j < wl.len →
          strcmp (wl.words.getD i []) (wl.words.getD j []) ≤ 0)
      ∧ (∀ i j : Nat, i < wl.len → j < wl.len →
          wl.words.getD i [] <+: wl.words.getD j [] →
          wl.words.getD i [] ≠ wl.words.getD j [] → i < j) := by
  have hdict := readWordList_isDict _ wl hd
  have hw := readWordList_words_eq ws wl hv hd
  have hz : ∀ w ∈ wl.words, ∀ x ∈ w, x ≠ 0 :=
    fun w hw => validText_ne_zero w (hdict.word_valid w hw)
  refine ⟨?_, hdict.sorted, ?_, ?_⟩
  · rw [hw]
    exact qsort_perm _
  · intro i j hij hj
    exact sorted_getD_le wl.words hdict.sorted i j hij hj
  · intro i j hi hj hpre hne
    exact sorted_prefix_before wl.words hdict.sorted hz i j hi hj hpre hne

set_option maxRecDepth 100000 in
theorem C7_sorted_rearrangement_witness :
    (∀ w ∈ [[116, 104, 101], [116, 104]], ValidWord w)
    ∧ readWordList (some (renderWords [[116, 104, 101], [116, 104]]))
        = .done { words := qsort (singleChars ++ [[116, 104, 101], [116, 104]]) }
    ∧ (({ words := qsort (singleChars ++ [[116, 104, 101], [116, 104]]) } : WordList).words.Perm
          (singleChars ++ [[116, 104, 101], [116, 104]])
      ∧ ({ words := qsort (singleChars ++ [[116, 104, 101], [116, 104]]) }
          : WordList).words.Sorted (fun a b => compareWords a b ≤ 0)
      ∧ (∀ i j : Nat, i ≤ j →
          j < ({ words := qsort (singleChars ++ [[116, 104, 101], [116, 104]]) } : WordList).len →
          strcmp
            (({ words := qsort (singleChars ++ [[116, 104, 101], [116, 104]]) }
              : WordList).words.getD i [])
            (({ words := qsort (singleChars ++ [[116, 104, 101], [116, 104]]) }
              : WordList).words.getD j []) ≤ 0)
      ∧ (∀ i j : Nat,
          i < ({ words := qsort (singleChars ++ [[116, 104, 101], [116, 104]]) } : WordList).len →
          j < ({ words := qsort (singleChars ++ [[116, 104, 101], [116, 104]]) } : WordList).len →
          ({ words := qsort (singleChars ++ [[116, 104, 101], [116, 104]]) }
              : WordList).words.getD i []
            <+: ({ words := qsort (singleChars ++ [[116, 104, 101], [116, 104]]) }
              : WordList).words.getD j [] →
          ({ words := qsort (singleChars ++ [[116, 104, 101], [116, 104]]) }
              : WordList).words.getD i []
            ≠ ({ words := qsort (singleChars ++ [[116, 104, 101], [116, 104]]) }
              : WordList).words.getD j [] → i < j)) :=
  ⟨by decide, by decide,
    C7_sorted_rearrangement [[116, 104, 101], [116, 104]] _ (by decide) (by decide)⟩

/-- C8. Mandatory alphabet entries: every dictionary returned by `readWordList`
contains, for each of the 98 alphabet bytes, the one-byte word made of that byte; and
from an empty word file the dictionary has exactly 98 entries, each a one-byte word of
an alphabet byte. -/
theorem C8_alphabet_entries (fname : Option (List Nat)) (wl : WordList)
    (hd : readWordList fname = .done wl) :
    (∀ b : Nat, validChar (b : Int) = true → [b] ∈ wl.words)
      ∧ (fname = some [] →
          wl.len = 98 ∧ ∀ w ∈ wl.words, ∃ b : Nat, validChar (b : Int) = true ∧ w = [b]) := by
  have hdict := readWordList_isDict fname wl hd
  refine ⟨hdict.singles, ?_⟩
  intro he
  subst he
  have hv : ∀ w ∈ ([] : List Word), ValidWord w := by simp
  have hw := readWordList_words_eq [] wl hv hd
  rw [List.append_nil] at hw
  have hperm : wl.words.Perm singleChars := by rw [hw]; exact qsort_perm _
  refine ⟨?_, ?_⟩
  · rw [WordList.len, hperm.length_eq, singleChars_length]
  · intro w hwm
    obtain ⟨b, e, hb⟩ := (mem_singleChars w).mp (hperm.mem_iff.mp hwm)
    exact ⟨b, hb, e⟩

set_option maxRecDepth 100000 in
theorem C8_alphabet_entries_witness :
    readWordList (some []) = .done { words := qsort singleChars }
    ∧ ((∀ b : Nat, validChar (b : Int) = true
          → [b] ∈ ({ words := qsort singleChars } : WordList).words)
      ∧ (some ([] : List Nat) = some [] →
          ({ words := qsort singleChars } : WordList).len = 98
          ∧ ∀ w ∈ ({ words := qsort singleChars } : WordList).words,
              ∃ b : Nat, validChar (b : Int) = true ∧ w = [b])) :=
  ⟨by decide, C8_alphabet_entries (some []) _ (by decide)⟩

/-- C9. Dictionary overflow: for every list of n words that are each valid (2 to 20
bytes, all in the alphabet), `readWordList` on the word file listing them ends with the
fatal `Invalid word file` error if and only if 98 + n > 512, that is n >= 415; with
n <= 414 it returns a table of exactly 98 + n entries. -/
theorem C9_overflow (ws : List Word) (hv : ∀ w ∈ ws, ValidWord w) :
    (readWordList (some (renderWords ws)) = .fatal .invalidWordFile ↔ 98 + ws.length > 512)
      ∧ (98 + ws.length > 512 ↔ ws.length ≥ 415)
      ∧ (ws.length ≤ 414 →
          ∃ wl, readWordList (some (renderWords ws)) = .done wl
            ∧ wl.len = 98 + ws.length) := by
  obtain ⟨h1, h2⟩ := readWordList_words ws hv
  simp only [MAX_LISTLEN] at h1 h2
  refine ⟨⟨fun h => ?_, h1⟩, by omega, fun h => ?_⟩
  · by_contra hcon
    have h3 := (h2 (by omega)).symm.trans h
    exact Run.noConfusion h3
  · refine ⟨_, h2 (by omega), ?_⟩
    rw [WordList.len, (qsort_perm _).length_eq, List.length_append, singleChars_length]

set_option maxRecDepth 100000 in
theorem C9_overflow_witness :
    (∀ w ∈ [[116, 104, 101], [97, 98]], ValidWord w)
    ∧ ((readWordList (some (renderWords [[116, 104, 101], [97, 98]]))
          = .fatal .invalidWordFile ↔ 98 + [[116, 104, 101], [97, 98]].length > 512)
      ∧ (98 + [[116, 104, 101], [97, 98]].length > 512
          ↔ [[116, 104, 101], [97, 98]].length ≥ 415)
      ∧ ([[116, 104, 101], [97, 98]].length ≤ 414 →
          ∃ wl, readWordList (some (renderWords [[116, 104, 101], [97, 98]])) = .done wl
            ∧ wl.len = 98 + [[116, 104, 101], [97, 98]].length)) :=
  ⟨by decide, C9_overflow [[116, 104, 101], [97, 98]] (by decide)⟩

set_option maxRecDepth 100000 in
/-- C10, as stated, fails: each of these word files is accepted (no fatal error, a
dictionary is returned). (1) The single record with declared length -1 and word bytes
`ab`, the text `-1 ab`: the declared length is outside [2, 20]. (2) The records
`2 abc` and `25 x`: the second declared length is outside [2, 20], but reading stops at
the byte `c` left over from the first record. (3) The record `2 ab` followed by the
byte 7, which is outside the alphabet: reading stops at that byte. -/
theorem C10_malformed_accepted :
    (renderRecords [(-1, [97, 98])] = [45, 49, 32, 97, 98, 10]
      ∧ ((-1 : Int) < 2)
      ∧ readWordList (some (renderRecords [(-1, [97, 98])]))
          = .done { words := qsort singleChars })
    ∧ (renderRecords [(2, [97, 98, 99]), (25, [120])]
          = [50, 32, 97, 98, 99, 10, 50, 53, 32, 120, 10]
      ∧ ((20 : Int) < 25)
      ∧ readWordList (some (renderRecords [(2, [97, 98, 99]), (25, [120])]))
          = .done { words := qsort (singleChars ++ [[97, 98]]) })
    ∧ (renderRecords [(2, [97, 98, 7])] = [50, 32, 97, 98, 7, 10]
      ∧ validChar ((7 : Nat) : Int) = false
      ∧ readWordList (some (renderRecords [(2, [97, 98, 7])]))
          = .done { words := qsort (singleChars ++ [[97, 98]]) }) :=
  ⟨⟨by decide, by decide, by decide⟩, ⟨by decide, by decide, by decide⟩,
    ⟨by decide, by decide, by decide⟩⟩

/-- C10, amended. For every word file whose records are first well-formed records of
valid words (declared length equal to the number of word bytes) and then a record whose
declared length, an `int`, is outside [2, 20] and is not -1, or is in [2, 20] with a
byte outside the alphabet among that many first word bytes, whatever follows,
`readWordList` ends with the fatal `Invalid word file` error and returns no
dictionary. -/
theorem C10_malformed_record_fatal (good : List Word) (z : Int) (w : List Nat)
    (more : List (Int × List Nat)) (hgood : ∀ g ∈ good, ValidWord g)
    (hint : -2147483648 ≤ z ∧ z ≤ 2147483647)
    (hbad : (z ≠ -1 ∧ (z < 2 ∨ 20 < z))
      ∨ (2 ≤ z ∧ z ≤ 20 ∧ ∃ k b : Nat, k < z.toNat ∧ w[k]? = some b ∧ b < 256
          ∧ validChar (b : Int) = false)) :
    readWordList (some (renderRecords
        (good.map (fun g => ((g.length : Int), g)) ++ (z, w) :: more)))
      = .fatal .invalidWordFile := by
  apply readWordList_bad good (z, w) more hgood
  intro pre rest fuel list hpre
  rcases hbad with ⟨hne, hout⟩ | ⟨h2, h20, k, b, hk, hget, hb, hinv⟩
  · exact readWordsLoop_badLength z w pre rest hpre fuel list hint.1 hint.2 hne hout
  · exact readWordsLoop_badByte z w pre rest hpre fuel list h2 h20 k b hk hget hb hinv

set_option maxRecDepth 100000 in
theorem C10_malformed_record_fatal_witness :
    ((∀ g ∈ [[116, 104, 101]], ValidWord g)
      ∧ (-2147483648 ≤ (3 : Int) ∧ (3 : Int) ≤ 2147483647)
      ∧ ((2 : Int) ≤ 3 ∧ (3 : Int) ≤ 20 ∧ ([97, 7, 98] : List Nat)[1]? = some 7 ∧ 7 < 256
          ∧ validChar ((7 : Nat) : Int) = false)
      ∧ readWordList (some (renderRecords
          ([[116, 104, 101]].map (fun g => ((g.length : Int), g)) ++ (3, [97, 7, 98]) :: [])))
        = .fatal .invalidWordFile)
    ∧ ((-2147483648 ≤ (21 : Int) ∧ (21 : Int) ≤ 2147483647)
      ∧ ((21 : Int) ≠ -1 ∧ (20 : Int) < 21)
      ∧ readWordList (some (renderRecords
          ([[116, 104, 101]].map (fun g => ((g.length : Int), g))
            ++ (21, [97, 98]) :: [(2, [97, 98])])))
        = .fatal .invalidWordFile) :=
  ⟨⟨by decide, by decide, by decide,
      C10_malformed_record_fatal [[116, 104, 101]] 3 [97, 7, 98] [] (by decide) (by decide)
        (Or.inr ⟨by decide, by decide, 1, 7, by decide, by decide, by decide, by decide⟩)⟩,
    ⟨by decide, by decide,
      C10_malformed_record_fatal [[116, 104, 101]] 21 [97, 98] [(2, [97, 98])] (by decide)
        (by decide) (Or.inl ⟨by decide, Or.inr (by decide)⟩)⟩⟩

set_option maxRecDepth 100000 in
/-- C11, evaluated on the empty input file: `readFile` returns the six bytes it
allocated without having stored anything in them, so the buffer holds no string (the
NUL is stored inside the loop only), and `pack` then runs its loop on indeterminate
bytes. -/
theorem C11_empty_file_buffer :
    readFile { data := [], eof := false } = .done [none, none, none, none, none, none]
      ∧ cstring [none, none, none, none, none, none] = none
      ∧ packFile { words := qsort singleChars } [] = .undefined :=
  ⟨by decide, by decide, by decide⟩

set_option maxRecDepth 100000 in
/-- C12. Alphabet membership: for every byte value b in 0..255, `validChar` called with
b (converted to `char`) is true if and only if b is 9, 10, 13 or 32 <= b <= 126, and
exactly 98 of the 256 byte values are accepted. -/
theorem C12_alphabet_membership (b : Nat) (hb : b ≤ 255) :
    (validChar (toChar (b : Int)) = true
        ↔ (b = 9 ∨ b = 10 ∨ b = 13 ∨ (32 ≤ b ∧ b ≤ 126)))
      ∧ (validChar (b : Int) = true
        ↔ (b = 9 ∨ b = 10 ∨ b = 13 ∨ (32 ≤ b ∧ b ≤ 126)))
      ∧ ((List.range 256).filter (fun x => validChar (toChar (x : Int)))).length = 98 := by
  have h2 : validChar (b : Int) = true
      ↔ (b = 9 ∨ b = 10 ∨ b = 13 ∨ (32 ≤ b ∧ b ≤ 126)) := by
    rw [validChar_iff]
    omega
  refine ⟨?_, h2, by decide⟩
  rw [validChar_toChar b (by omega)]
  exact h2

theorem C12_alphabet_membership_witness :
    ((126 : Nat) ≤ 255)
    ∧ ((validChar (toChar ((126 : Nat) : Int)) = true
        ↔ ((126 : Nat) = 9 ∨ (126 : Nat) = 10 ∨ (126 : Nat) = 13
            ∨ (32 ≤ (126 : Nat) ∧ (126 : Nat) ≤ 126)))
      ∧ (validChar ((126 : Nat) : Int) = true
        ↔ ((126 : Nat) = 9 ∨ (126 : Nat) = 10 ∨ (126 : Nat) = 13
            ∨ (32 ≤ (126 : Nat) ∧ (126 : Nat) ≤ 126)))
      ∧ ((List.range 256).filter (fun x => validChar (toChar (x : Int)))).length = 98) :=
  ⟨by decide, C12_alphabet_membership 126 (by decide)⟩

/-- C14. `flushBits` emission: in every pending state reached by `writeCode` calls from
`{0, 0}` (codes in 0..511), `flushBits` appends exactly one byte to the file when
`bitCount` is 1..7, that byte being the pending bits, which are below
2 ^ bitCount (all higher positions zero); when `bitCount` is 0 it writes nothing and
leaves the pending state as it is. -/
theorem C14_flush_emission (codes : List Nat) (fp : List Nat) (hc : ∀ c ∈ codes, c ≤ 511) :
    (1 ≤ (writeCodes codes { bits := 0, bitCount := 0 } []).1.bitCount →
        (writeCodes codes { bits := 0, bitCount := 0 } []).1.bitCount ≤ 7
        ∧ (flushBits (writeCodes codes { bits := 0, bitCount := 0 } []).1 fp).2
            = fp ++ [(writeCodes codes { bits := 0, bitCount := 0 } []).1.bits]
        ∧ (writeCodes codes { bits := 0, bitCount := 0 } []).1.bits
            < 2 ^ (writeCodes codes { bits := 0, bitCount := 0 } []).1.bitCount
        ∧ ∀ j, (writeCodes codes { bits := 0, bitCount := 0 } []).1.bitCount ≤ j →
            (writeCodes codes { bits := 0, bitCount := 0 } []).1.bits.testBit j = false)
      ∧ ((writeCodes codes { bits := 0, bitCount := 0 } []).1.bitCount = 0 →
          flushBits (writeCodes codes { bits := 0, bitCount := 0 } []).1 fp
            = ((writeCodes codes { bits := 0, bitCount := 0 } []).1, fp)) := by
  have hc1 : ∀ c ∈ codes, c < 512 := fun c h => Nat.lt_succ_of_le (hc c h)
  obtain ⟨hcnt, hlt, _, _, _⟩ := writeCodes_init codes hc1
  generalize (writeCodes codes { bits := 0, bitCount := 0 } []).1 = p at hcnt hlt
  have h256 : p.bits < 256 := by
    have : 2 ^ p.bitCount ≤ 2 ^ 8 := Nat.pow_le_pow_right (by norm_num) (by omega)
    omega
  refine ⟨fun hpos => ⟨by omega, ?_, hlt, ?_⟩, fun h0 => ?_⟩
  · rw [flushBits_pos p fp (by omega), Nat.mod_eq_of_lt h256]
  · intro j hj
    exact Nat.testBit_lt_two_pow
      (lt_of_lt_of_le hlt (Nat.pow_le_pow_right (by norm_num) hj))
  · rw [flushBits_zero p fp h0, Nat.mod_eq_of_lt h256]

theorem C14_flush_emission_witness :
    (∀ c ∈ [300, 511, 7], c ≤ 511)
    ∧ ((1 ≤ (writeCodes [300, 511, 7] { bits := 0, bitCount := 0 } []).1.bitCount →
        (writeCodes [300, 511, 7] { bits := 0, bitCount := 0 } []).1.bitCount ≤ 7
        ∧ (flushBits (writeCodes [300, 511, 7] { bits := 0, bitCount := 0 } []).1 [1, 2]).2
            = [1, 2] ++ [(writeCodes [300, 511, 7] { bits := 0, bitCount := 0 } []).1.bits]
        ∧ (writeCodes [300, 511, 7] { bits := 0, bitCount := 0 } []).1.bits
            < 2 ^ (writeCodes [300, 511, 7] { bits := 0, bitCount := 0 } []).1.bitCount
        ∧ ∀ j, (writeCodes [300, 511, 7] { bits := 0, bitCount := 0 } []).1.bitCount ≤ j →
            (writeCodes [300, 511, 7] { bits := 0, bitCount := 0 } []).1.bits.testBit j = false)
      ∧ ((writeCodes [300, 511, 7] { bits := 0, bitCount := 0 } []).1.bitCount = 0 →
          flushBits (writeCodes [300, 511, 7] { bits := 0, bitCount := 0 } []).1 [1, 2]
            = ((writeCodes [300, 511, 7] { bits := 0, bitCount := 0 } []).1, [1, 2]))) :=
  ⟨by decide, C14_flush_emission [300, 511, 7] [1, 2] (by decide)⟩

/-- C13, evaluated on the state after one `writeCode`: writing the code 300 from
`{0, 0}` leaves one pending bit (`bits = 1`, `bitCount = 1`); `flushBits` then writes
the byte 1 and sets `bits` to 0 but leaves `bitCount` at 1, and a second `flushBits`
writes one more byte, 0. -/
theorem C13_flush_keeps_bitCount :
    writeCodes [300] { bits := 0, bitCount := 0 } []
        = ({ bits := 1, bitCount := 1 }, [44])
      ∧ flushBits { bits := 1, bitCount := 1 } [44] = ({ bits := 0, bitCount := 1 }, [44, 1])
      ∧ flushBits { bits := 0, bitCount := 1 } [44, 1]
          = ({ bits := 0, bitCount := 1 }, [44, 1, 0]) :=
  ⟨by decide, by decide, by decide⟩

/-- C15. `readCode` end-of-stream: for every pending state with `bitCount` at most 7 and
`bits` below 2 ^ bitCount and every remaining input of bytes, `readCode` returns -1 if
and only if bitCount + 8 r < 9 for the number r of bytes left; otherwise it returns a
value in 0..511 that is the next 9 bits of the low-bit-first stream, pending bits first,
and leaves in pending the high bits of the last byte read that it did not use. -/
theorem C15_readCode_end_of_stream (p : PendingBits) (data : List Nat)
    (hn : p.bitCount ≤ 7) (hb : p.bits < 2 ^ p.bitCount) (hd : ∀ b ∈ data, b < 256) :
    ((readCode p { data := data, eof := false }).1 = -1
        ↔ p.bitCount + 8 * data.length < 9)
      ∧ (9 ≤ p.bitCount + 8 * data.length →
          (readCode p { data := data, eof := false }).1
              = Int.ofNat ((p.bits + 2 ^ p.bitCount * streamValue data) % 512)
          ∧ 0 ≤ (readCode p { data := data, eof := false }).1
          ∧ (readCode p { data := data, eof := false }).1 ≤ 511
          ∧ (∀ k, k < 9 →
              ((p.bits + 2 ^ p.bitCount * streamValue data) % 512).testBit k
                = if k < p.bitCount then p.bits.testBit k
                  else (data.getD ((k - p.bitCount) / 8) 0).testBit ((k - p.bitCount) % 8))
          ∧ (p.bitCount = 0 → ∃ t m rest, data = t :: m :: rest
              ∧ (readCode p { data := data, eof := false }).2.1 = { bits := m / 2, bitCount := 7 }
              ∧ (readCode p { data := data, eof := false }).2.2 = { data := rest, eof := false })
          ∧ (p.bitCount ≠ 0 → ∃ t rest, data = t :: rest
              ∧ (readCode p { data := data, eof := false }).2.1
                  = { bits := t / 2 ^ (9 - p.bitCount), bitCount := p.bitCount - 1 }
              ∧ (readCode p { data := data, eof := false }).2.2
                  = { data := rest, eof := false })) := by
  have hstep := readCode_step p data hn hb hd
  refine ⟨⟨fun h => ?_, fun h => ?_⟩, fun h9 => ?_⟩
  · by_contra hcon
    obtain ⟨p1, data1, e, _⟩ := hstep (by omega)
    rw [e] at h
    exact ofNat_ne_neg_one _ h
  · rw [readCode_short p data hn h]
  · obtain ⟨p1, data1, e, _, _, _, _, _, hz, hp⟩ := hstep h9
    rw [e]
    refine ⟨rfl, Int.ofNat_nonneg _, ?_, fun k hk => testBit_stream p data hb hd k hk, ?_, ?_⟩
    · have : (p.bits + 2 ^ p.bitCount * streamValue data) % 512 < 512 :=
        Nat.mod_lt _ (by norm_num)
      show ((((p.bits + 2 ^ p.bitCount * streamValue data) % 512 : Nat)) : Int) ≤ 511
      omega
    · intro h0
      obtain ⟨t, m, e1, e2⟩ := hz h0
      exact ⟨t, m, data1, e1, e2, rfl⟩
    · intro h0
      obtain ⟨t, e1, e2⟩ := hp h0
      exact ⟨t, data1, e1, e2, rfl⟩

theorem C15_readCode_end_of_stream_witness :
    ((3 : Nat) ≤ 7 ∧ (5 : Nat) < 2 ^ 3 ∧ ∀ b ∈ [200, 17], b < 256)
    ∧ (((readCode { bits := 5, bitCount := 3 } { data := [200, 17], eof := false }).1 = -1
        ↔ 3 + 8 * [200, 17].length < 9)
      ∧ (9 ≤ 3 + 8 * [200, 17].length →
          (readCode { bits := 5, bitCount := 3 } { data := [200, 17], eof := false }).1
              = Int.ofNat ((5 + 2 ^ 3 * streamValue [200, 17]) % 512)
          ∧ 0 ≤ (readCode { bits := 5, bitCount := 3 } { data := [200, 17], eof := false }).1
          ∧ (readCode { bits := 5, bitCount := 3 } { data := [200, 17], eof := false }).1 ≤ 511
          ∧ (∀ k, k < 9 →
              ((5 + 2 ^ 3 * streamValue [200, 17]) % 512).testBit k
                = if k < 3 then (5 : Nat).testBit k
                  else ([200, 17].getD ((k - 3) / 8) 0).testBit ((k - 3) % 8))
          ∧ ((3 : Nat) = 0 → ∃ t m rest, [200, 17] = t :: m :: rest
              ∧ (readCode { bits := 5, bitCount := 3 } { data := [200, 17], eof := false }).2.1
                  = { bits := m / 2, bitCount := 7 }
              ∧ (readCode { bits := 5, bitCount := 3 } { data := [200, 17], eof := false }).2.2
                  = { data := rest, eof := false })
          ∧ ((3 : Nat) ≠ 0 → ∃ t rest, [200, 17] = t :: rest
              ∧ (readCode { bits := 5, bitCount := 3 } { data := [200, 17], eof := false }).2.1
                  = { bits := t / 2 ^ (9 - 3), bitCount := 3 - 1 }
              ∧ (readCode { bits := 5, bitCount := 3 } { data := [200, 17], eof := false }).2.2
                  = { data := rest, eof := false }))) :=
  ⟨⟨by decide, by decide, by decide⟩,
    C15_readCode_end_of_stream { bits := 5, bitCount := 3 } [200, 17] (by decide) (by decide)
      (by decide)⟩

/-- C16. Decoder stops exactly when fewer than 9 bits remain: for every sequence of B
bytes (any bytes, not only encoder output) the loop of `unpack`, calling `readCode` from
`pending = {0, 0}` until the input is at end-of-file, obtains exactly floor(8 B / 9)
codes and no more; the m-th is bits 9 m .. 9 m + 8 of the low-bit-first stream, a value
in 0..511; and with a table in which these codes are indices, `unpack` writes the
entries of exactly these codes. -/
theorem C16_decoder_code_count (data : List Nat) (hd : ∀ b ∈ data, b < 256) :
    ∃ codes : List Nat, unpackedCodes data = .done (codes.map Int.ofNat)
      ∧ codes.length = 8 * data.length / 9
      ∧ (∀ c ∈ codes, c ≤ 511)
      ∧ (∀ m, m < codes.length →
          codes.getD m 0 = (streamValue data / 2 ^ (9 * m)) % 512)
      ∧ (∀ m k, m < codes.length → k < 9 →
          (codes.getD m 0).testBit k
            = (data.getD ((9 * m + k) / 8) 0).testBit ((9 * m + k) % 8))
      ∧ (∀ wl : WordList, (∀ c ∈ codes, c < wl.len) →
          unpack wl data = .done (decodeCodes wl codes)) := by
  refine ⟨streamCodes (8 * data.length / 9) (streamValue data),
    (unpack_spec { words := [] } data hd).1, streamCodes_length _ _, ?_, ?_, ?_, ?_⟩
  · intro c hc
    exact Nat.le_of_lt_succ (streamCodes_lt _ _ c hc)
  · intro m hm
    rw [streamCodes_length] at hm
    have h512 : (512 : Nat) = 2 ^ 9 := by norm_num
    rw [streamCodes_getD _ _ m hm, h512, ← pow_mul]
  · intro m k hm hk
    rw [streamCodes_length] at hm
    rw [streamCodes_getD _ _ m hm, testBit_group _ _ _ hk, streamValue_testBit data hd]
  · intro wl hall
    exact (unpack_spec wl data hd).2.1 hall

theorem C16_decoder_code_count_witness :
    (∀ b ∈ [1, 2, 3, 4, 255, 6, 7, 8, 9, 10, 11], b < 256)
    ∧ ∃ codes : List Nat,
        unpackedCodes [1, 2, 3, 4, 255, 6, 7, 8, 9, 10, 11] = .done (codes.map Int.ofNat)
      ∧ codes.length = 8 * [1, 2, 3, 4, 255, 6, 7, 8, 9, 10, 11].length / 9
      ∧ (∀ c ∈ codes, c ≤ 511)
      ∧ (∀ m, m < codes.length →
          codes.getD m 0
            = (streamValue [1, 2, 3, 4, 255, 6, 7, 8, 9, 10, 11] / 2 ^ (9 * m)) % 512)
      ∧ (∀ m k, m < codes.length → k < 9 →
          (codes.getD m 0).testBit k
            = ([1, 2, 3, 4, 255, 6, 7, 8, 9, 10, 11].getD ((9 * m + k) / 8) 0).testBit
                ((9 * m + k) % 8))
      ∧ (∀ wl : WordList, (∀ c ∈ codes, c < wl.len) →
          unpack wl [1, 2, 3, 4, 255, 6, 7, 8, 9, 10, 11] = .done (decodeCodes wl codes)) :=
  ⟨by decide, C16_decoder_code_count [1, 2, 3, 4, 255, 6, 7, 8, 9, 10, 11] (by decide)⟩

set_option maxRecDepth 100000 in
/-- C17, as stated, fails: with the dictionary of the 98 one-character words (size 98),
the two bytes 200, 0 make the decoder read the code 200, which is not below 98; the
driver has no range check, the run is the undefined read of `words[200]`, and no fatal
error is reported. -/
theorem C17_no_range_check :
    readWordList (some []) = .done { words := qsort singleChars }
      ∧ ({ words := qsort singleChars } : WordList).len = 98
      ∧ unpackedCodes [200, 0] = .done [200]
      ∧ unpack { words := qsort singleChars } [200, 0] = .undefined
      ∧ ∀ e, unpack { words := qsort singleChars } [200, 0] ≠ .fatal e :=
  have hU : unpack { words := qsort singleChars } [200, 0] = .undefined := by decide
  ⟨by decide, by decide, by decide, hU, fun _ he => Run.noConfusion (hU.symm.trans he)⟩

/-- C17, amended. For every dictionary of size S and every file of bytes, the codes the
decoder reads are never negative (each is in 0..511; the end-of-stream -1 is not
looked up); if every code read is below S, the driver writes `words[c]` for each; if a
code read is S or more, the driver makes no check: the read of `words[c]` outside the
table is undefined behaviour; in no case does it end with a reported (fatal) error. -/
theorem C17_lookup_unchecked (wl : WordList) (data : List Nat) (hd : ∀ b ∈ data, b < 256) :
    ∃ codes : List Nat, unpackedCodes data = .done (codes.map Int.ofNat)
      ∧ (∀ c ∈ codes, c ≤ 511)
      ∧ ((∀ c ∈ codes, c < wl.len) → unpack wl data = .done (decodeCodes wl codes))
      ∧ ((∃ c ∈ codes, wl.len ≤ c) → unpack wl data = .undefined)
      ∧ ∀ e, unpack wl data ≠ .fatal e := by
  obtain ⟨h1, h2, h3⟩ := unpack_spec wl data hd
  refine ⟨streamCodes (8 * data.length / 9) (streamValue data), h1, ?_, h2, h3, ?_⟩
  · intro c hc
    exact Nat.le_of_lt_succ (streamCodes_lt _ _ c hc)
  · intro e he
    by_cases hall : ∀ c ∈ streamCodes (8 * data.length / 9) (streamValue data), c < wl.len
    · rw [h2 hall] at he
      exact Run.noConfusion he
    · have hex : ∃ c ∈ streamCodes (8 * data.length / 9) (streamValue data), wl.len ≤ c := by
        by_contra hcon
        apply hall
        intro c hc
        by_contra hlt
        exact hcon ⟨c, hc, Nat.le_of_not_lt hlt⟩
      rw [h3 hex] at he
      exact Run.noConfusion he

set_option maxRecDepth 100000 in
theorem C17_lookup_unchecked_witness :
    (∀ b ∈ [200, 0], b < 256)
    ∧ ∃ codes : List Nat, unpackedCodes [200, 0] = .done (codes.map Int.ofNat)
      ∧ (∀ c ∈ codes, c ≤ 511)
      ∧ ((∀ c ∈ codes, c < ({ words := qsort singleChars } : WordList).len) →
          unpack { words := qsort singleChars } [200, 0]
            = .done (decodeCodes { words := qsort singleChars } codes))
      ∧ ((∃ c ∈ codes, ({ words := qsort singleChars } : WordList).len ≤ c) →
          unpack { words := qsort singleChars } [200, 0] = .undefined)
      ∧ ∀ e, unpack { words := qsort singleChars } [200, 0] ≠ .fatal e :=
  ⟨by decide, C17_lookup_unchecked { words := qsort singleChars } [200, 0] (by decide)⟩

/-- C18, on the code: with the dictionary built from a word file without words, the
encoder emits no code for a non-empty text of alphabet bytes; the encoding loop is
undefined in its first iteration, where `bestCode` stores a NUL one past the end of
`copyString`. What the claim says of the table and of the decoder holds: the search of
`bestCode` after that store (its loop entered at the second iteration) finds, for a text
that starts with byte b, the position of the one-character word of b (tab 0, line feed
1, carriage return 2, a byte b in 32..126 the position b - 29), and the file written
for these positions is decoded to the text. -/
theorem C18_single_character_undefined (wl : WordList) (text : List Nat)
    (hd : readWordList (some []) = .done wl) (ht : ValidText text) (hne : text ≠ []) :
    packedCodes wl text = .undefined
      ∧ pack wl text = .undefined
      ∧ packFile wl text = .undefined
      ∧ (∀ b rest copyString, ValidText (b :: rest) → copyString.length = WORD_MAX + 1 →
          bestCodeLoop wl (b :: rest) WORD_MAX 1 copyString = .done (some (singleCode b)))
      ∧ (∀ i, i < text.length →
          wl.words[(text.map singleCode).getD i 0]? = some [text.getD i 0])
      ∧ unpack wl (packCodes (text.map singleCode)) = .done text := by
  have hwl := Run.done.inj (emptyFile_table.symm.trans hd)
  rw [← hwl]
  have hdict : IsDict { words := singleChars } := readWordList_isDict _ _ emptyFile_table
  have h1 : ∀ w ∈ ({ words := singleChars } : WordList).words, w.length = 1 := by
    intro w hw
    obtain ⟨b, e, _⟩ := (mem_singleChars w).mp hw
    rw [e]; rfl
  have hlt : ∀ c ∈ text.map singleCode, c < ({ words := singleChars } : WordList).len := by
    intro c hc
    obtain ⟨b, hb, rfl⟩ := List.mem_map.mp hc
    have hv := ht b hb
    have hb127 : b < 127 := by
      have := (validChar_iff _).mp hv
      omega
    exact (List.getElem?_eq_some_iff.mp (singleChars_code b hb127 hv)).1
  have h512 : ∀ c ∈ text.map singleCode, c < 512 := by
    intro c hc
    have h1 := hlt c hc
    have h2 : ({ words := singleChars } : WordList).len = 98 := singleChars_length
    omega
  refine ⟨packedCodes_undefined _ _ hne, pack_undefined _ _ hne, packFile_undefined _ _ ht,
    ?_, ?_, ?_⟩
  · intro b rest copyString hv hc
    have hb := hv b (List.mem_cons_self _ _)
    have hb127 : b < 127 := by
      have := (validChar_iff _).mp hb
      omega
    exact bestCodeLoop_single { words := singleChars } hdict h1 singleChars_nodup b rest hv
      (singleCode b) (singleChars_code b hb127 hb) copyString hc
  · intro i hi
    have hv := ht text[i] (List.getElem_mem _)
    have hb127 : text[i] < 127 := by
      have := (validChar_iff _).mp hv
      omega
    have h1 : (text.map singleCode).getD i 0 = singleCode text[i] := by
      rw [List.getD_eq_getElem _ _ (by rw [List.length_map]; exact hi), List.getElem_map]
    rw [h1, List.getD_eq_getElem _ _ hi]
    exact singleChars_code text[i] hb127 hv
  · rw [unpack_packCodes _ _ hlt h512, decodeCodes_single text ht]

set_option maxRecDepth 100000 in
theorem C18_single_character_undefined_witness :
    readWordList (some []) = .done { words := singleChars }
    ∧ ValidText [97, 98]
    ∧ [97, 98] ≠ []
    ∧ bestCode { words := singleChars } [97, 98] = .undefined
    ∧ bestCodeLoop { words := singleChars } [97, 98] WORD_MAX 1
        (strncpy (List.replicate (WORD_MAX + 1) 0) [97, 98] (WORD_MAX + 1)) = .done (some 68)
    ∧ bestCodeLoop { words := singleChars } [98] WORD_MAX 1
        (strncpy (List.replicate (WORD_MAX + 1) 0) [98] (WORD_MAX + 1)) = .done (some 69)
    ∧ packCodes [68, 69] = [0x44, 0x8A, 0x00]
    ∧ unpack { words := singleChars } [0x44, 0x8A, 0x00] = .done [97, 98]
    ∧ (packedCodes { words := singleChars } [97, 98] = .undefined
      ∧ pack { words := singleChars } [97, 98] = .undefined
      ∧ packFile { words := singleChars } [97, 98] = .undefined
      ∧ (∀ b rest copyString, ValidText (b :: rest) → copyString.length = WORD_MAX + 1 →
          bestCodeLoop { words := singleChars } (b :: rest) WORD_MAX 1 copyString
            = .done (some (singleCode b)))
      ∧ (∀ i, i < [97, 98].length →
          ({ words := singleChars } : WordList).words[([97, 98].map singleCode).getD i 0]?
            = some [[97, 98].getD i 0])
      ∧ unpack { words := singleChars } (packCodes ([97, 98].map singleCode))
          = .done [97, 98]) :=
  ⟨by decide, by decide, by decide, by decide, by decide, by decide, by decide, by decide,
    C18_single_character_undefined { words := singleChars } [97, 98] (by decide) (by decide)
      (by decide)⟩

/-- C19, on the code: for every dictionary built by `readWordList` and every word w of
two or more bytes in it, encoding the text w emits no code; the encoding loop is
undefined in its first iteration, where `bestCode` stores a NUL one past the end of
`copyString`. What the claim says of the table, of the search and of the decoder holds:
the search of `bestCode` after that store (its loop entered at the second iteration)
finds for w one code, whose table entry is w; for every single byte of w it finds a
code whose entry is that byte and which differs from the code of w; and the file
written for the code of w is decoded to w. -/
theorem C19_whole_word_undefined (fname : Option (List Nat)) (wl : WordList) (w : Word)
    (hd : readWordList fname = .done wl) (hw : w ∈ wl.words) (h2 : 2 ≤ w.length) :
    packedCodes wl w = .undefined
      ∧ pack wl w = .undefined
      ∧ ∃ code, wl.words[code]? = some w
        ∧ (∀ copyString, copyString.length = WORD_MAX + 1 →
            bestCodeLoop wl w WORD_MAX 1 copyString = .done (some code))
        ∧ (∀ c ∈ w, ∃ k, wl.words[k]? = some [c] ∧ k ≠ code
            ∧ ∀ copyString, copyString.length = WORD_MAX + 1 →
              bestCodeLoop wl [c] WORD_MAX 1 copyString = .done (some k))
        ∧ unpack wl (packCodes [code]) = .done w := by
  have hdict := readWordList_isDict fname wl hd
  have hv : ValidText w := hdict.word_valid w hw
  have hne : w ≠ [] := by
    intro e
    rw [e] at h2
    simp at h2
  have h0 : (List.replicate (WORD_MAX + 1) 0).length = WORD_MAX + 1 := List.length_replicate _ _
  obtain ⟨idx, w1, e, hidx, hget, hpre, _, _, hmax⟩ :=
    bestCodeLoop_second wl hdict w hv hne (List.replicate (WORD_MAX + 1) 0) h0
  have hw1 : w1 = w := hpre.eq_of_length_le (hmax w hw (List.prefix_refl w))
  rw [hw1] at hget
  have h512 : ∀ c ∈ [idx], c < 512 := by
    intro c hc
    rw [List.mem_singleton] at hc
    have := hdict.len_le
    simp only [MAX_LISTLEN] at this
    omega
  have hlen : ∀ c ∈ [idx], c < wl.len := by
    intro c hc
    rw [List.mem_singleton] at hc
    rw [hc]; exact hidx
  have hgd : wl.words.getD idx [] = w := by
    rw [List.getD_eq_getElem?_getD, hget]; rfl
  refine ⟨packedCodes_undefined wl w hne, pack_undefined wl w hne, idx, hget, ?_, ?_, ?_⟩
  · intro copyString hc
    rw [bestCodeLoop_indep wl w (validText_ne_zero _ hv) WORD_MAX 1 copyString
      (List.replicate (WORD_MAX + 1) 0) (le_refl _) hc h0]
    exact e
  · intro c hc
    have hvc : ValidText [c] := by
      intro x hx
      rw [List.mem_singleton] at hx
      rw [hx]; exact hv c hc
    obtain ⟨k, w2, e2, _, hget2, hpre2, hl2, _, _⟩ :=
      bestCodeLoop_second wl hdict [c] hvc (List.cons_ne_nil _ _)
        (List.replicate (WORD_MAX + 1) 0) h0
    have hw2 : w2 = [c] := hpre2.eq_of_length_le (by simpa using hl2)
    rw [hw2] at hget2
    refine ⟨k, hget2, ?_, ?_⟩
    · intro hk
      rw [hk, hget] at hget2
      have := congrArg (fun o => (o.getD []).length) hget2
      simp at this
      omega
    · intro copyString hcl
      rw [bestCodeLoop_indep wl [c] (validText_ne_zero _ hvc) WORD_MAX 1 copyString
        (List.replicate (WORD_MAX + 1) 0) (le_refl _) hcl h0]
      exact e2
  · rw [unpack_packCodes wl [idx] hlen h512, decodeCodes, hgd, decodeCodes, List.append_nil]

set_option maxRecDepth 100000 in
theorem C19_whole_word_undefined_witness :
    readWordList (some [51, 32, 116, 104, 101, 10])
        = .done { words := qsort (singleChars ++ [[116, 104, 101]]) }
    ∧ [116, 104, 101] ∈ ({ words := qsort (singleChars ++ [[116, 104, 101]]) } : WordList).words
    ∧ 2 ≤ [116, 104, 101].length
    ∧ bestCode { words := qsort (singleChars ++ [[116, 104, 101]]) } [116, 104, 101]
        = .undefined
    ∧ bestCodeLoop { words := qsort (singleChars ++ [[116, 104, 101]]) } [116, 104, 101]
        WORD_MAX 1 (strncpy (List.replicate (WORD_MAX + 1) 0) [116, 104, 101] (WORD_MAX + 1))
        = .done (some 88)
    ∧ bestCodeLoop { words := qsort (singleChars ++ [[116, 104, 101]]) } [116]
        WORD_MAX 1 (strncpy (List.replicate (WORD_MAX + 1) 0) [116] (WORD_MAX + 1))
        = .done (some 87)
    ∧ bestCodeLoop { words := qsort (singleChars ++ [[116, 104, 101]]) } [104]
        WORD_MAX 1 (strncpy (List.replicate (WORD_MAX + 1) 0) [104] (WORD_MAX + 1))
        = .done (some 75)
    ∧ bestCodeLoop { words := qsort (singleChars ++ [[116, 104, 101]]) } [101]
        WORD_MAX 1 (strncpy (List.replicate (WORD_MAX + 1) 0) [101] (WORD_MAX + 1))
        = .done (some 72)
    ∧ (packedCodes { words := qsort (singleChars ++ [[116, 104, 101]]) } [116, 104, 101]
        = .undefined
      ∧ pack { words := qsort (singleChars ++ [[116, 104, 101]]) } [116, 104, 101]
        = .undefined
      ∧ ∃ code,
        ({ words := qsort (singleChars ++ [[116, 104, 101]]) } : WordList).words[code]?
          = some [116, 104, 101]
        ∧ (∀ copyString, copyString.length = WORD_MAX + 1 →
            bestCodeLoop { words := qsort (singleChars ++ [[116, 104, 101]]) } [116, 104, 101]
              WORD_MAX 1 copyString = .done (some code))
        ∧ (∀ c ∈ [116, 104, 101], ∃ k,
            ({ words := qsort (singleChars ++ [[116, 104, 101]]) } : WordList).words[k]?
              = some [c]
            ∧ k ≠ code
            ∧ ∀ copyString, copyString.length = WORD_MAX + 1 →
              bestCodeLoop { words := qsort (singleChars ++ [[116, 104, 101]]) } [c]
                WORD_MAX 1 copyString = .done (some k))
        ∧ unpack { words := qsort (singleChars ++ [[116, 104, 101]]) } (packCodes [code])
            = .done [116, 104, 101]) :=
  ⟨by decide, by decide, by decide, by decide, by decide, by decide, by decide, by decide,
    C19_whole_word_undefined (some [51, 32, 116, 104, 101, 10]) _ [116, 104, 101] (by decide)
      (by decide) (by decide)⟩

/-- C20, on the code: for every dictionary built by `readWordList` and every non-empty
text of alphabet bytes the encoding loop completes no iteration: with the cursor at any
position inside the text the iteration is undefined, because `bestCode` stores a NUL one
past the end of `copyString`; there is no sequence of emitted codes and the loop does
not reach the end of the text. What the claim says of one step holds of the search
after that store (the loop of `bestCode` entered at its second iteration): at every
position inside the text it finds a code whose entry has between 1 and 20 bytes, is
the text at the cursor and does not reach past the end of the text. -/
theorem C20_encoder_undefined (fname : Option (List Nat)) (wl : WordList) (text : List Nat)
    (hd : readWordList fname = .done wl) (ht : ValidText text) (hne : text ≠ []) :
    packTrace wl text (text.length + 1) 0 = .undefined
      ∧ pack wl text = .undefined
      ∧ (∀ fuel pos pending output, pos < text.length →
          packLoop wl text (fuel + 1) pos pending output = .undefined)
      ∧ (∀ pos copyString, pos < text.length → copyString.length = WORD_MAX + 1 →
          ∃ code w, bestCodeLoop wl (text.drop pos) WORD_MAX 1 copyString = .done (some code)
            ∧ wl.words[code]? = some w ∧ 1 ≤ w.length ∧ w.length ≤ WORD_MAX
            ∧ pos + w.length ≤ text.length ∧ w <+: text.drop pos) := by
  have hdict := readWordList_isDict fname wl hd
  have h0 : 0 < text.length := List.length_pos.mpr hne
  refine ⟨packTrace_undefined wl text text.length 0 h0, pack_undefined wl text hne,
    fun fuel pos pending output h => packLoop_undefined wl text fuel pos pending output h, ?_⟩
  intro pos copyString hlt hc
  have hne2 : text.drop pos ≠ [] := by
    intro e
    have := congrArg List.length e
    simp at this
    omega
  have hvs : ValidText (text.drop pos) := fun x hx => ht x (List.mem_of_mem_drop hx)
  obtain ⟨idx, w, e, _, hget, hpre, hw1, hw2, _⟩ :=
    bestCodeLoop_second wl hdict (text.drop pos) hvs hne2 copyString hc
  have hwle : w.length ≤ (text.drop pos).length := hpre.length_le
  rw [List.length_drop] at hwle
  exact ⟨idx, w, e, hget, hw1, hw2, by omega, hpre⟩

set_option maxRecDepth 100000 in
theorem C20_encoder_undefined_witness :
    readWordList (some [51, 32, 116, 104, 101, 10])
        = .done { words := qsort (singleChars ++ [[116, 104, 101]]) }
    ∧ ValidText [116, 104, 101, 32, 116]
    ∧ [116, 104, 101, 32, 116] ≠ []
    ∧ packLoop { words := qsort (singleChars ++ [[116, 104, 101]]) } [116, 104, 101, 32, 116]
        6 0 { bits := 0, bitCount := 0 } [] = .undefined
    ∧ (packTrace { words := qsort (singleChars ++ [[116, 104, 101]]) }
          [116, 104, 101, 32, 116] ([116, 104, 101, 32, 116].length + 1) 0 = .undefined
      ∧ pack { words := qsort (singleChars ++ [[116, 104, 101]]) } [116, 104, 101, 32, 116]
          = .undefined
      ∧ (∀ fuel pos pending output, pos < [116, 104, 101, 32, 116].length →
          packLoop { words := qsort (singleChars ++ [[116, 104, 101]]) }
            [116, 104, 101, 32, 116] (fuel + 1) pos pending output = .undefined)
      ∧ (∀ pos copyString, pos < [116, 104, 101, 32, 116].length →
          copyString.length = WORD_MAX + 1 →
          ∃ code w,
            bestCodeLoop { words := qsort (singleChars ++ [[116, 104, 101]]) }
              ([116, 104, 101, 32, 116].drop pos) WORD_MAX 1 copyString = .done (some code)
            ∧ ({ words := qsort (singleChars ++ [[116, 104, 101]]) } : WordList).words[code]?
                = some w
            ∧ 1 ≤ w.length ∧ w.length ≤ WORD_MAX
            ∧ pos + w.length ≤ [116, 104, 101, 32, 116].length
            ∧ w <+: [116, 104, 101, 32, 116].drop pos)) :=
  ⟨by decide, by decide, by decide, by decide,
    C20_encoder_undefined (some [51, 32, 116, 104, 101, 10]) _ [116, 104, 101, 32, 116]
      (by decide) (by decide) (by decide)⟩

/-- C21. Bytes emitted per `writeCode`: for every code in 0..511 and every pending state
with `bitCount` = n in 0..7 and `bits` below 2 ^ n, `writeCode` appends exactly one byte
to the file when n < 7, leaving `bitCount` = n + 1 (and the n + 1 high bits of the code
in `bits`), and exactly two bytes when n = 7, leaving `bitCount` = 0 and `bits` = 0; it
never writes no byte or more than two. -/
theorem C21_bytes_per_writeCode (code : Nat) (p : PendingBits) (fp : List Nat)
    (hc : code ≤ 511) (hn : p.bitCount ≤ 7) (hb : p.bits < 2 ^ p.bitCount) :
    (p.bitCount < 7 →
        (writeCode code p fp).2 = fp ++ [(p.bits + code * 2 ^ p.bitCount) % 256]
        ∧ (writeCode code p fp).2.length = fp.length + 1
        ∧ (writeCode code p fp).1.bitCount = p.bitCount + 1
        ∧ (writeCode code p fp).1.bits = code / 2 ^ (8 - p.bitCount)
        ∧ (writeCode code p fp).1.bits < 2 ^ (p.bitCount + 1))
      ∧ (p.bitCount = 7 →
        (writeCode code p fp).2 = fp ++ [(p.bits + code * 2 ^ 7) % 256, code / 2]
        ∧ (writeCode code p fp).2.length = fp.length + 2
        ∧ (writeCode code p fp).1 = { bits := 0, bitCount := 0 })
      ∧ fp.length + 1 ≤ (writeCode code p fp).2.length
      ∧ (writeCode code p fp).2.length ≤ fp.length + 2 := by
  have hc1 : code < 512 := Nat.lt_succ_of_le hc
  obtain ⟨_, hq⟩ := write_arith p.bitCount p.bits code hn hb hc1
  have hq256 : code / 2 ^ (8 - p.bitCount) < 256 := by
    have : 2 ^ (p.bitCount + 1) ≤ 2 ^ 8 := Nat.pow_le_pow_right (by norm_num) (by omega)
    omega
  refine ⟨fun h7 => ?_, fun h7 => ?_, ?_, ?_⟩
  · rw [writeCode_lt7 code p fp h7]
    refine ⟨rfl, by simp, rfl, Nat.mod_eq_of_lt hq256, ?_⟩
    show (code / 2 ^ (8 - p.bitCount)) % 256 < 2 ^ (p.bitCount + 1)
    rw [Nat.mod_eq_of_lt hq256]
    exact hq
  · have h2 : (code / 2 ^ (8 - p.bitCount)) % 256 = code / 2 := by
      rw [Nat.mod_eq_of_lt hq256, h7]
      norm_num
    rw [writeCode_eq7 code p fp h7, h2, h7]
    exact ⟨by simp, by simp, rfl⟩
  · by_cases h7 : p.bitCount = 7
    · rw [writeCode_eq7 code p fp h7]
      simp
    · rw [writeCode_lt7 code p fp (by omega)]
      simp
  · by_cases h7 : p.bitCount = 7
    · rw [writeCode_eq7 code p fp h7]
      simp
    · rw [writeCode_lt7 code p fp (by omega)]
      simp

theorem C21_bytes_per_writeCode_witness :
    ((300 : Nat) ≤ 511 ∧ (7 : Nat) ≤ 7 ∧ (100 : Nat) < 2 ^ 7)
    ∧ writeCode 300 { bits := 100, bitCount := 7 } [9] = ({ bits := 0, bitCount := 0 }, [9, 100, 150])
    ∧ writeCode 300 { bits := 5, bitCount := 3 } [9] = ({ bits := 9, bitCount := 4 }, [9, 101])
    ∧ (((7 : Nat) < 7 →
        (writeCode 300 { bits := 100, bitCount := 7 } [9]).2
            = [9] ++ [(100 + 300 * 2 ^ 7) % 256]
        ∧ (writeCode 300 { bits := 100, bitCount := 7 } [9]).2.length = [9].length + 1
        ∧ (writeCode 300 { bits := 100, bitCount := 7 } [9]).1.bitCount = 7 + 1
        ∧ (writeCode 300 { bits := 100, bitCount := 7 } [9]).1.bits = 300 / 2 ^ (8 - 7)
        ∧ (writeCode 300 { bits := 100, bitCount := 7 } [9]).1.bits < 2 ^ (7 + 1))
      ∧ ((7 : Nat) = 7 →
        (writeCode 300 { bits := 100, bitCount := 7 } [9]).2
            = [9] ++ [(100 + 300 * 2 ^ 7) % 256, 300 / 2]
        ∧ (writeCode 300 { bits := 100, bitCount := 7 } [9]).2.length = [9].length + 2
        ∧ (writeCode 300 { bits := 100, bitCount := 7 } [9]).1 = { bits := 0, bitCount := 0 })
      ∧ [9].length + 1 ≤ (writeCode 300 { bits := 100, bitCount := 7 } [9]).2.length
      ∧ (writeCode 300 { bits := 100, bitCount := 7 } [9]).2.length ≤ [9].length + 2) :=
  ⟨⟨by decide, by decide, by decide⟩, by decide, by decide,
    C21_bytes_per_writeCode 300 { bits := 100, bitCount := 7 } [9] (by decide) (by decide)
      (by decide)⟩

/-- C22. Writer buffer invariant: starting from `pending = {0, 0}`, after any sequence
of K `writeCode` calls with codes in 0..511, into any file, the pending state has
`bitCount` = K mod 8 (hence between 0 and 7) and `bits` below 2 ^ bitCount: every bit
of `bits` from position `bitCount` up is zero, so no stale high-order bit is carried
into the next byte. -/
theorem C22_writer_invariant (codes : List Nat) (fp : List Nat)
    (hc : ∀ c ∈ codes, c ≤ 511) :
    (writeCodes codes { bits := 0, bitCount := 0 } fp).1.bitCount = codes.length % 8
      ∧ (writeCodes codes { bits := 0, bitCount := 0 } fp).1.bitCount ≤ 7
      ∧ (writeCodes codes { bits := 0, bitCount := 0 } fp).1.bits
          < 2 ^ (writeCodes codes { bits := 0, bitCount := 0 } fp).1.bitCount
      ∧ ∀ j, (writeCodes codes { bits := 0, bitCount := 0 } fp).1.bitCount ≤ j →
          (writeCodes codes { bits := 0, bitCount := 0 } fp).1.bits.testBit j = false := by
  have hc1 : ∀ c ∈ codes, c < 512 := fun c h => Nat.lt_succ_of_le (hc c h)
  obtain ⟨hcnt, hlt, _, _, _⟩ := writeCodes_init codes hc1
  rw [writeCodes_pending codes _ fp]
  generalize (writeCodes codes { bits := 0, bitCount := 0 } []).1 = p at hcnt hlt
  refine ⟨hcnt, by omega, hlt, ?_⟩
  intro j hj
  exact Nat.testBit_lt_two_pow (lt_of_lt_of_le hlt (Nat.pow_le_pow_right (by norm_num) hj))

theorem C22_writer_invariant_witness :
    (∀ c ∈ [300, 511, 7, 0, 256, 1, 2, 3, 4, 5, 6], c ≤ 511)
    ∧ (writeCodes [300, 511, 7, 0, 256, 1, 2, 3, 4, 5, 6] { bits := 0, bitCount := 0 } [9]).1
        = { bits := 0, bitCount := 3 }
    ∧ ((writeCodes [300, 511, 7, 0, 256, 1, 2, 3, 4, 5, 6] { bits := 0, bitCount := 0 }
          [9]).1.bitCount = [300, 511, 7, 0, 256, 1, 2, 3, 4, 5, 6].length % 8
      ∧ (writeCodes [300, 511, 7, 0, 256, 1, 2, 3, 4, 5, 6] { bits := 0, bitCount := 0 }
          [9]).1.bitCount ≤ 7
      ∧ (writeCodes [300, 511, 7, 0, 256, 1, 2, 3, 4, 5, 6] { bits := 0, bitCount := 0 }
          [9]).1.bits
          < 2 ^ (writeCodes [300, 511, 7, 0, 256, 1, 2, 3, 4, 5, 6] { bits := 0, bitCount := 0 }
              [9]).1.bitCount
      ∧ ∀ j, (writeCodes [300, 511, 7, 0, 256, 1, 2, 3, 4, 5, 6] { bits := 0, bitCount := 0 }
            [9]).1.bitCount ≤ j →
          (writeCodes [300, 511, 7, 0, 256, 1, 2, 3, 4, 5, 6] { bits := 0, bitCount := 0 }
            [9]).1.bits.testBit j = false) :=
  ⟨by decide, by decide,
    C22_writer_invariant [300, 511, 7, 0, 256, 1, 2, 3, 4, 5, 6] [9] (by decide)⟩

end PackUnpack
